import Mathlib

/-!
# MIMPI: a shallow embedding of the message-passing runtime

Sources embedded here: `src/mimpi_common.h`, `src/mimpi_common.c`, `src/mimpi.c`,
`src/mimpirun.c`.

Conventions of the embedding.
* C `int` values (tags, counts, ranks given by the caller) are `Int`; where a
  value is written to the wire it is reduced modulo `2 ^ 32`.
* Bytes (`char`, `u_int8_t`) are `Nat`; lane arithmetic is reduced modulo `256`.
* A `char*` payload is the `List Nat` of the bytes it designates; a `NULL`
  result is `none`. The block of a payload of zero bytes is not `NULL`
  (`malloc(0)` returns a pointer), it is `some []`.
* The nodes of the deadlock log and of a probe carry in `data` the address of a
  compound literal, not a block the node owns: for these nodes the field `data` holds
  the eight bytes of the address itself, and a read through it is a read of
  `State.memory`, which the program does not determine.
* A linked `buffer_t` (front .. rear) is the `List` of its nodes in link order.
-/

namespace MIMPI

/-! ## Constants and enumerations -/

/-- Modelled from the spec: `MIMPI_ANY_TAG` is declared in `mimpi.h`, which is not
among the sources; the spec fixes `ANY (= 0)`. -/
def MIMPI_ANY_TAG : Int := 0

/-- Modelled from the spec: the enumeration `MIMPI_Retcode` of `mimpi.h` (not among
the sources); the spec lists `SUCCESS`, `NO_SUCH_RANK`, `SELF_OP`,
`REMOTE_FINISHED`, `DEADLOCK_DETECTED`. -/
inductive MIMPI_Retcode where
  | MIMPI_SUCCESS
  | MIMPI_ERROR_ATTEMPTED_SELF_OP
  | MIMPI_ERROR_NO_SUCH_RANK
  | MIMPI_ERROR_REMOTE_FINISHED
  | MIMPI_ERROR_DEADLOCK_DETECTED
  deriving DecidableEq, Repr

/-- Modelled from the spec: the enumeration `MIMPI_Op` of `mimpi.h` (not among the
sources); the spec lists `MAX`, `MIN`, `SUM`, `PROD`. -/
inductive MIMPI_Op where
  | MIMPI_MAX
  | MIMPI_MIN
  | MIMPI_SUM
  | MIMPI_PROD
  deriving DecidableEq, Repr

open MIMPI_Retcode MIMPI_Op

def BARRIER_WAIT : Nat := 10
def BARRIER_WAKE : Nat := 20

def BARRIER_TAG : Int := -2
def BCAST_TAG : Int := -3
def REDUCE_TAG : Int := -4
def DEADLOCK_TAG : Int := -5

/-! ## Pending-message buffer (`mimpi_common.c`) -/

/-- The record `node_t`: `tag`, `count`, and the bytes designated by `data`.
The `next` link is the position in the enclosing list. -/
structure node_t where
  tag : Int
  count : Int
  data : List Nat
  deriving DecidableEq, Repr

/-- The record `buffer_t`: the nodes from `front` to `rear`. -/
abbrev buffer_t := List node_t

def node_create (tag count : Int) (data : List Nat) : node_t :=
  { tag := tag, count := count, data := data }

def buffer_create : buffer_t := []

/-- Function `buffer_add`: link a fresh node after `rear` (or make it the only node
when `rear == NULL`). -/
def buffer_add (buf : buffer_t) (tag count : Int) (data : List Nat) : buffer_t :=
  match buf with
  | [] => [node_create tag count data]
  | n :: rest => (n :: rest) ++ [node_create tag count data]

/-- The test of the loop of `extract_matching_data`:
`(current->tag == tag || tag == MIMPI_ANY_TAG) && current->count == count`. -/
def node_matches (tag count : Int) (current : node_t) : Bool :=
  (current.tag == tag || tag == MIMPI_ANY_TAG) && current.count == count

/-- The loop of `extract_matching_data`. `visited` holds the nodes already passed
(its last element is `prev`), the second list starts at `current`. The four
unlinking branches of the source are kept apart:
`current == front && current == rear`, `current == front`, `current == rear`,
and the interior case. -/
def extract_loop (tag count : Int) : List node_t → List node_t → Option (List Nat) × buffer_t
  | visited, [] => (none, visited)
  | visited, current :: next =>
    if node_matches tag count current then
      match visited, next with
      | [], [] => (some current.data, [])
      | [], n :: ns => (some current.data, n :: ns)
      | p :: ps, [] => (some current.data, p :: ps)
      | p :: ps, n :: ns => (some current.data, (p :: ps) ++ (n :: ns))
    else
      extract_loop tag count (visited ++ [current]) next

/-- Function `extract_matching_data`: the returned pointer (`none` for `NULL`)
together with the buffer after the call. -/
def extract_matching_data (buf : buffer_t) (tag count : Int) : Option (List Nat) × buffer_t :=
  extract_loop tag count [] buf

/-- Reference first-match-remove, following the words of the spec: find the first
position whose element has `count == requested_count` and (`tag == requested_tag`
or `requested_tag == ANY`), return its payload and erase that position; with no
such position return nothing and leave the buffer as it is. -/
def first_match_remove (buf : buffer_t) (tag count : Int) : Option (List Nat) × buffer_t :=
  match buf.findIdx? (fun m => m.count == count && (m.tag == tag || tag == MIMPI_ANY_TAG)) with
  | some i => (buf[i]?.map node_t.data, buf.eraseIdx i)
  | none => (none, buf)

/-! ## Sequences of calls on one buffer -/

/-- A call on a per-peer buffer: `buffer_add(buf, tag, count, data)` by the worker or
`extract_matching_data(buf, tag, count)` by a receiver. -/
inductive BufferCall where
  | add (tag count : Int) (data : List Nat)
  | extract (tag count : Int)
  deriving DecidableEq, Repr

/-- The payloads returned, in call order, by the extractions of `calls` that request
the key `(t, c)`, when the calls are made one after the other on the buffer `buf`. -/
def returned_for_key (t c : Int) : buffer_t → List BufferCall → List (List Nat)
  | _, [] => []
  | buf, .add tag count data :: calls =>
    returned_for_key t c (buffer_add buf tag count data) calls
  | buf, .extract tag count :: calls =>
    let r := extract_matching_data buf tag count
    if tag = t ∧ count = c then
      match r.1 with
      | some d => d :: returned_for_key t c r.2 calls
      | none => returned_for_key t c r.2 calls
    else returned_for_key t c r.2 calls

/-- The payloads, in call order, of the messages with tag `t` and count `c` that
`calls` appends. -/
def appended_with_key (t c : Int) : List BufferCall → List (List Nat)
  | [] => []
  | .add tag count data :: calls =>
    if tag = t ∧ count = c then data :: appended_with_key t c calls
    else appended_with_key t c calls
  | .extract _ _ :: calls => appended_with_key t c calls

/-- The payloads, in call order, of the appended messages that a request `(t, c)`
accepts: count `c`, and tag `t` unless `t` is ANY. -/
def appended_matching (t c : Int) : List BufferCall → List (List Nat)
  | [] => []
  | .add tag count data :: calls =>
    if node_matches t c (node_create tag count data) then data :: appended_matching t c calls
    else appended_matching t c calls
  | .extract _ _ :: calls => appended_matching t c calls

/-- The payloads of the pending messages that a request `(t, c)` accepts. -/
def pending_matching (t c : Int) (buf : buffer_t) : List (List Nat) :=
  (buf.filter (node_matches t c)).map node_t.data

/-! ## Wire layout (`mimpi_common.c`, `mimpi.c`) -/

/-- The four bytes of an `int` object, least significant first (the native layout
of the targets the program is built for). -/
def int_bytes (x : Int) : List Nat :=
  let u := (x % 2 ^ 32).toNat
  [u % 256, u / 256 % 256, u / 65536 % 256, u / 16777216 % 256]

/-- The `int` held by four bytes, least significant first, two's complement. -/
def bytes_int (b : List Nat) : Int :=
  let u : Int := (b.getD 0 0 + 256 * b.getD 1 0 + 65536 * b.getD 2 0 + 16777216 * b.getD 3 0 : Nat)
  if u < 2 ^ 31 then u else u - 2 ^ 32

/-- The conversion `(char) x` of an `int` (signed 8-bit `char`). -/
def to_char (x : Int) : Int := (x + 128) % 256 - 128

/-- The function `memcpy(dest, src, n)`: the first `n` bytes of `dest` are replaced by
the first `n` bytes of `src`. -/
def memcpy (dest src : List Nat) (n : Nat) : List Nat := src.take n ++ dest.drop n

/-- The function `merge_data`: a fresh block holding `count1` bytes of `data1` followed
by `count2` bytes of `data2`. -/
def merge_data (data1 : List Nat) (count1 : Nat) (data2 : List Nat) (count2 : Nat) : List Nat :=
  data1.take count1 ++ data2.take count2

def get_transfer_read_fd (i j : Int) : Int := 20 + 2 * (16 * i + j)

def get_transfer_write_fd (i j : Int) : Int := 20 + 2 * (16 * i + j) + 1

/-- The value of `sizeof(node_t)`: two `int` fields and two pointers (LP64). -/
def sizeof_node_t : Nat := 24

/-- The object representation of a `node_t` whose `data` is an address, as `MIMPI_Recv`
writes it to the wire: `tag`, `count`, the eight bytes of the pointer `data` and the
eight bytes of the pointer `next`, which `node_create` sets to `NULL`. -/
def node_image (n : node_t) : List Nat :=
  int_bytes n.tag ++ int_bytes n.count ++ (n.data ++ List.replicate 8 0).take 8
    ++ List.replicate 8 0

/-- Reading a `node_t` back from its object representation: the fields `tag`, `count`
and the eight bytes of the pointer `data`. -/
def node_of_image (b : List Nat) : node_t :=
  { tag := bytes_int (b.take 4), count := bytes_int ((b.drop 4).take 4),
    data := (b.drop 8).take 8 }

/-! ## Process state (`mimpi.c`) -/

/-- The file-scope variables of `mimpi.c`, with additions that stand for the
environment: `written fd` is the sequence of bytes `write_full` has sent on descriptor
`fd`, and `signals` counts the calls of `pthread_cond_signal(&wait_recv)`.
`send_literal` and `recv_literal` are the addresses (eight bytes each) of the compound
literals `(char){16}` of `MIMPI_Send` and `(char){my_world_rank}` of `MIMPI_Recv`.
`memory p` is the `char` a read through the pointer with bytes `p` yields when `p`
designates no live object of this process: the address of a compound literal whose
block has ended, or an address received from another process. The program determines
none of the last three. -/
structure State where
  detection : Bool
  deadlock : Bool
  my_world_rank : Int
  my_world_size : Int
  match_source : Int
  match_tag : Int
  match_count : Int
  match_data : Option (List Nat)
  exited : Int → Bool
  num_exited : Int
  parent : Int
  left : Int
  right : Int
  num_children : Int
  buffers : Int → buffer_t
  log : buffer_t
  written : Int → List Nat
  signals : Nat
  send_literal : List Nat
  recv_literal : List Nat
  memory : List Nat → Int

/-- Function `MIMPI_Init`, with the values of `MIMPI_World_rank()` and
`MIMPI_World_size()` as parameters. `MIMPI_Init` assigns none of `send_literal`,
`recv_literal` and `memory`; the state returned holds one possible environment (two
distinct addresses, memory reading 0), and `{ s with memory := m }` is the same process
in another one. -/
def MIMPI_Init (enable_deadlock_detection : Bool) (rank size : Int) : State :=
  { detection := enable_deadlock_detection
    deadlock := false
    my_world_rank := rank
    my_world_size := size
    match_source := -1
    match_tag := -1
    match_count := -1
    match_data := none
    exited := fun _ => false
    num_exited := 0
    parent := (rank - 1).tdiv 2
    left := 2 * rank + 1
    right := 2 * rank + 2
    num_children := (if 2 * rank + 1 < size then 1 else 0) + (if 2 * rank + 2 < size then 1 else 0)
    buffers := fun _ => buffer_create
    log := buffer_create
    written := fun _ => []
    signals := 0
    send_literal := [16, 0, 0, 0, 0, 0, 0, 0]
    recv_literal := [32, 0, 0, 0, 0, 0, 0, 0]
    memory := fun _ => 0 }

/-! ## Deadlock verdict -/

/-- First loop of `check_deadlock`: walk to the first node with
`*(curr->data) == (char)source && curr->tag == tag && curr->count == count`; the result
is `curr->next` and what follows, or `none` when `curr` reaches `NULL`. The read
`*(curr->data)` goes through `memory`: the pointer of a node of the log is the address
of a compound literal of another process, or of one of this process whose block has
ended. -/
def check_deadlock_find (memory : List Nat → Int) (source tag count : Int) :
    List node_t → Option (List node_t)
  | [] => none
  | curr :: next =>
    if to_char (memory curr.data) = to_char source ∧ curr.tag = tag ∧ curr.count = count then
      some next
    else check_deadlock_find memory source tag count next

/-- Second loop of `check_deadlock`: `false` at the first node with
`*(curr->data) == (char)16 && curr->tag == tag && curr->count == count`, `true` when
`curr` reaches `NULL`. -/
def check_deadlock_scan (memory : List Nat → Int) (tag count : Int) : List node_t → Bool
  | [] => true
  | curr :: next =>
    if to_char (memory curr.data) = to_char 16 ∧ curr.tag = tag ∧ curr.count = count then
      false
    else check_deadlock_scan memory tag count next

/-- Function `check_deadlock` over the list `log`, reading through the pointers of its
nodes in `memory`. -/
def check_deadlock (memory : List Nat → Int) (log : buffer_t) (source tag count : Int) : Bool :=
  match check_deadlock_find memory source tag count log with
  | none => false
  | some rest => check_deadlock_scan memory tag count rest

/-! ## Send -/

/-- Function `MIMPI_Send`: the return code and the state after the call. The marker
appended to the log holds the address `&(char){16}`; the literal belongs to the block of
the `if` and its storage ends with it. -/
def MIMPI_Send (s : State) (data : List Nat) (count destination tag : Int) :
    MIMPI_Retcode × State :=
  if destination = s.my_world_rank then
    (MIMPI_ERROR_ATTEMPTED_SELF_OP, s)
  else if destination < 0 ∨ destination ≥ s.my_world_size then
    (MIMPI_ERROR_NO_SUCH_RANK, s)
  else if s.exited destination then
    (MIMPI_ERROR_REMOTE_FINISHED, s)
  else
    let combined1 := merge_data (int_bytes tag) 4 (int_bytes count) 4
    let combined2 := merge_data combined1 (2 * 4) data count.toNat
    let fd := get_transfer_write_fd s.my_world_rank destination
    let s1 := { s with
      written := Function.update s.written fd
        (s.written fd ++ combined2.take (2 * 4 + count.toNat)) }
    let s2 := if s1.detection && decide (tag ≥ 0) then
        { s1 with log := buffer_add s1.log tag count s1.send_literal }
      else s1
    (MIMPI_SUCCESS, s2)

/-! ## Receive worker -/

/-- Function `handle_incoming_message` on stream `source`, where `stream` is the
sequence of bytes that can be read from `fds[source].fd`. The result is the state and
the unread rest of the stream; `none` when a `read_full` cannot complete on the bytes
present or `malloc` is asked for a negative size. -/
def handle_incoming_message (s : State) (source : Int) (stream : List Nat) :
    Option (State × List Nat) :=
  if stream.length < 8 then none
  else
    let tag := bytes_int (stream.take 4)
    let count := bytes_int ((stream.drop 4).take 4)
    let rest := stream.drop 8
    if s.detection && decide (tag = DEADLOCK_TAG) then
      if rest.length < sizeof_node_t then none
      else
        let tmp := node_of_image (rest.take sizeof_node_t)
        some ({ s with log := buffer_add s.log tmp.tag tmp.count tmp.data },
          rest.drop sizeof_node_t)
    else
      if count < 0 ∨ rest.length < count.toNat then none
      else
        let data := rest.take count.toNat
        some ({ s with
          buffers := Function.update s.buffers source
            (buffer_add (s.buffers source) tag count data) },
          rest.drop count.toNat)

def cond_signal (s : State) : State := { s with signals := s.signals + 1 }

/-- Function `handle_signal_recv` (called with the mutex held). -/
def handle_signal_recv (s : State) (source : Int) : State :=
  if s.detection && decide (s.match_source = source) then
    let s1 := { s with
      deadlock := s.deadlock ||
        check_deadlock s.memory s.log source s.match_tag s.match_count }
    if s1.deadlock then cond_signal s1 else s1
  else if decide (s.match_source = source) && s.match_data.isNone then
    let r := extract_matching_data (s.buffers s.match_source) s.match_tag s.match_count
    let s1 := { s with
      match_data := r.1
      buffers := Function.update s.buffers s.match_source r.2 }
    if s1.match_data.isSome || s1.exited s1.match_source then cond_signal s1 else s1
  else s

/-- The critical sections of one turn of `worker_runnable` for stream `i`:
`recv_msg` is `handle_incoming_message(i)` on the bytes readable on the stream,
`signal_recv` is the locked call `handle_signal_recv(i)` that follows it, and `hangup`
is the `POLLHUP` branch (`exited[i] = true; handle_signal_recv(i)` under the mutex,
then `++num_exited`). -/
inductive WorkerAction where
  | recv_msg (i : Int) (stream : List Nat)
  | signal_recv (i : Int)
  | hangup (i : Int)

/-- The stream a critical section of the worker is about. -/
def WorkerAction.index : WorkerAction → Int
  | .recv_msg i _ => i
  | .signal_recv i => i
  | .hangup i => i

/-- One critical section of the worker. A `recv_msg` whose reads cannot complete
leaves the state as it is; a `hangup` on a stream already marked exited is skipped
(`!exited[i]`). -/
def worker_section (s : State) : WorkerAction → State
  | .recv_msg i stream =>
    match handle_incoming_message s i stream with
    | some r => r.1
    | none => s
  | .signal_recv i => handle_signal_recv s i
  | .hangup i =>
    if s.exited i then s
    else
      let s1 := handle_signal_recv { s with exited := Function.update s.exited i true } i
      { s1 with num_exited := s1.num_exited + 1 }

/-- One step of the worker: the loop `for (int i = 0; i < my_world_size; i++)` of
`worker_runnable` only visits the streams `0 .. my_world_size - 1`, so an action on
another index does not occur and changes nothing. -/
def worker_step (s : State) (a : WorkerAction) : State :=
  if 0 ≤ a.index ∧ a.index < s.my_world_size then worker_section s a else s

/-- A sequence of critical sections of the worker. -/
def worker_run (s : State) (acts : List WorkerAction) : State := acts.foldl worker_step s

/-! ## Receive -/

/-- How a blocking call of the user thread ends under a given schedule of the worker:
it returns, it is still parked on the condition variable when the schedule is used up,
or an `assert` fails. -/
inductive Outcome (α : Type) where
  | returned : α → Outcome α
  | parked : Outcome α
  | assert_failed : Outcome α

/-- The first critical section of `MIMPI_Recv` (after the rank checks):
`match_data = extract_matching_data(buffers[source], tag, count)`. -/
def recv_extract (s : State) (count source tag : Int) : State :=
  let r := extract_matching_data (s.buffers source) tag count
  { s with match_data := r.1, buffers := Function.update s.buffers source r.2 }

/-- The test `match_data == NULL && !exited[source] && detection` that guards the
probe. -/
def recv_probes (s : State) (source : Int) : Bool :=
  s.match_data.isNone && !s.exited source && s.detection

/-- The probe of `MIMPI_Recv`:
`MIMPI_Send(node_create(tag, count, &(char){my_world_rank}), sizeof(node_t), source, DEADLOCK_TAG)`;
the node sent holds the address of the literal, and the return code is dropped as in
the source. -/
def recv_send_probe (s : State) (count source tag : Int) : State :=
  let tosend := node_create tag count s.recv_literal
  (MIMPI_Send s (node_image tosend) sizeof_node_t source DEADLOCK_TAG).2

/-- The statement `deadlock = deadlock || check_deadlock(source, tag, count)`. -/
def recv_check (s : State) (count source tag : Int) : State :=
  { s with deadlock := s.deadlock || check_deadlock s.memory s.log source tag count }

/-- The test of the `while` loop of `MIMPI_Recv`. -/
def recv_waits (s : State) (source : Int) : Bool :=
  s.match_data.isNone && !s.exited source && !s.deadlock

/-- The `while` loop of `MIMPI_Recv`. Each element of `waits` is what the worker does
during one `pthread_cond_wait` (the mutex is released for its duration); the loop
publishes the request, lets the worker run, clears the request and tests again. The
result is the state at loop exit, or `none` when the schedule ends with the caller
still waiting. -/
def recv_loop (count source tag : Int) : State → List (List WorkerAction) → Option State
  | s, [] => if recv_waits s source then none else some s
  | s, w :: ws =>
    if recv_waits s source then
      let s1 := { s with match_source := source, match_tag := tag, match_count := count }
      let s2 := worker_run s1 w
      let s3 := { s2 with match_source := -1, match_tag := -1, match_count := -1 }
      recv_loop count source tag s3 ws
    else some s

/-- The end of `MIMPI_Recv`, after the loop: deliver, or report deadlock, or assert
`exited[source]` and report the finished peer. The second component is the caller's
buffer `data` after the call. -/
def recv_finish (s : State) (data : List Nat) (count source : Int) :
    Outcome (MIMPI_Retcode × List Nat × State) :=
  match s.match_data with
  | some m =>
    .returned (MIMPI_SUCCESS, memcpy data m count.toNat, { s with match_data := none })
  | none =>
    if s.deadlock then .returned (MIMPI_ERROR_DEADLOCK_DETECTED, data, s)
    else if s.exited source then .returned (MIMPI_ERROR_REMOTE_FINISHED, data, s)
    else .assert_failed

/-- The state of `MIMPI_Recv` on reaching the `while` loop. The worker runs `w1`
between the first `unlock` and the probe, and `w2` between the probe and the second
`lock` (both only on the path that sends a probe). -/
def recv_enter (s : State) (count source tag : Int) (w1 w2 : List WorkerAction) : State :=
  let s1 := recv_extract s count source tag
  if recv_probes s1 source then
    let s2 := worker_run s1 w1
    let s3 := recv_send_probe s2 count source tag
    let s4 := worker_run s3 w2
    recv_check s4 count source tag
  else s1

/-- Function `MIMPI_Recv`, under a schedule of the worker: `w1` and `w2` as in
`recv_enter`, `waits` as in `recv_loop`. `data` is the caller's buffer. -/
def MIMPI_Recv (s : State) (data : List Nat) (count source tag : Int)
    (w1 w2 : List WorkerAction) (waits : List (List WorkerAction)) :
    Outcome (MIMPI_Retcode × List Nat × State) :=
  if source = s.my_world_rank then
    .returned (MIMPI_ERROR_ATTEMPTED_SELF_OP, data, s)
  else if source < 0 ∨ source ≥ s.my_world_size then
    .returned (MIMPI_ERROR_NO_SUCH_RANK, data, s)
  else
    match recv_loop count source tag (recv_enter s count source tag w1 w2) waits with
    | none => .parked
    | some s1 => recv_finish s1 data count source

/-- The frame of one message on the wire: the bytes of `tag`, the bytes of `count`,
then the payload. -/
def frame (tag count : Int) (payload : List Nat) : List Nat :=
  int_bytes tag ++ int_bytes count ++ payload

/-- The return code and the caller's buffer of a call that returned. -/
def Outcome.result : Outcome (MIMPI_Retcode × List Nat × State) → Option (MIMPI_Retcode × List Nat)
  | .returned r => some (r.1, r.2.1)
  | .parked => none
  | .assert_failed => none

/-! ## Invariants of the process state -/

/-- Every pending message holds as many bytes as its `count` says (the worker
allocates and reads `count` bytes for it). -/
def wf_buffers (s : State) : Prop :=
  ∀ i, ∀ n ∈ s.buffers i, n.data.length = n.count.toNat

/-- The state as a call `MIMPI_Recv(data, count, ..)` and the worker keep it: pending
messages are well formed, a matched payload has `count` bytes, and a published request
asks for `count` bytes. -/
def slot_inv (count : Int) (s : State) : Prop :=
  wf_buffers s ∧ (∀ m, s.match_data = some m → m.length = count.toNat) ∧
    (s.match_source ≠ -1 → s.match_count = count)

/-- Whether a call is still parked when the schedule of the worker is used up. -/
def Outcome.is_parked : Outcome (MIMPI_Retcode × List Nat × State) → Bool
  | .returned _ => false
  | .parked => true
  | .assert_failed => false

/-! ## Two processes that receive from each other -/

/-- The bytes that rank `p` of 2, fresh from `MIMPI_Init(true)`, writes on the
descriptor of its channel to rank `r` when it calls `MIMPI_Recv(dest, c, r, t)` and
finds nothing buffered: its probe. -/
def mutual_probe (p r t c : Int) : List Nat :=
  (recv_enter (MIMPI_Init true p 2) c r t [] []).written (get_transfer_write_fd p r)

/-- Rank `r` of 2 after `MIMPI_Init(true)`, in a process whose memory reads the `char`
`b` behind every pointer that designates no live object. -/
def scenario_detecting (r b : Int) : State :=
  { MIMPI_Init true r 2 with memory := fun _ => b }

/-! ## A deadlock log built by the code -/

/-- The bytes rank 1 of 3 writes to rank 0 when it calls `MIMPI_Recv(dest, 1, 0, 5)` with
detection enabled and nothing buffered: its probe for the key `(5, 1)`. -/
def scenario_probe_frame : List Nat :=
  (recv_enter (MIMPI_Init true 1 3) 1 0 5 [] []).written (get_transfer_write_fd 1 0)

/-- Rank 0 of 3 with detection enabled, once its worker has taken that probe. -/
def scenario_probed : State :=
  worker_run (MIMPI_Init true 0 3) [.recv_msg 1 scenario_probe_frame, .signal_recv 1]

/-- The same process after it has sent a one-byte message with tag 5 to rank 2. -/
def scenario_probed_sent : State :=
  (MIMPI_Send scenario_probed [9] 1 2 5).2

/-! ## Concrete scenarios -/

/-- Rank 1 of 2 after `MIMPI_Init(false)`, once its worker has taken a one-byte message
with tag 5 from rank 0. -/
def scenario_receiver_with_tag5 : State :=
  worker_run (MIMPI_Init false 1 2) [.recv_msg 0 (frame 5 1 [0xBB]), .signal_recv 0]

/-- The same process once its worker has also taken a one-byte message with tag 0 that
rank 0 sent afterwards. -/
def scenario_receiver_with_tag5_tag0 : State :=
  worker_run scenario_receiver_with_tag5 [.recv_msg 0 (frame 0 1 [0xAA]), .signal_recv 0]

/-! ## Collectives: the tree of ranks (`MIMPI_Init`) -/

/-- The value `parent = (my_world_rank - 1) / 2` for a rank `v >= 0`; the division of C
truncates toward zero, so rank 0 gets 0. -/
def tree_parent (v : Nat) : Nat := (v - 1) / 2

def tree_left (v : Nat) : Nat := 2 * v + 1

def tree_right (v : Nat) : Nat := 2 * v + 2

/-- The value `num_children = (left < my_world_size) + (right < my_world_size)`. -/
def tree_num_children (size v : Nat) : Nat :=
  (if tree_left v < size then 1 else 0) + (if tree_right v < size then 1 else 0)

/-- The peers `left + i`, `i = 0 .. num_children - 1`, that the loops of the collectives
visit, in loop order. -/
def tree_children (size v : Nat) : List Nat :=
  (List.range (tree_num_children size v)).map (fun i => tree_left v + i)

/-! ## Reduce -/

/-- One lane of `partially_reduce`: the macro `MAX`, `MIN`, `SUM` or `PROD` applied to two
`u_int8_t` values (promoted to `int`), stored back into a `u_int8_t`. -/
def reduce_lane (op : MIMPI_Op) (x y : Nat) : Nat :=
  (match op with
    | MIMPI_MAX => if x > y then x else y
    | MIMPI_MIN => if x < y then x else y
    | MIMPI_SUM => x + y
    | MIMPI_PROD => x * y) % 256

/-- Function `partially_reduce`: the loop `for (i = 0; i < count; i++)` over the lanes. -/
def partially_reduce (part update : List Nat) (count : Nat) (op : MIMPI_Op) : List Nat :=
  (List.range count).foldl
    (fun acc i => acc.set i (reduce_lane op (acc.getD i 0) (update.getD i 0))) part

/-- The first part of `MIMPI_Reduce` at one rank: `partial` is initialised from
`send_data`, then each child's partial result is received into `buf` and folded in.
`delivered c` is the payload that `MIMPI_Recv(buf, count, c, REDUCE_TAG)` delivers. The
result is `partial` as it is sent to the parent. -/
def reduce_collect (rank size : Nat) (send_data : List Nat) (count : Nat) (op : MIMPI_Op)
    (delivered : Nat → List Nat) : List Nat :=
  (tree_children size rank).foldl
    (fun acc child =>
      partially_reduce acc (memcpy (List.replicate count 0) (delivered child) count) count op)
    (memcpy (List.replicate count 0) send_data count)

/-- The second part of `MIMPI_Reduce`: a rank other than 0 receives the complete result
from its parent into `partial`. -/
def reduce_complete (rank : Nat) (part from_parent : List Nat) (count : Nat) : List Nat :=
  if rank ≠ 0 then memcpy part from_parent count else part

/-- What a call of `MIMPI_Reduce` leaves behind: the return code, the payload sent to
the parent, the caller's `recv_data` and the payload sent to each child. -/
structure ReduceRun where
  ret : MIMPI_Retcode
  sent_parent : List Nat
  recv_data : List Nat
  sent_children : List Nat

/-- Function `MIMPI_Reduce` at one rank, every point-to-point call succeeding;
`delivered peer` is the payload delivered by the `MIMPI_Recv` from `peer`. -/
def MIMPI_Reduce (rank size : Nat) (send_data recv_data : List Nat) (count : Nat)
    (op : MIMPI_Op) (root : Int) (delivered : Nat → List Nat) : ReduceRun :=
  if root < 0 ∨ root ≥ size then
    { ret := MIMPI_ERROR_NO_SUCH_RANK, sent_parent := [], recv_data := recv_data,
      sent_children := [] }
  else
    let partial1 := reduce_collect rank size send_data count op delivered
    let partial2 := reduce_complete rank partial1 (delivered (tree_parent rank)) count
    { ret := MIMPI_SUCCESS
      sent_parent := partial1
      recv_data := if (rank : Int) = root then memcpy recv_data partial2 count else recv_data
      sent_children := partial2 }

/-- The payload rank `v` sends to its parent when all ranks run `MIMPI_Reduce`: each
`MIMPI_Recv` from a child delivers what that child sent to its parent. `fuel` bounds the
depth of the tree below `v`. -/
def reduce_up (size count : Nat) (op : MIMPI_Op) (send : Nat → List Nat) : Nat → Nat → List Nat
  | 0, v => reduce_collect v size (send v) count op (fun _ => [])
  | fuel + 1, v =>
    reduce_collect v size (send v) count op (fun c => reduce_up size count op send fuel c)

/-- What the receives deliver in a run in which all ranks call `MIMPI_Reduce` with the
same `count`, `op` and `root` and every point-to-point call succeeds: `del v p` is the
payload the `MIMPI_Recv` of rank `v` from rank `p` delivers. One message travels on each
link of the tree in each direction, so the receive from a child delivers what the call
of that child sent to its parent, and the receive from the parent delivers what the call
of the parent sent to its children. -/
def reduce_delivery_ok (size count : Nat) (op : MIMPI_Op) (root : Nat)
    (send recv : Nat → List Nat) (del : Nat → Nat → List Nat) : Prop :=
  ∀ v, v < size →
    (∀ c ∈ tree_children size v,
      del v c = (MIMPI_Reduce c size (send c) (recv c) count op root (del c)).sent_parent) ∧
    (v ≠ 0 →
      del v (tree_parent v)
        = (MIMPI_Reduce (tree_parent v) size (send (tree_parent v)) (recv (tree_parent v))
            count op root (del (tree_parent v))).sent_children)

/-- The deliveries of that run in closed form: a child (a higher rank) delivers its
partial result, the parent delivers the partial result of rank 0. -/
def reduce_deliveries (size count : Nat) (op : MIMPI_Op) (send : Nat → List Nat)
    (v p : Nat) : List Nat :=
  if v < p then reduce_up size count op send size p else reduce_up size count op send size 0

/-- Reference value following the words of the spec, `op(x_0, ..., x_{n-1})` on byte
values: the greatest, the least, the sum modulo 256, the product modulo 256. -/
def op_spec (op : MIMPI_Op) (xs : List Nat) : Nat :=
  match op with
  | MIMPI_MAX => xs.foldl max 0
  | MIMPI_MIN => xs.foldl min (xs.headD 0)
  | MIMPI_SUM => xs.sum % 256
  | MIMPI_PROD => xs.prod % 256

/-- The value `op(s_0[i], ..., s_{N-1}[i])` of the spec for lane `i`. -/
def reduce_lane_spec (op : MIMPI_Op) (send : Nat → List Nat) (size i : Nat) : Nat :=
  op_spec op ((List.range size).map (fun r => (send r).getD i 0))

/-- The ranks below `v` in the tree, in the order in which their contributions are
folded into the partial result of `v`. -/
def tree_below (size : Nat) : Nat → Nat → List Nat
  | 0, _ => []
  | fuel + 1, v => (tree_children size v).flatMap (fun c => c :: tree_below size fuel c)

/-! ## Bcast -/

/-- The function `memset(dest, byte, n)`. -/
def memset (dest : List Nat) (byte n : Nat) : List Nat := List.replicate n byte ++ dest.drop n

/-- The loop of `is_bcast_path`: `while (curr != 0) { curr = (curr - 1) / 2; if (curr == v)
return true; }` and `return false` after it. Every turn decreases `curr`, so `fuel = curr`
turns are enough. -/
def is_bcast_path_loop (v : Nat) : Nat → Nat → Bool
  | 0, _ => false
  | fuel + 1, curr =>
    if curr ≠ 0 then
      if (curr - 1) / 2 = v then true
      else is_bcast_path_loop v fuel ((curr - 1) / 2)
    else false

/-- Function `is_bcast_path`. -/
def is_bcast_path (v root : Nat) : Bool :=
  if v = root then true else is_bcast_path_loop v root root

/-- The first part of `MIMPI_Bcast` at one rank: the buffer is zeroed unless the rank is
the root, then each child's payload is received into `buf` and adopted when the child
is on the path from the root to rank 0. `delivered c` is the payload that
`MIMPI_Recv(buf, count, c, BCAST_TAG)` delivers. -/
def bcast_collect (rank size : Nat) (data : List Nat) (count root : Nat)
    (delivered : Nat → List Nat) : List Nat :=
  (tree_children size rank).foldl
    (fun data child =>
      if is_bcast_path child root then
        memcpy data (memcpy (List.replicate count 0) (delivered child) count) count
      else data)
    (if rank ≠ root then memset data 0 count else data)

/-- The second part of `MIMPI_Bcast`: a rank other than 0 receives the data from its
parent into `data`. -/
def bcast_complete (rank : Nat) (data from_parent : List Nat) (count : Nat) : List Nat :=
  if rank ≠ 0 then memcpy data from_parent count else data

/-- What a call of `MIMPI_Bcast` leaves behind: the return code, the payload sent to the
parent, the caller's `data` and the payload sent to each child. -/
structure BcastRun where
  ret : MIMPI_Retcode
  sent_parent : List Nat
  data : List Nat
  sent_children : List Nat

/-- Function `MIMPI_Bcast` at one rank, every point-to-point call succeeding;
`delivered peer` is the payload delivered by the `MIMPI_Recv` from `peer`. -/
def MIMPI_Bcast (rank size : Nat) (data : List Nat) (count : Nat) (root : Int)
    (delivered : Nat → List Nat) : BcastRun :=
  if root < 0 ∨ root ≥ size then
    { ret := MIMPI_ERROR_NO_SUCH_RANK, sent_parent := [], data := data, sent_children := [] }
  else
    let data1 := bcast_collect rank size data count root.toNat delivered
    let data2 := bcast_complete rank data1 (delivered (tree_parent rank)) count
    { ret := MIMPI_SUCCESS
      sent_parent := data1.take count
      data := data2
      sent_children := data2.take count }

/-- The buffer of rank `v` after its loop over the children when all ranks run
`MIMPI_Bcast`: each `MIMPI_Recv` from a child delivers the `count` bytes that child sent
to its parent. `fuel` bounds the depth of the tree below `v`. -/
def bcast_up (size count root : Nat) (data : Nat → List Nat) : Nat → Nat → List Nat
  | 0, v => bcast_collect v size (data v) count root (fun _ => [])
  | fuel + 1, v =>
    bcast_collect v size (data v) count root
      (fun c => (bcast_up size count root data fuel c).take count)

/-- What the receives deliver in a run in which all ranks call `MIMPI_Bcast` with the
same `count` and `root` and every point-to-point call succeeds: `del v p` is the payload
the `MIMPI_Recv` of rank `v` from rank `p` delivers. The receive from a child delivers
what the call of that child sent to its parent, and the receive from the parent delivers
what the call of the parent sent to its children. -/
def bcast_delivery_ok (size count root : Nat) (data : Nat → List Nat)
    (del : Nat → Nat → List Nat) : Prop :=
  ∀ v, v < size →
    (∀ c ∈ tree_children size v,
      del v c = (MIMPI_Bcast c size (data c) count root (del c)).sent_parent) ∧
    (v ≠ 0 →
      del v (tree_parent v)
        = (MIMPI_Bcast (tree_parent v) size (data (tree_parent v)) count root
            (del (tree_parent v))).sent_children)

/-- The deliveries of that run in closed form: a child (a higher rank) delivers the
first `count` bytes of its buffer after its loop over its own children, the parent
delivers the first `count` bytes of the root's input. -/
def bcast_deliveries (size count root : Nat) (data : Nat → List Nat) (v p : Nat) : List Nat :=
  if v < p then (bcast_up size count root data size p).take count
  else (data root).take count

/-! ## Barrier -/

/-- Where a rank stands in `MIMPI_Barrier`: before the call, at the `i`-th turn of the
first loop (about to receive from child `left + i`), about to send WAIT to its parent,
about to receive WAKE from its parent, at the `i`-th turn of the last loop (about to
send WAKE to child `left + i`), after `return MIMPI_SUCCESS`, or stopped by a failed
`assert` (in the first loop, or after the receive from the parent). -/
inductive BarrierPc where
  | not_entered
  | recv_child (i : Nat)
  | send_parent
  | recv_parent
  | send_child (i : Nat)
  | returned
  | aborted_up
  | aborted_down
  deriving DecidableEq, Repr

/-- All ranks in a barrier: the position of each rank and, for each ordered pair
`(src, dst)`, the messages `src` has sent to `dst` that `dst` has not yet received, in
sending order (on the wire, then in `buffers[src]` of `dst`). -/
structure BarrierState where
  pc : Nat → BarrierPc
  chan : Nat → Nat → buffer_t

/-- Replace the contents of the channel `src -> dst`. -/
def chan_set (chan : Nat → Nat → buffer_t) (src dst : Nat) (b : buffer_t) :
    Nat → Nat → buffer_t :=
  fun x y => if x = src ∧ y = dst then b else chan x y

/-- Every rank before the call, nothing in transit. -/
def barrier_init : BarrierState :=
  { pc := fun _ => .not_entered, chan := fun _ _ => buffer_create }

/-- The next step of rank `v` in `MIMPI_Barrier`, every point-to-point call succeeding:
entering, one loop test, one `MIMPI_Send` (the frame is appended to the channel) or one
`MIMPI_Recv` (the first message of key `(BARRIER_TAG, 1)` is taken from the channel, and
the `assert` on the received byte is made). The result is `none` when the rank is not in
the group, is parked in a receive with no such message, or has finished. -/
def barrier_step (size : Nat) (s : BarrierState) (v : Nat) : Option BarrierState :=
  if v < size then
    match s.pc v with
    | .not_entered => some { s with pc := Function.update s.pc v (.recv_child 0) }
    | .recv_child i =>
      if i < tree_num_children size v then
        match (extract_matching_data (s.chan (tree_left v + i) v) BARRIER_TAG 1).1 with
        | none => none
        | some m =>
          some
            { pc := Function.update s.pc v
                (if (memcpy [0] m 1).headD 0 = BARRIER_WAIT then .recv_child (i + 1)
                  else .aborted_up)
              chan := chan_set s.chan (tree_left v + i) v
                (extract_matching_data (s.chan (tree_left v + i) v) BARRIER_TAG 1).2 }
      else
        some { s with pc := Function.update s.pc v (if v ≠ 0 then .send_parent else .send_child 0) }
    | .send_parent =>
      some
        { pc := Function.update s.pc v .recv_parent
          chan := chan_set s.chan v (tree_parent v)
            (buffer_add (s.chan v (tree_parent v)) BARRIER_TAG 1 [BARRIER_WAIT]) }
    | .recv_parent =>
      match (extract_matching_data (s.chan (tree_parent v) v) BARRIER_TAG 1).1 with
      | none => none
      | some m =>
        some
          { pc := Function.update s.pc v
              (if (memcpy [0] m 1).headD 0 = BARRIER_WAKE then .send_child 0 else .aborted_down)
            chan := chan_set s.chan (tree_parent v) v
              (extract_matching_data (s.chan (tree_parent v) v) BARRIER_TAG 1).2 }
    | .send_child i =>
      if i < tree_num_children size v then
        some
          { pc := Function.update s.pc v (.send_child (i + 1))
            chan := chan_set s.chan v (tree_left v + i)
              (buffer_add (s.chan v (tree_left v + i)) BARRIER_TAG 1 [BARRIER_WAKE]) }
      else some { s with pc := Function.update s.pc v .returned }
    | .returned => none
    | .aborted_up => none
    | .aborted_down => none
  else none

/-- An execution: the ranks named by `sched` take their next step one after the other;
a rank that cannot step is passed over. -/
def barrier_run (size : Nat) (s : BarrierState) (sched : List Nat) : BarrierState :=
  sched.foldl (fun s v => (barrier_step size s v).getD s) s

/-- The rank has sent WAIT to its parent. -/
def BarrierPc.sent_wait : BarrierPc → Bool
  | .recv_parent => true
  | .send_child _ => true
  | .returned => true
  | .aborted_down => true
  | _ => false

/-- The rank has left its first loop: it has received WAIT from each of its children. -/
def BarrierPc.past_children : BarrierPc → Bool
  | .send_parent => true
  | .recv_parent => true
  | .send_child _ => true
  | .returned => true
  | .aborted_down => true
  | _ => false

/-- The rank has received WAIT from its child `left + i`. -/
def BarrierPc.received_wait (pc : BarrierPc) (i : Nat) : Bool :=
  match pc with
  | .recv_child j => decide (i < j)
  | _ => pc.past_children

/-- The rank is in its last loop or has returned: rank 0 has left its first loop,
another rank has received WAKE from its parent. -/
def BarrierPc.released : BarrierPc → Bool
  | .send_child _ => true
  | .returned => true
  | _ => false

/-- The rank has sent WAKE to its child `left + i`. -/
def BarrierPc.sent_wake (pc : BarrierPc) (i : Nat) : Bool :=
  match pc with
  | .send_child j => decide (i < j)
  | .returned => true
  | _ => false

/-- The invariant of the barrier: a WAIT in transit from a child was sent by the child;
a rank that has received WAIT from a child, that child has sent it; a WAKE in transit to
a child was sent by the parent; to a released rank other than 0 its parent has sent
WAKE. -/
def barrier_inv (size : Nat) (s : BarrierState) : Prop :=
  (∀ v i, i < 2 → s.chan (tree_left v + i) v ≠ [] → (s.pc (tree_left v + i)).sent_wait = true) ∧
  (∀ v i, i < tree_num_children size v → (s.pc v).received_wait i = true →
    (s.pc (tree_left v + i)).sent_wait = true) ∧
  (∀ v i, i < 2 → s.chan v (tree_left v + i) ≠ [] → (s.pc v).sent_wake i = true) ∧
  (∀ c, c ≠ 0 → (s.pc c).released = true →
    (s.pc (tree_parent c)).sent_wake ((c - 1) % 2) = true)

/-! ## Requests with tag ANY -/

/-- Reference acceptance test for a request with tag ANY, following the words of the
spec: the counts are equal and the tag of the pending message is non-negative. -/
def any_accepts_user_tag (count : Int) (m : node_t) : Bool :=
  m.count == count && decide (0 ≤ m.tag)

/-- A buffer that holds the one-byte message a child sends on entering the barrier. -/
def scenario_barrier_pending : buffer_t :=
  buffer_add buffer_create BARRIER_TAG 1 [BARRIER_WAIT]

/-! ## Launcher (`mimpirun.c`) -/

/-- The macro `WIFEXITED` of `<sys/wait.h>` on the status word stored by `wait`:
`(status & 0x7f) == 0`. -/
def WIFEXITED (status : Nat) : Bool := status % 128 == 0

/-- The macro `WEXITSTATUS` of `<sys/wait.h>`: `(status & 0xff00) >> 8`. -/
def WEXITSTATUS (status : Nat) : Nat := (status / 256) % 256

/-- The loop that waits for the copies, from the value `ret` holds:
`wait(&ret_child); if (WIFEXITED(ret_child) && WEXITSTATUS(ret_child) != 0) ret = WEXITSTATUS(ret_child);`
over the status words in the order `wait` delivers them. -/
def wait_loop (ret : Nat) : List Nat → Nat
  | [] => ret
  | ret_child :: rest =>
    if WIFEXITED ret_child && WEXITSTATUS ret_child != 0 then
      wait_loop (WEXITSTATUS ret_child) rest
    else wait_loop ret rest

/-- Function `main` of `mimpirun.c`, as far as its return value goes: `n` is
`atoi(argv[1])` and `collected` the status words of the `n` copies in the order `wait`
delivers them. The result is `none` when `assert(1 <= n && n <= 16)` fails or the
number of status words is not `n`. -/
def main (n : Int) (collected : List Nat) : Option Nat :=
  if 1 ≤ n ∧ n ≤ 16 ∧ collected.length = n.toNat then some (wait_loop 0 collected) else none

/-- The non-zero exit statuses of the copies that exited normally, in the order of
collection. -/
def nonzero_exit_statuses (collected : List Nat) : List Nat :=
  (collected.filter (fun c => WIFEXITED c && WEXITSTATUS c != 0)).map WEXITSTATUS

/-- Reference value following the words of the spec: the greatest non-zero exit status
among the copies that exited normally, `0` when there is none. -/
def greatest_exit_status (collected : List Nat) : Nat :=
  (nonzero_exit_statuses collected).foldl max 0

/-- The non-zero exit status collected last, `0` when there is none. -/
def last_exit_status (collected : List Nat) : Nat :=
  (nonzero_exit_statuses collected).getLast?.getD 0

/-! ## A receiver parked on the condition variable -/

/-- Rank 1 of 2 after `MIMPI_Init(detect)`, inside `MIMPI_Recv(dest, 1, 0, 5)` at its
`pthread_cond_wait`: nothing was buffered, the probe is sent when detection is on, and
the request `(0, 5, 1)` is published. -/
def scenario_parked (detect : Bool) : State :=
  { recv_enter (MIMPI_Init detect 1 2) 1 0 5 [] [] with
    match_source := 0, match_tag := 5, match_count := 1 }

/-- Whether `pthread_cond_signal(&wait_recv)` was called between two states of the
process. -/
def signalled (before after : State) : Bool := decide (before.signals < after.signals)

/-! ## The calls of one process (`mimpi.c`) -/

/-- What the worker does around one call of the user thread: `before` while the user
thread is between calls, and `w1`, `w2`, `waits` inside a `MIMPI_Recv`, as in
`recv_enter` and `recv_loop`. -/
structure CallSchedule where
  before : List WorkerAction
  w1 : List WorkerAction
  w2 : List WorkerAction
  waits : List (List WorkerAction)

/-- How a step of a collective ends: the return code, the local buffers `L` of the
collective and the process state. -/
abbrev Step (L : Type) := Outcome (MIMPI_Retcode × L × State)

/-- The macros `MIMPI_CHECK`, `MIMPI_CHECK1` and `MIMPI_CHECK2`: a code other than
`MIMPI_SUCCESS` is returned at once (the latter two free local blocks first),
otherwise the function goes on with `k`. -/
def MIMPI_CHECK {L : Type} (o : Step L) (k : L → State → Step L) : Step L :=
  match o with
  | .returned (MIMPI_SUCCESS, l, s) => k l s
  | .returned (ret, l, s) => .returned (ret, l, s)
  | .parked => .parked
  | .assert_failed => .assert_failed

/-- A call `MIMPI_Recv(buf, count, source, tag)` inside a collective, under the schedule
`k` of the worker; `put` stores the buffer written by the call among the locals. -/
def call_recv {L : Type} (s : State) (buf : List Nat) (count source tag : Int)
    (k : CallSchedule) (put : List Nat → L) : Step L :=
  match MIMPI_Recv (worker_run s k.before) buf count source tag k.w1 k.w2 k.waits with
  | .returned (ret, d, s1) => .returned (ret, put d, s1)
  | .parked => .parked
  | .assert_failed => .assert_failed

/-- A call `MIMPI_Send(data, count, destination, tag)` inside a collective; the locals
`l` are not changed by it. -/
def call_send {L : Type} (s : State) (data : List Nat) (count destination tag : Int)
    (k : CallSchedule) (l : L) : Step L :=
  .returned ((MIMPI_Send (worker_run s k.before) data count destination tag).1, l,
    (MIMPI_Send (worker_run s k.before) data count destination tag).2)

/-- The loops `for (int i = 0; i < num_children; i++)` of the collectives, whose bodies
end in a `MIMPI_CHECK`: `n` is the number of turns left and `i` the loop variable. -/
def for_children {L : Type} (body : Int → L → State → Step L) : Nat → Int → L → State → Step L
  | 0, _, l, s => .returned (MIMPI_SUCCESS, l, s)
  | n + 1, i, l, s => MIMPI_CHECK (body i l s) (fun l1 s1 => for_children body n (i + 1) l1 s1)

/-- Function `MIMPI_Barrier` as one process runs it on its state: the local is `buf`
(one byte); `sched` gives the schedule of the worker for each point-to-point call (the
receives from the children are calls 0 and 1, the send to the parent call 2, the receive
from it call 3, the sends to the children calls 4 and 5). -/
def MIMPI_Barrier (s : State) (buf : List Nat) (sched : Nat → CallSchedule) : Step (List Nat) :=
  MIMPI_CHECK
    (for_children
      (fun i b s1 =>
        MIMPI_CHECK (call_recv s1 b 1 (s1.left + i) BARRIER_TAG (sched i.toNat) id)
          (fun b1 s2 =>
            if b1.headD 0 = BARRIER_WAIT then .returned (MIMPI_SUCCESS, b1, s2)
            else .assert_failed))
      s.num_children.toNat 0 buf s)
    (fun b s1 =>
      MIMPI_CHECK
        (if s1.my_world_rank ≠ 0 then
          MIMPI_CHECK (call_send s1 [BARRIER_WAIT] 1 s1.parent BARRIER_TAG (sched 2) b)
            (fun b1 s2 =>
              MIMPI_CHECK (call_recv s2 b1 1 s2.parent BARRIER_TAG (sched 3) id)
                (fun b2 s3 =>
                  if b2.headD 0 = BARRIER_WAKE then .returned (MIMPI_SUCCESS, b2, s3)
                  else .assert_failed))
        else .returned (MIMPI_SUCCESS, b, s1))
        (fun b1 s2 =>
          for_children
            (fun i b2 s3 =>
              call_send s3 [BARRIER_WAKE] 1 (s3.left + i) BARRIER_TAG (sched (4 + i.toNat)) b2)
            s2.num_children.toNat 0 b1 s2))

/-- Function `MIMPI_Bcast` as one process runs it on its state, with the error paths:
the locals are the caller's `data` and the block `buf`; `sched` as in `MIMPI_Barrier`. -/
def MIMPI_Bcast_process (s : State) (data : List Nat) (count root : Int)
    (sched : Nat → CallSchedule) : Step (List Nat × List Nat) :=
  if root < 0 ∨ root ≥ s.my_world_size then
    .returned (MIMPI_ERROR_NO_SUCH_RANK, (data, []), s)
  else
    MIMPI_CHECK
      (for_children
        (fun i l s1 =>
          MIMPI_CHECK
            (call_recv s1 l.2 count (s1.left + i) BCAST_TAG (sched i.toNat) (fun b => (l.1, b)))
            (fun l1 s2 =>
              .returned (MIMPI_SUCCESS,
                (if is_bcast_path (s2.left + i).toNat root.toNat then
                    memcpy l1.1 l1.2 count.toNat
                  else l1.1, l1.2), s2)))
        s.num_children.toNat 0
        (if s.my_world_rank ≠ root then memset data 0 count.toNat else data,
          List.replicate count.toNat 0) s)
      (fun l s1 =>
        MIMPI_CHECK
          (if s1.my_world_rank ≠ 0 then
            MIMPI_CHECK (call_send s1 l.1 count s1.parent BCAST_TAG (sched 2) l)
              (fun l1 s2 =>
                call_recv s2 l1.1 count s2.parent BCAST_TAG (sched 3) (fun d => (d, l1.2)))
          else .returned (MIMPI_SUCCESS, l, s1))
          (fun l1 s2 =>
            for_children
              (fun i l2 s3 =>
                call_send s3 l2.1 count (s3.left + i) BCAST_TAG (sched (4 + i.toNat)) l2)
              s2.num_children.toNat 0 l1 s2))

/-- Function `MIMPI_Reduce` as one process runs it on its state, with the error paths:
the locals are `partial`, `buf` and the caller's `recv_data`; `sched` as in
`MIMPI_Barrier`. -/
def MIMPI_Reduce_process (s : State) (send_data recv_data : List Nat) (count : Int)
    (op : MIMPI_Op) (root : Int) (sched : Nat → CallSchedule) :
    Step (List Nat × List Nat × List Nat) :=
  if root < 0 ∨ root ≥ s.my_world_size then
    .returned (MIMPI_ERROR_NO_SUCH_RANK, ([], [], recv_data), s)
  else
    MIMPI_CHECK
      (for_children
        (fun i l s1 =>
          MIMPI_CHECK
            (call_recv s1 l.2.1 count (s1.left + i) REDUCE_TAG (sched i.toNat)
              (fun b => (l.1, b, l.2.2)))
            (fun l1 s2 =>
              .returned (MIMPI_SUCCESS,
                (partially_reduce l1.1 l1.2.1 count.toNat op, l1.2.1, l1.2.2), s2)))
        s.num_children.toNat 0
        (memcpy (List.replicate count.toNat 0) send_data count.toNat,
          List.replicate count.toNat 0, recv_data) s)
      (fun l s1 =>
        MIMPI_CHECK
          (if s1.my_world_rank ≠ 0 then
            MIMPI_CHECK (call_send s1 l.1 count s1.parent REDUCE_TAG (sched 2) l)
              (fun l1 s2 =>
                call_recv s2 l1.1 count s2.parent REDUCE_TAG (sched 3)
                  (fun p => (p, l1.2.1, l1.2.2)))
          else .returned (MIMPI_SUCCESS, l, s1))
          (fun l1 s2 =>
            for_children
              (fun i l2 s3 =>
                call_send s3 l2.1 count (s3.left + i) REDUCE_TAG (sched (4 + i.toNat)) l2)
              s2.num_children.toNat 0
              (if s2.my_world_rank = root then
                  (l1.1, l1.2.1, memcpy l1.2.2 l1.1 count.toNat)
                else l1) s2))

/-- One event in the life of a process between `MIMPI_Init` and `MIMPI_Finalize`: a call
of the user thread, or a critical section of the worker while the user thread is
between calls. -/
inductive Call where
  | send (data : List Nat) (count destination tag : Int)
  | recv (data : List Nat) (count source tag : Int) (w1 w2 : List WorkerAction)
      (waits : List (List WorkerAction))
  | barrier (buf : List Nat) (sched : Nat → CallSchedule)
  | bcast (data : List Nat) (count root : Int) (sched : Nat → CallSchedule)
  | reduce (send_data recv_data : List Nat) (count : Int) (op : MIMPI_Op) (root : Int)
      (sched : Nat → CallSchedule)
  | worker (a : WorkerAction)

/-- The process state a finished step leaves; `none` when the call does not return. -/
def Outcome.state_after {L : Type} : Step L → Option State
  | .returned r => some r.2.2
  | .parked => none
  | .assert_failed => none

/-- The state of the process after one event; `none` when the call does not return. -/
def call_state (s : State) : Call → Option State
  | .send data count destination tag => some (MIMPI_Send s data count destination tag).2
  | .recv data count source tag w1 w2 waits =>
    (MIMPI_Recv s data count source tag w1 w2 waits).state_after
  | .barrier buf sched => (MIMPI_Barrier s buf sched).state_after
  | .bcast data count root sched => (MIMPI_Bcast_process s data count root sched).state_after
  | .reduce send_data recv_data count op root sched =>
    (MIMPI_Reduce_process s send_data recv_data count op root sched).state_after
  | .worker a => some (worker_step s a)

/-- The state of the process after a sequence of events, each call returning. -/
def run_calls : State → List Call → Option State
  | s, [] => some s
  | s, c :: cs =>
    match call_state s c with
    | some s1 => run_calls s1 cs
    | none => none

/-- The deadlock flag is set in the state a step leaves, when it leaves one. -/
def Outcome.flagged {L : Type} (o : Step L) : Prop :=
  ∀ s, o.state_after = some s → s.deadlock = true

/-- Rank 0 of 2 with detection enabled, after its call `MIMPI_Recv(dest, 2, 1, 7)` has
returned `MIMPI_ERROR_DEADLOCK_DETECTED`: rank 1 asked for the same key, its probe was
handled during the wait, and the memory of rank 0 reads 1 behind the pointer of the
probe. -/
def scenario_deadlocked : State :=
  ((MIMPI_Recv (scenario_detecting 0 1) [0, 0] 2 1 7 [] []
    [[.recv_msg 1 (mutual_probe 1 0 7 2), .signal_recv 1]]).state_after).getD
    (scenario_detecting 0 1)

/-- What rank 0 goes through after that: its worker sees rank 1 hang up, then the user
thread calls `MIMPI_Send` to rank 1 and `MIMPI_Barrier`. -/
def scenario_later_calls : List Call :=
  [.worker (.hangup 1), .send [1] 1 1 3, .barrier [0] (fun _ => ⟨[], [], [], []⟩)]

/-- The state of rank 0 after those events. -/
def scenario_deadlocked_later : State :=
  (run_calls scenario_deadlocked scenario_later_calls).getD scenario_deadlocked

/-! # Theorems -/

/-! ## Lemmas on the buffer -/

theorem buffer_add_eq (buf : buffer_t) (tag count : Int) (data : List Nat) :
    buffer_add buf tag count data = buf ++ [node_create tag count data] := by
  cases buf <;> simp [buffer_add]

theorem extract_loop_hit (tag count : Int) (visited : List node_t) (current : node_t)
    (next : List node_t) (h : node_matches tag count current = true) :
    extract_loop tag count visited (current :: next) = (some current.data, visited ++ next) := by
  cases visited <;> cases next <;> simp [extract_loop, h]

theorem extract_loop_miss (tag count : Int) (visited : List node_t) (current : node_t)
    (next : List node_t) (h : node_matches tag count current = false) :
    extract_loop tag count visited (current :: next)
      = extract_loop tag count (visited ++ [current]) next := by
  simp [extract_loop, h]

/-- Decomposition of a successful scan. -/
theorem extract_loop_split (tag count : Int) (pre : List node_t) (m : node_t) (post : List node_t)
    (hpre : ∀ x ∈ pre, node_matches tag count x = false) (hm : node_matches tag count m = true)
    (visited : List node_t) :
    extract_loop tag count visited (pre ++ m :: post) = (some m.data, visited ++ pre ++ post) := by
  induction pre generalizing visited with
  | nil => simpa using extract_loop_hit tag count visited m post hm
  | cons x xs ih =>
    have hx : node_matches tag count x = false := hpre x (by simp)
    have hxs : ∀ y ∈ xs, node_matches tag count y = false := fun y hy => hpre y (by simp [hy])
    rw [List.cons_append, extract_loop_miss tag count visited x _ hx, ih hxs]
    simp

/-- A scan over a list without a match returns `NULL` and relinks nothing. -/
theorem extract_loop_none (tag count : Int) (buf : List node_t)
    (h : ∀ x ∈ buf, node_matches tag count x = false) (visited : List node_t) :
    extract_loop tag count visited buf = (none, visited ++ buf) := by
  induction buf generalizing visited with
  | nil => simp [extract_loop]
  | cons x xs ih =>
    have hx : node_matches tag count x = false := h x (by simp)
    have hxs : ∀ y ∈ xs, node_matches tag count y = false := fun y hy => h y (by simp [hy])
    rw [extract_loop_miss tag count visited x _ hx, ih hxs]
    simp

theorem extract_split (tag count : Int) (pre : List node_t) (m : node_t) (post : List node_t)
    (hpre : ∀ x ∈ pre, node_matches tag count x = false) (hm : node_matches tag count m = true) :
    extract_matching_data (pre ++ m :: post) tag count = (some m.data, pre ++ post) := by
  simpa [extract_matching_data] using extract_loop_split tag count pre m post hpre hm []

theorem extract_none (tag count : Int) (buf : List node_t)
    (h : ∀ x ∈ buf, node_matches tag count x = false) :
    extract_matching_data buf tag count = (none, buf) := by
  simpa [extract_matching_data] using extract_loop_none tag count buf h []

/-- Every buffer either has no matching node or splits at its first matching node. -/
theorem first_match_cases (tag count : Int) (buf : List node_t) :
    (∀ x ∈ buf, node_matches tag count x = false) ∨
    ∃ pre m post, buf = pre ++ m :: post ∧ (∀ x ∈ pre, node_matches tag count x = false) ∧
      node_matches tag count m = true := by
  induction buf with
  | nil => left; simp
  | cons x xs ih =>
    by_cases hx : node_matches tag count x = true
    · right; exact ⟨[], x, xs, by simp, by simp, hx⟩
    · have hx' : node_matches tag count x = false := by simpa using hx
      rcases ih with h | ⟨pre, m, post, he, hp, hm⟩
      · left
        intro y hy
        rcases List.mem_cons.mp hy with rfl | hy
        · exact hx'
        · exact h y hy
      · right
        refine ⟨x :: pre, m, post, by simp [he], ?_, hm⟩
        intro y hy
        rcases List.mem_cons.mp hy with rfl | hy
        · exact hx'
        · exact hp y hy

theorem first_match_remove_nil (tag count : Int) :
    first_match_remove [] tag count = (none, []) := by
  simp [first_match_remove]

theorem first_match_remove_cons (tag count : Int) (x : node_t) (xs : List node_t) :
    first_match_remove (x :: xs) tag count =
      if node_matches tag count x then (some x.data, xs)
      else ((first_match_remove xs tag count).1, x :: (first_match_remove xs tag count).2) := by
  by_cases hx : node_matches tag count x = true
  · have hx2 : (x.count == count && (x.tag == tag || tag == MIMPI_ANY_TAG)) = true := by
      simpa [node_matches, Bool.and_comm] using hx
    simp [first_match_remove, List.findIdx?_cons, hx, hx2]
  · have hx' : node_matches tag count x = false := by simpa using hx
    have hx2 : (x.count == count && (x.tag == tag || tag == MIMPI_ANY_TAG)) = false := by
      rw [← hx']; simp [node_matches, Bool.and_comm]
    simp only [first_match_remove, List.findIdx?_cons, hx2, hx']
    simp only [List.findIdx?_succ]
    cases h : List.findIdx? (fun m => m.count == count && (m.tag == tag || tag == MIMPI_ANY_TAG)) xs with
    | none => simp
    | some i => simp

/-! ## Order of delivery from one buffer -/

/-- What an extraction does to the buffer: nothing, or it removes one node that the
request accepts and that no accepted node precedes. -/
theorem extract_cases (buf : buffer_t) (tag count : Int) :
    ((∀ x ∈ buf, node_matches tag count x = false) ∧
      extract_matching_data buf tag count = (none, buf)) ∨
    ∃ pre m post, buf = pre ++ m :: post ∧ (∀ x ∈ pre, node_matches tag count x = false) ∧
      node_matches tag count m = true ∧
      extract_matching_data buf tag count = (some m.data, pre ++ post) := by
  rcases first_match_cases tag count buf with h | ⟨pre, m, post, he, hp, hm⟩
  · exact Or.inl ⟨h, extract_none tag count buf h⟩
  · exact Or.inr ⟨pre, m, post, he, hp, hm, by rw [he]; exact extract_split tag count pre m post hp hm⟩

/-- C2. `extract_matching_data` is the reference first-match-remove: it returns the
payload of the first pending message whose count is the requested count and whose
tag is the requested tag (or the requested tag is ANY), and leaves the buffer with
exactly that position erased, the other messages keeping their order; with no
matching message it returns nothing and leaves the buffer as it was. -/
theorem extract_matching_data_eq_first_match_remove (buf : buffer_t) (tag count : Int) :
    extract_matching_data buf tag count = first_match_remove buf tag count ∧
    (((∀ x ∈ buf, node_matches tag count x = false) ∧
        extract_matching_data buf tag count = (none, buf)) ∨
      ∃ pre m post, buf = pre ++ m :: post ∧
        (∀ x ∈ pre, node_matches tag count x = false) ∧ node_matches tag count m = true ∧
        extract_matching_data buf tag count = (some m.data, pre ++ post)) := by
  have key : ∀ (l visited : List node_t),
      extract_loop tag count visited l =
        ((first_match_remove l tag count).1, visited ++ (first_match_remove l tag count).2) := by
    intro l
    induction l with
    | nil =>
      intro visited
      simp [extract_loop, first_match_remove_nil]
    | cons x xs ih =>
      intro visited
      by_cases hx : node_matches tag count x = true
      · rw [extract_loop_hit tag count visited x xs hx, first_match_remove_cons]
        simp [hx]
      · have hx' : node_matches tag count x = false := by simpa using hx
        rw [extract_loop_miss tag count visited x xs hx', ih, first_match_remove_cons]
        simp [hx']
  refine ⟨?_, extract_cases buf tag count⟩
  have h := key buf []
  rw [List.nil_append] at h
  exact h

theorem pending_matching_append (t c : Int) (a b : buffer_t) :
    pending_matching t c (a ++ b) = pending_matching t c a ++ pending_matching t c b := by
  simp [pending_matching]

theorem pending_matching_none (t c : Int) (a : buffer_t)
    (h : ∀ x ∈ a, node_matches t c x = false) : pending_matching t c a = [] := by
  simp only [pending_matching, List.map_eq_nil_iff, List.filter_eq_nil_iff]
  intro x hx
  simp [h x hx]

/-- Removing a node can only shorten the pending payloads of a key, in order. -/
theorem pending_matching_extract_sublist (t c tag count : Int) (buf : buffer_t) :
    List.Sublist (pending_matching t c (extract_matching_data buf tag count).2)
      (pending_matching t c buf) := by
  rcases extract_cases buf tag count with ⟨_, h⟩ | ⟨pre, m, post, he, _, _, h⟩
  · rw [h]
  · rw [h, he]
    simp only [pending_matching]
    apply List.Sublist.map
    apply List.Sublist.filter
    exact List.Sublist.append_left (List.sublist_cons_self m post) pre

/-- Invariant behind FIFO delivery: what the requests for `(t, c)` return is, in order,
a subsequence of what is pending for that request followed by what is appended later. -/
theorem returned_sublist_pending (t c : Int) (calls : List BufferCall) (buf : buffer_t) :
    List.Sublist (returned_for_key t c buf calls)
      (pending_matching t c buf ++ appended_matching t c calls) := by
  induction calls generalizing buf with
  | nil => simp [returned_for_key]
  | cons call calls ih =>
    cases call with
    | add tag count data =>
      have h := ih (buffer_add buf tag count data)
      rw [buffer_add_eq, pending_matching_append] at h
      simp only [returned_for_key, appended_matching]
      rw [buffer_add_eq]
      have hs : pending_matching t c [node_create tag count data]
          = if node_matches t c (node_create tag count data) = true then [data] else [] := by
        by_cases hm : node_matches t c (node_create tag count data) = true
        · simp only [pending_matching, List.filter_cons, hm, if_true, List.filter_nil,
            List.map_cons, List.map_nil]
          rfl
        · simp only [pending_matching, List.filter_cons, hm, if_false, List.filter_nil,
            List.map_nil]
          rfl
      by_cases hm : node_matches t c (node_create tag count data) = true
      · rw [hs, if_pos hm] at h; rw [if_pos hm]; simpa using h
      · rw [hs, if_neg hm] at h; rw [if_neg hm]; simpa using h
    | extract tag count =>
      simp only [returned_for_key, appended_matching]
      by_cases hk : tag = t ∧ count = c
      · obtain ⟨rfl, rfl⟩ := hk
        simp only [and_self, if_true]
        rcases extract_cases buf tag count with ⟨_, h⟩ | ⟨pre, m, post, he, hp, hm, h⟩
        · rw [h]; exact ih buf
        · rw [h]
          have h2 := ih (pre ++ post)
          rw [pending_matching_append, pending_matching_none tag count pre hp] at h2
          rw [he, pending_matching_append, pending_matching_none tag count pre hp]
          simp only [pending_matching, List.filter_cons, hm, if_true, List.map_cons,
            List.nil_append, List.cons_append]
          exact List.Sublist.cons₂ _ (by simpa [pending_matching] using h2)
      · simp only [hk, if_false]
        exact (ih _).trans
          (List.Sublist.append_right (pending_matching_extract_sublist t c tag count buf) _)

theorem appended_matching_eq_with_key (t c : Int) (ht : t ≠ MIMPI_ANY_TAG)
    (calls : List BufferCall) : appended_matching t c calls = appended_with_key t c calls := by
  induction calls with
  | nil => rfl
  | cons call calls ih =>
    cases call with
    | add tag count data =>
      simp only [appended_matching, appended_with_key, ih, node_matches, node_create]
      by_cases hk : tag = t ∧ count = c
      · simp [hk]
      · have : ((tag == t || t == MIMPI_ANY_TAG) && count == c) = false := by
          simp only [Bool.and_eq_false_iff, Bool.or_eq_false_iff, beq_eq_false_iff_ne]
          by_cases h1 : tag = t
          · right; exact fun h => hk ⟨h1, h⟩
          · left; exact ⟨h1, ht⟩
        simp [hk, this]
    | extract tag count => simp only [appended_matching, appended_with_key, ih]

/-- C3, as stated, fails for the key with tag 0: after one message with tag 5 and
count 1 is appended, the extraction that requests the key (0, 1) returns its payload,
although no message with tag 0 and count 1 was ever appended. -/
theorem fifo_tag0_returns_other_key :
    returned_for_key 0 1 buffer_create [.add 5 1 [9], .extract 0 1] = [[9]] ∧
    appended_with_key 0 1 [.add 5 1 [9], .extract 0 1] = [] ∧
    ¬ List.Sublist (returned_for_key 0 1 buffer_create [.add 5 1 [9], .extract 0 1])
        (appended_with_key 0 1 [.add 5 1 [9], .extract 0 1]) := by
  refine ⟨by decide, by decide, ?_⟩
  have h1 : returned_for_key 0 1 buffer_create [.add 5 1 [9], .extract 0 1] = [[9]] := by decide
  have h2 : appended_with_key 0 1 [.add 5 1 [9], .extract 0 1] = [] := by decide
  rw [h1, h2]
  simp

/-- C3 (amended). For every sequence of `buffer_add` and `extract_matching_data` calls
on a buffer that starts empty and every key `(t, c)`: the payloads returned by the
extractions that request `(t, c)` come in the order in which the messages accepted by
that request were appended (count `c`, and tag `t` unless `t` is ANY); when `t` is not
ANY these are the messages with tag `t` and count `c`; and whatever the request, a
returned message is preceded in the buffer by no pending message of its own key, so a
later-appended message is never returned while an earlier-appended one with the same
key is still pending. -/
theorem fifo_per_key (calls : List BufferCall) (t c : Int) :
    List.Sublist (returned_for_key t c buffer_create calls) (appended_matching t c calls) ∧
    (t ≠ MIMPI_ANY_TAG →
      List.Sublist (returned_for_key t c buffer_create calls) (appended_with_key t c calls)) ∧
    (∀ (buf : buffer_t) (tag count : Int) (d : List Nat),
      (extract_matching_data buf tag count).1 = some d →
      ∃ pre m post, buf = pre ++ m :: post ∧ d = m.data ∧
        (extract_matching_data buf tag count).2 = pre ++ post ∧
        ∀ x ∈ pre, ¬ (x.tag = m.tag ∧ x.count = m.count)) := by
  have h := returned_sublist_pending t c calls buffer_create
  have h0 : pending_matching t c buffer_create = [] := rfl
  rw [h0, List.nil_append] at h
  refine ⟨h, ?_, ?_⟩
  · intro ht
    rw [← appended_matching_eq_with_key t c ht]
    exact h
  · intro buf tag count d hd
    rcases extract_cases buf tag count with ⟨_, hn⟩ | ⟨pre, m, post, he, hp, hm, hx⟩
    · rw [hn] at hd; cases hd
    · rw [hx] at hd
      refine ⟨pre, m, post, he, (Option.some.inj hd).symm, by rw [hx], ?_⟩
      intro x hxp hk
      have hxm := hp x hxp
      simp only [node_matches, hk.1, hk.2] at hxm hm
      rw [hm] at hxm
      cases hxm

/-- The premise `t ≠ ANY` of `fifo_per_key` holds for tag 7: two messages of key (7, 1)
appended around one of key (8, 1) are returned to requests for (7, 1) in append order. -/
theorem fifo_per_key_witness :
    List.Sublist
      (returned_for_key 7 1 buffer_create
        [.add 7 1 [1], .add 8 1 [2], .add 7 1 [3], .extract 7 1, .extract 7 1])
      (appended_with_key 7 1
        [.add 7 1 [1], .add 8 1 [2], .add 7 1 [3], .extract 7 1, .extract 7 1]) :=
  (fifo_per_key [.add 7 1 [1], .add 8 1 [2], .add 7 1 [3], .extract 7 1, .extract 7 1] 7 1).2.1
    (by decide)

/-! ## Wire layout -/

theorem int_bytes_length (x : Int) : (int_bytes x).length = 4 := by simp [int_bytes]

theorem bytes_int_int_bytes (x : Int) (h1 : -2 ^ 31 ≤ x) (h2 : x < 2 ^ 31) :
    bytes_int (int_bytes x) = x := by
  simp only [bytes_int, int_bytes, List.getD_cons_zero, List.getD_cons_succ]
  have h3 : (0:Int) ≤ x % 2 ^ 32 := Int.emod_nonneg _ (by norm_num)
  have h4 : x % 2 ^ 32 < 2 ^ 32 := Int.emod_lt_of_pos _ (by norm_num)
  generalize hu : (x % 2 ^ 32).toNat = u
  have hu' : (u : Int) = x % 2 ^ 32 := by rw [← hu]; exact Int.toNat_of_nonneg h3
  have e : u % 256 + 256 * (u / 256 % 256) + 65536 * (u / 65536 % 256)
      + 16777216 * (u / 16777216 % 256) = u := by
    have : u < 4294967296 := by omega
    omega
  rw [e]
  norm_num at *
  split <;> omega

theorem frame_length (tag count : Int) (payload : List Nat) :
    (frame tag count payload).length = 8 + payload.length := by
  simp [frame, int_bytes_length]; omega

theorem frame_take4 (tag count : Int) (payload more : List Nat) :
    (frame tag count payload ++ more).take 4 = int_bytes tag := by
  simp [frame, int_bytes]

theorem frame_drop4_take4 (tag count : Int) (payload more : List Nat) :
    ((frame tag count payload ++ more).drop 4).take 4 = int_bytes count := by
  simp [frame, int_bytes]

theorem frame_drop8 (tag count : Int) (payload more : List Nat) :
    (frame tag count payload ++ more).drop 8 = payload ++ more := by
  simp [frame, int_bytes]

/-! ## Send -/

/-- What a successful `MIMPI_Send` does: the frame is appended to the bytes written on
the descriptor of the channel to `destination`, and in detection mode a user tag adds
a sent marker to the log. -/
theorem MIMPI_Send_ok (s : State) (data : List Nat) (count destination tag : Int)
    (h1 : destination ≠ s.my_world_rank) (h2 : 0 ≤ destination)
    (h3 : destination < s.my_world_size) (h4 : s.exited destination = false)
    (_hc : 0 ≤ count) (hd : data.length = count.toNat) :
    MIMPI_Send s data count destination tag =
      (MIMPI_SUCCESS,
        { s with
          written := Function.update s.written
            (get_transfer_write_fd s.my_world_rank destination)
            (s.written (get_transfer_write_fd s.my_world_rank destination)
              ++ frame tag count data)
          log := if s.detection && decide (tag ≥ 0) then
              buffer_add s.log tag count s.send_literal
            else s.log }) := by
  have h2' : ¬ (destination < 0 ∨ destination ≥ s.my_world_size) := by omega
  have e : (merge_data (merge_data (int_bytes tag) 4 (int_bytes count) 4) (2 * 4) data
      count.toNat).take (2 * 4 + count.toNat) = frame tag count data := by
    have a : ∀ x : Int, (int_bytes x).take 4 = int_bytes x := fun x =>
      List.take_of_length_le (by simp [int_bytes])
    have b : (int_bytes tag ++ int_bytes count).take (2 * 4) = int_bytes tag ++ int_bytes count :=
      List.take_of_length_le (by simp [int_bytes])
    have c : data.take data.length = data := List.take_of_length_le (le_refl _)
    simp only [merge_data, frame, ← hd, a, b, c]
    exact List.take_of_length_le (by simp [int_bytes]; omega)
  unfold MIMPI_Send
  simp only [h1, h2', h4, if_false, Bool.false_eq_true, e]
  by_cases hdt : (s.detection && decide (tag ≥ 0)) = true
  · simp [hdt]
  · simp [hdt]

/-! ## Receive worker -/

/-- Parsing one user frame from the stream of `source` appends the message to
`buffers[source]`, whatever follows the frame on the stream. -/
theorem handle_incoming_message_frame (s : State) (source tag count : Int)
    (payload more : List Nat) (ht1 : 0 ≤ tag) (ht2 : tag < 2 ^ 31) (hc1 : 0 ≤ count)
    (hc2 : count < 2 ^ 31) (hp : payload.length = count.toNat) :
    handle_incoming_message s source (frame tag count payload ++ more) =
      some ({ s with
        buffers := Function.update s.buffers source
          (s.buffers source ++ [node_create tag count payload]) }, more) := by
  have hl : ¬ ((frame tag count payload ++ more).length < 8) := by
    simp [frame_length]; omega
  have htag : bytes_int (int_bytes tag) = tag := bytes_int_int_bytes tag (by omega) ht2
  have hcnt : bytes_int (int_bytes count) = count := bytes_int_int_bytes count (by omega) hc2
  have hnd : ¬ (tag = DEADLOCK_TAG) := by simp [DEADLOCK_TAG]; omega
  have hlen : ¬ (count < 0 ∨ (payload ++ more).length < count.toNat) := by
    simp [← hp]; omega
  unfold handle_incoming_message
  simp only [hl, if_false, frame_take4, frame_drop4_take4, frame_drop8, htag, hcnt, hnd,
    decide_False, Bool.and_false, Bool.false_eq_true, hlen, buffer_add_eq]
  simp [← hp]

theorem handle_signal_recv_idle (s : State) (source : Int) (h : s.match_source ≠ source) :
    handle_signal_recv s source = s := by
  simp [handle_signal_recv, h]

/-! ## Receive -/

theorem recv_loop_skip (count source tag : Int) (s : State) (waits : List (List WorkerAction))
    (h : recv_waits s source = false) : recv_loop count source tag s waits = some s := by
  cases waits <;> simp [recv_loop, h]

/-- A message found in the buffer at call time is delivered at once. -/
theorem MIMPI_Recv_hit (s : State) (data : List Nat) (count source tag : Int)
    (w1 w2 : List WorkerAction) (waits : List (List WorkerAction)) (m : List Nat)
    (h1 : source ≠ s.my_world_rank) (h2 : 0 ≤ source) (h3 : source < s.my_world_size)
    (hm : (extract_matching_data (s.buffers source) tag count).1 = some m) :
    MIMPI_Recv s data count source tag w1 w2 waits =
      .returned (MIMPI_SUCCESS, memcpy data m count.toNat,
        { recv_extract s count source tag with match_data := none }) := by
  have h2' : ¬ (source < 0 ∨ source ≥ s.my_world_size) := by omega
  have hx : (recv_extract s count source tag).match_data = some m := by
    simp [recv_extract, hm]
  have he : recv_enter s count source tag w1 w2 = recv_extract s count source tag := by
    simp [recv_enter, recv_probes, hx]
  have hw : recv_waits (recv_extract s count source tag) source = false := by
    simp [recv_waits, hx]
  simp [MIMPI_Recv, h1, h2', he, recv_loop_skip _ _ _ _ _ hw, recv_finish, hx]

/-! ## Invariants kept by the worker and by `MIMPI_Recv` -/

theorem extract_wf (buf : buffer_t) (tag count : Int)
    (h : ∀ n ∈ buf, n.data.length = n.count.toNat) :
    (∀ n ∈ (extract_matching_data buf tag count).2, n.data.length = n.count.toNat) ∧
    (∀ m, (extract_matching_data buf tag count).1 = some m → m.length = count.toNat) := by
  rcases extract_cases buf tag count with ⟨_, hn⟩ | ⟨pre, x, post, he, _, hm, hx⟩
  · rw [hn]
    exact ⟨h, fun m hm => by cases hm⟩
  · rw [hx]
    subst he
    refine ⟨fun n hn => h n ?_, fun m hm' => ?_⟩
    · rcases List.mem_append.mp hn with hn | hn
      · exact List.mem_append_left _ hn
      · exact List.mem_append_right _ (List.mem_cons_of_mem _ hn)
    · have hxc : x.count = count := by
        simp only [node_matches, Bool.and_eq_true, beq_iff_eq] at hm
        exact hm.2
      have hxl := h x (List.mem_append_right _ (List.mem_cons_self _ _))
      cases hm'
      rw [hxl, hxc]

theorem handle_signal_recv_slot (s : State) (i : Int) :
    (handle_signal_recv s i).match_source = s.match_source ∧
    (handle_signal_recv s i).match_tag = s.match_tag ∧
    (handle_signal_recv s i).match_count = s.match_count ∧
    (handle_signal_recv s i).my_world_size = s.my_world_size := by
  unfold handle_signal_recv
  simp only [cond_signal]
  refine ⟨?_, ?_, ?_, ?_⟩ <;> (repeat' split) <;> rfl

theorem handle_signal_recv_inv (count : Int) (s : State) (i : Int) (hi : 0 ≤ i)
    (h : slot_inv count s) : slot_inv count (handle_signal_recv s i) := by
  obtain ⟨hwf, hmd, hmc⟩ := h
  unfold handle_signal_recv
  by_cases h1 : (s.detection && decide (s.match_source = i)) = true
  · rw [if_pos h1]
    dsimp only [cond_signal]
    split_ifs <;> exact ⟨hwf, hmd, hmc⟩
  · rw [if_neg h1]
    by_cases h2 : (decide (s.match_source = i) && s.match_data.isNone) = true
    · rw [if_pos h2]
      have hsrc : s.match_source = i := by
        simp only [Bool.and_eq_true, decide_eq_true_eq] at h2
        exact h2.1
      have hcnt : s.match_count = count := hmc (by omega)
      have hx := extract_wf (s.buffers s.match_source) s.match_tag s.match_count
        (hwf s.match_source)
      have key : slot_inv count
          { s with
            match_data := (extract_matching_data (s.buffers s.match_source) s.match_tag
              s.match_count).1
            buffers := Function.update s.buffers s.match_source
              (extract_matching_data (s.buffers s.match_source) s.match_tag s.match_count).2 } := by
        refine ⟨?_, ?_, hmc⟩
        · intro j n hn
          by_cases hj : j = s.match_source
          · subst hj
            simp only [Function.update_same] at hn
            exact hx.1 n hn
          · simp only [Function.update_noteq hj] at hn
            exact hwf j n hn
        · intro m hm
          rw [← hcnt]
          exact hx.2 m hm
      dsimp only [cond_signal]
      split_ifs
      · exact key
      · exact key
    · rw [if_neg h2]
      exact ⟨hwf, hmd, hmc⟩

theorem handle_incoming_message_inv (count : Int) (s s' : State) (i : Int)
    (stream rest : List Nat) (h : slot_inv count s)
    (hs : handle_incoming_message s i stream = some (s', rest)) :
    slot_inv count s' ∧ s'.match_source = s.match_source ∧ s'.match_count = s.match_count ∧
      s'.my_world_size = s.my_world_size := by
  obtain ⟨hwf, hmd, hmc⟩ := h
  unfold handle_incoming_message at hs
  dsimp only at hs
  split_ifs at hs with h1 h2 h3 h4
  · simp only [Option.some.injEq, Prod.mk.injEq] at hs
    obtain ⟨rfl, _⟩ := hs
    exact ⟨⟨hwf, hmd, hmc⟩, rfl, rfl, rfl⟩
  · simp only [Option.some.injEq, Prod.mk.injEq] at hs
    obtain ⟨rfl, _⟩ := hs
    refine ⟨⟨?_, hmd, hmc⟩, rfl, rfl, rfl⟩
    intro j n hn
    by_cases hj : j = i
    · subst hj
      simp only [Function.update_same, buffer_add_eq, List.mem_append,
        List.mem_singleton] at hn
      rcases hn with hn | rfl
      · exact hwf j n hn
      · simp only [node_create, List.length_take]
        omega
    · simp only [Function.update_noteq hj] at hn
      exact hwf j n hn

theorem worker_step_inv (count : Int) (s : State) (a : WorkerAction) (h : slot_inv count s) :
    slot_inv count (worker_step s a) ∧ (worker_step s a).match_source = s.match_source ∧
      (worker_step s a).match_count = s.match_count ∧
      (worker_step s a).my_world_size = s.my_world_size := by
  unfold worker_step
  by_cases hi : 0 ≤ a.index ∧ a.index < s.my_world_size
  · rw [if_pos hi]
    cases a with
    | recv_msg i stream =>
      simp only [worker_section]
      cases hm : handle_incoming_message s i stream with
      | none => exact ⟨h, rfl, rfl, rfl⟩
      | some r =>
        obtain ⟨s', rest⟩ := r
        exact handle_incoming_message_inv count s s' i stream rest h hm
    | signal_recv i =>
      simp only [worker_section]
      have hs := handle_signal_recv_slot s i
      exact ⟨handle_signal_recv_inv count s i hi.1 h, hs.1, hs.2.2.1, hs.2.2.2⟩
    | hangup i =>
      simp only [worker_section]
      split_ifs
      · exact ⟨h, rfl, rfl, rfl⟩
      · have hs := handle_signal_recv_slot { s with exited := Function.update s.exited i true } i
        have hv := handle_signal_recv_inv count
          { s with exited := Function.update s.exited i true } i hi.1 h
        exact ⟨hv, hs.1, hs.2.2.1, hs.2.2.2⟩
  · rw [if_neg hi]
    exact ⟨h, rfl, rfl, rfl⟩

theorem worker_run_inv (count : Int) (acts : List WorkerAction) (s : State)
    (h : slot_inv count s) :
    slot_inv count (worker_run s acts) ∧ (worker_run s acts).match_source = s.match_source ∧
      (worker_run s acts).match_count = s.match_count ∧
      (worker_run s acts).my_world_size = s.my_world_size := by
  induction acts generalizing s with
  | nil => exact ⟨h, rfl, rfl, rfl⟩
  | cons a acts ih =>
    have h1 := worker_step_inv count s a h
    have h2 := ih (worker_step s a) h1.1
    simp only [worker_run, List.foldl_cons] at h2 ⊢
    exact ⟨h2.1, h2.2.1.trans h1.2.1, h2.2.2.1.trans h1.2.2.1, h2.2.2.2.trans h1.2.2.2⟩

theorem MIMPI_Send_keeps (s : State) (data : List Nat) (count destination tag : Int) :
    (MIMPI_Send s data count destination tag).2.buffers = s.buffers ∧
    (MIMPI_Send s data count destination tag).2.match_data = s.match_data ∧
    (MIMPI_Send s data count destination tag).2.match_source = s.match_source ∧
    (MIMPI_Send s data count destination tag).2.match_count = s.match_count ∧
    (MIMPI_Send s data count destination tag).2.exited = s.exited ∧
    (MIMPI_Send s data count destination tag).2.deadlock = s.deadlock := by
  unfold MIMPI_Send
  dsimp only
  refine ⟨?_, ?_, ?_, ?_, ?_, ?_⟩ <;> (repeat' split) <;> rfl

theorem recv_enter_inv (s : State) (count source tag : Int) (w1 w2 : List WorkerAction)
    (hidle : s.match_source = -1) (hwf : wf_buffers s) :
    slot_inv count (recv_enter s count source tag w1 w2) := by
  have hx := extract_wf (s.buffers source) tag count (hwf source)
  have h1 : slot_inv count (recv_extract s count source tag) := by
    refine ⟨?_, fun m hm => hx.2 m hm, fun hne => absurd hidle hne⟩
    intro j n hn
    by_cases hj : j = source
    · subst hj
      simp only [recv_extract, Function.update_same] at hn
      exact hx.1 n hn
    · simp only [recv_extract, Function.update_noteq hj] at hn
      exact hwf j n hn
  unfold recv_enter
  simp only
  split_ifs
  · have h2 := (worker_run_inv count w1 _ h1).1
    have hk := MIMPI_Send_keeps (worker_run (recv_extract s count source tag) w1)
      (node_image (node_create tag count
        (worker_run (recv_extract s count source tag) w1).recv_literal))
      sizeof_node_t source DEADLOCK_TAG
    have h3 : slot_inv count
        (recv_send_probe (worker_run (recv_extract s count source tag) w1) count source tag) := by
      obtain ⟨a, b, c⟩ := h2
      refine ⟨?_, ?_, ?_⟩
      · intro j n hn
        simp only [recv_send_probe, hk.1] at hn
        exact a j n hn
      · intro m hm
        simp only [recv_send_probe, hk.2.1] at hm
        exact b m hm
      · intro hne
        simp only [recv_send_probe, hk.2.2.1, hk.2.2.2.1] at hne ⊢
        exact c hne
    have h4 := (worker_run_inv count w2 _ h3).1
    exact h4
  · exact h1

theorem recv_loop_inv (count source tag : Int) (waits : List (List WorkerAction)) (s se : State)
    (h : slot_inv count s) (hl : recv_loop count source tag s waits = some se) :
    slot_inv count se ∧ recv_waits se source = false := by
  induction waits generalizing s with
  | nil =>
    simp only [recv_loop] at hl
    split_ifs at hl with hw
    cases hl
    exact ⟨h, by simpa using hw⟩
  | cons w ws ih =>
    simp only [recv_loop] at hl
    split_ifs at hl with hw
    · refine ih _ ?_ hl
      have h1 : slot_inv count
          { s with match_source := source, match_tag := tag, match_count := count } :=
        ⟨h.1, h.2.1, fun _ => rfl⟩
      have h2 := (worker_run_inv count w _ h1).1
      exact ⟨h2.1, h2.2.1, fun hne => absurd rfl hne⟩
    · cases hl
      exact ⟨h, by simpa using hw⟩

/-! ## Point-to-point round trip -/

/-- C1, as stated, fails for tag 0. Rank 0 of 2 sends the byte `0xAA` with tag 0 to
rank 1 (the send succeeds), whose buffer for rank 0 holds an earlier one-byte message
with tag 5, hence no earlier message of key (0, 1); the following
`MIMPI_Recv(dest, 1, 0, 0)` succeeds with the byte `0xBB` of the earlier message. -/
theorem send_recv_tag0_takes_earlier_message :
    (MIMPI_Send (MIMPI_Init false 0 2) [0xAA] 1 1 0).1 = MIMPI_SUCCESS ∧
    (∀ m ∈ scenario_receiver_with_tag5.buffers 0, ¬ (m.tag = 0 ∧ m.count = 1)) ∧
    scenario_receiver_with_tag5_tag0.buffers 0
      = [node_create 5 1 [0xBB], node_create 0 1 [0xAA]] ∧
    (MIMPI_Recv scenario_receiver_with_tag5_tag0 [0] 1 0 0 [] [] []).result
      = some (MIMPI_SUCCESS, [0xBB]) := by
  refine ⟨by decide, by decide, by decide, by decide⟩

/-- C1 (amended). For distinct ranks `src`, `dst` in `[0, N)`, a tag `>= 0`, a count
`>= 0` and a payload of `count` bytes: if `dst` is not marked exited, `MIMPI_Send`
returns SUCCESS after writing exactly the `8 + count` byte frame tag, count, payload
on the descriptor of the channel `src -> dst`; the worker at `dst` parsing that frame
from stream `src` appends `(tag, count, payload)` to `buffers[src]`; and a following
`MIMPI_Recv(dest, count, src, tag)` at `dst`, with no earlier pending message that
matches the request (same count, and same tag unless the tag is 0, which is ANY),
returns SUCCESS with `dest[0..count)` equal to the payload, under every schedule of the
worker. -/
theorem send_recv_round_trip (s r : State) (src dst tag count : Int)
    (payload data more : List Nat) (w1 w2 : List WorkerAction)
    (waits : List (List WorkerAction))
    (hsd : src ≠ dst) (hs0 : 0 ≤ src) (hs1 : src < s.my_world_size)
    (hd0 : 0 ≤ dst) (hd1 : dst < s.my_world_size)
    (hsr : s.my_world_rank = src) (hrr : r.my_world_rank = dst)
    (hN : r.my_world_size = s.my_world_size)
    (ht0 : 0 ≤ tag) (ht1 : tag < 2 ^ 31) (hc0 : 0 ≤ count) (hc1 : count < 2 ^ 31)
    (hp : payload.length = count.toNat) (hex : s.exited dst = false)
    (hidle : r.match_source = -1)
    (hfirst : ∀ m ∈ r.buffers src, node_matches tag count m = false) :
    (MIMPI_Send s payload count dst tag).1 = MIMPI_SUCCESS ∧
    (MIMPI_Send s payload count dst tag).2.written (get_transfer_write_fd src dst)
      = s.written (get_transfer_write_fd src dst) ++ frame tag count payload ∧
    (frame tag count payload).length = 8 + count.toNat ∧
    (worker_run r [.recv_msg src (frame tag count payload ++ more), .signal_recv src]).buffers src
      = r.buffers src ++ [node_create tag count payload] ∧
    (MIMPI_Recv
        (worker_run r [.recv_msg src (frame tag count payload ++ more), .signal_recv src])
        data count src tag w1 w2 waits).result
      = some (MIMPI_SUCCESS, payload ++ data.drop count.toNat) := by
  have hsend := MIMPI_Send_ok s payload count dst tag (by rw [hsr]; exact fun h => hsd h.symm)
    hd0 hd1 hex hc0 hp
  have hw : worker_run r [.recv_msg src (frame tag count payload ++ more), .signal_recv src]
      = { r with
          buffers := Function.update r.buffers src
            (r.buffers src ++ [node_create tag count payload]) } := by
    have hi : 0 ≤ src ∧ src < r.my_world_size := ⟨hs0, by rw [hN]; exact hs1⟩
    simp only [worker_run, List.foldl_cons, List.foldl_nil, worker_step, WorkerAction.index,
      hi, and_self, if_true, worker_section,
      handle_incoming_message_frame r src tag count payload more ht0 ht1 hc0 hc1 hp]
    apply handle_signal_recv_idle
    show r.match_source ≠ src
    rw [hidle]; omega
  have hmatch : node_matches tag count (node_create tag count payload) = true := by
    simp [node_matches, node_create]
  have hx := extract_split tag count (r.buffers src) (node_create tag count payload) [] hfirst hmatch
  refine ⟨by rw [hsend], ?_, ?_, ?_, ?_⟩
  · rw [hsend, hsr]; simp
  · rw [frame_length, hp]
  · rw [hw]; simp
  · rw [hw]
    rw [MIMPI_Recv_hit _ data count src tag w1 w2 waits payload
      (by show src ≠ r.my_world_rank; rw [hrr]; exact hsd) hs0
      (by show src < r.my_world_size; rw [hN]; exact hs1)
      (by
        show (extract_matching_data ((Function.update r.buffers src
          (r.buffers src ++ [node_create tag count payload])) src) tag count).1 = some payload
        rw [Function.update_same, hx]; rfl)]
    simp [Outcome.result, memcpy, ← hp]

/-- The premises of `send_recv_round_trip` hold in the scenario of the spec: with
`N = 2`, rank 0 sends `[0xAA, 0xBB]` with tag 7 to rank 1, and rank 1 receives it. -/
theorem send_recv_round_trip_witness :
    (MIMPI_Send (MIMPI_Init false 0 2) [0xAA, 0xBB] 2 1 7).1 = MIMPI_SUCCESS ∧
    (MIMPI_Recv
        (worker_run (MIMPI_Init false 1 2)
          [.recv_msg 0 (frame 7 2 [0xAA, 0xBB] ++ []), .signal_recv 0])
        [0, 0] 2 0 7 [] [] []).result
      = some (MIMPI_SUCCESS, [0xAA, 0xBB] ++ ([0, 0] : List Nat).drop (2 : Int).toNat) :=
  have h := send_recv_round_trip (MIMPI_Init false 0 2) (MIMPI_Init false 1 2) 0 1 7 2
    [0xAA, 0xBB] [0, 0] [] [] [] [] (by decide) (by decide) (by decide) (by decide) (by decide)
    rfl rfl rfl (by decide) (by decide) (by decide) (by decide) rfl rfl rfl
    (by intro m hm; cases hm)
  ⟨h.1, h.2.2.2.2⟩

/-! ## Return codes of `MIMPI_Send` -/

/-- C4. With the caller's rank in `[0, N)`: `MIMPI_Send` returns SELF_OP when the
destination is the caller's rank, NO_SUCH_RANK when it is outside `[0, N)`,
REMOTE_FINISHED when it is another valid rank whose exited flag is set, and SUCCESS in
every other case; each failing call leaves the whole state as it was (no byte written
on any descriptor, deadlock log unchanged); for `N = 1` every call fails with SELF_OP
or NO_SUCH_RANK. -/
theorem MIMPI_Send_retcode (s : State) (data : List Nat) (count destination tag : Int)
    (hr0 : 0 ≤ s.my_world_rank) (hr1 : s.my_world_rank < s.my_world_size) :
    (destination = s.my_world_rank →
      MIMPI_Send s data count destination tag = (MIMPI_ERROR_ATTEMPTED_SELF_OP, s)) ∧
    ((destination < 0 ∨ s.my_world_size ≤ destination) →
      MIMPI_Send s data count destination tag = (MIMPI_ERROR_NO_SUCH_RANK, s)) ∧
    (0 ≤ destination → destination < s.my_world_size → destination ≠ s.my_world_rank →
      s.exited destination = true →
      MIMPI_Send s data count destination tag = (MIMPI_ERROR_REMOTE_FINISHED, s)) ∧
    (0 ≤ destination → destination < s.my_world_size → destination ≠ s.my_world_rank →
      s.exited destination = false →
      (MIMPI_Send s data count destination tag).1 = MIMPI_SUCCESS) ∧
    ((MIMPI_Send s data count destination tag).1 ≠ MIMPI_SUCCESS →
      (MIMPI_Send s data count destination tag).2 = s) ∧
    (s.my_world_size = 1 →
      MIMPI_Send s data count destination tag = (MIMPI_ERROR_ATTEMPTED_SELF_OP, s) ∨
      MIMPI_Send s data count destination tag = (MIMPI_ERROR_NO_SUCH_RANK, s)) := by
  refine ⟨?_, ?_, ?_, ?_, ?_, ?_⟩
  · intro h
    simp [MIMPI_Send, h]
  · intro h
    have hne : destination ≠ s.my_world_rank := by omega
    have h' : destination < 0 ∨ destination ≥ s.my_world_size := by omega
    simp [MIMPI_Send, hne, h']
  · intro h0 h1 hne hex
    have h' : ¬ (destination < 0 ∨ destination ≥ s.my_world_size) := by omega
    simp [MIMPI_Send, hne, h', hex]
  · intro h0 h1 hne hex
    have h' : ¬ (destination < 0 ∨ destination ≥ s.my_world_size) := by omega
    simp [MIMPI_Send, hne, h', hex]
  · intro h
    unfold MIMPI_Send at h ⊢
    split_ifs at h ⊢ <;> simp_all
  · intro hN
    by_cases hd : destination = s.my_world_rank
    · left; simp [MIMPI_Send, hd]
    · right
      have h' : destination < 0 ∨ destination ≥ s.my_world_size := by omega
      simp [MIMPI_Send, hd, h']

/-- The premise of `MIMPI_Send_retcode` holds for the single process of a group of
size 1: its send to rank 0 fails with SELF_OP and its state is unchanged. -/
theorem MIMPI_Send_retcode_witness :
    MIMPI_Send (MIMPI_Init false 0 1) [7] 1 0 3
      = (MIMPI_ERROR_ATTEMPTED_SELF_OP, MIMPI_Init false 0 1) :=
  (MIMPI_Send_retcode (MIMPI_Init false 0 1) [7] 1 0 3 (by decide) (by decide)).1 rfl

/-! ## Deadlock verdict -/

/-- C9 (failing input). Rank 0 of 3 with detection enabled has taken the probe of rank
1 for the key `(5, 1)`; its log holds one node, whose `data` is the address of the
literal `(char){my_world_rank}` in the stack of rank 1. `check_deadlock(1, 5, 1)` reads
through that address in the memory of rank 0: where the byte read is not 1 the verdict
is false although the probe is in the log and nothing was sent, where it is 1 the
verdict is true. After a send to rank 2 with the same key the log also holds a marker
whose `data` is the address of a literal of `MIMPI_Send` that is no longer alive; where
that storage still reads 16 the verdict for peer 1 is cancelled by the send to rank 2
(no field of the marker records the destination). -/
theorem check_deadlock_reads_dead_pointers :
    scenario_probed.log = [node_create 5 1 [32, 0, 0, 0, 0, 0, 0, 0]] ∧
    check_deadlock (fun _ => 0) scenario_probed.log 1 5 1 = false ∧
    check_deadlock (fun _ => 1) scenario_probed.log 1 5 1 = true ∧
    scenario_probed_sent.log
      = [node_create 5 1 [32, 0, 0, 0, 0, 0, 0, 0], node_create 5 1 [16, 0, 0, 0, 0, 0, 0, 0]] ∧
    check_deadlock (fun p => if p = [16, 0, 0, 0, 0, 0, 0, 0] then 16 else 1)
      scenario_probed_sent.log 1 5 1 = false := by
  decide

/-! ## Mutual receive under deadlock detection -/

/-- C10 (failing input). `N = 2`, detection enabled, both ranks call `MIMPI_Recv` from
each other for the key `(7, 2)` and nothing is sent. Rank 0 parks, its worker takes the
probe of rank 1 and runs `handle_signal_recv(1)`. The probe carries the address of a
literal of rank 1; where the memory of rank 0 reads 0 behind it the verdict stays
false, no signal is sent and the call is still parked after further wake-ups. Only where
that memory happens to read 1 does the call return `MIMPI_ERROR_DEADLOCK_DETECTED`. With
different keys on the two ranks (`(1, 1)` and `(2, 1)`) the call stays parked even
then. -/
theorem mutual_recv_not_detected :
    (MIMPI_Recv (scenario_detecting 0 0) [0, 0] 2 1 7 [] []
      [[.recv_msg 1 (mutual_probe 1 0 7 2), .signal_recv 1], [], []]).is_parked = true ∧
    (worker_run
      { recv_enter (scenario_detecting 0 0) 2 1 7 [] [] with
        match_source := 1, match_tag := 7, match_count := 2 }
      [.recv_msg 1 (mutual_probe 1 0 7 2), .signal_recv 1]).log
        = [node_create 7 2 [32, 0, 0, 0, 0, 0, 0, 0]] ∧
    (worker_run
      { recv_enter (scenario_detecting 0 0) 2 1 7 [] [] with
        match_source := 1, match_tag := 7, match_count := 2 }
      [.recv_msg 1 (mutual_probe 1 0 7 2), .signal_recv 1]).deadlock = false ∧
    (worker_run
      { recv_enter (scenario_detecting 0 0) 2 1 7 [] [] with
        match_source := 1, match_tag := 7, match_count := 2 }
      [.recv_msg 1 (mutual_probe 1 0 7 2), .signal_recv 1]).signals = 0 ∧
    (MIMPI_Recv (scenario_detecting 0 1) [0, 0] 2 1 7 [] []
      [[.recv_msg 1 (mutual_probe 1 0 7 2), .signal_recv 1]]).result
        = some (MIMPI_ERROR_DEADLOCK_DETECTED, [0, 0]) ∧
    (MIMPI_Recv (scenario_detecting 0 1) [0] 1 1 1 [] []
      [[.recv_msg 1 (mutual_probe 1 0 2 1), .signal_recv 1], [], []]).is_parked = true := by
  decide

/-! ## Collectives: the tree of ranks -/

/-- The tree of ranks used by the collectives is the one `MIMPI_Init` computes: for a
rank `v >= 0` in a group of `size`, the variables `parent`, `left`, `right` and
`num_children` are `tree_parent v`, `tree_left v`, `tree_right v` and
`tree_num_children size v`. -/
theorem MIMPI_Init_tree (detect : Bool) (v size : Nat) :
    (MIMPI_Init detect v size).parent = tree_parent v ∧
    (MIMPI_Init detect v size).left = tree_left v ∧
    (MIMPI_Init detect v size).right = tree_right v ∧
    (MIMPI_Init detect v size).num_children = tree_num_children size v := by
  refine ⟨?_, ?_, ?_, ?_⟩
  · show ((v : Int) - 1).tdiv 2 = ((tree_parent v : Nat) : Int)
    unfold tree_parent
    cases v with
    | zero => decide
    | succ n =>
      have h : ((n + 1 : Nat) : Int) - 1 = (n : Int) := by push_cast; ring
      rw [h, Int.tdiv_eq_ediv (by omega) (by omega)]
      simp
  · show 2 * (v : Int) + 1 = ((tree_left v : Nat) : Int)
    simp [tree_left]
  · show 2 * (v : Int) + 2 = ((tree_right v : Nat) : Int)
    simp [tree_right]
  · show ((if 2 * (v : Int) + 1 < size then 1 else 0) + (if 2 * (v : Int) + 2 < size then 1 else 0)
      : Int) = ((tree_num_children size v : Nat) : Int)
    simp only [tree_num_children, tree_left, tree_right]
    have e1 : (2 * (v : Int) + 1 < size) ↔ (2 * v + 1 < size) := by omega
    have e2 : (2 * (v : Int) + 2 < size) ↔ (2 * v + 2 < size) := by omega
    simp only [e1, e2]
    split_ifs <;> simp

/-! ## Reduce -/

theorem getD_set (l : List Nat) (i j v : Nat) (hi : i < l.length) :
    (l.set i v).getD j 0 = if j = i then v else l.getD j 0 := by
  simp only [List.getD_eq_getElem?_getD, List.getElem?_set]
  by_cases h : i = j
  · subst h; simp [hi]
  · simp [h, Ne.symm h]

/-- The loop of `partially_reduce` after `n` lanes. -/
theorem partially_reduce_upto (part update : List Nat) (op : MIMPI_Op) (n : Nat)
    (hn : n ≤ part.length) :
    ((List.range n).foldl
      (fun acc i => acc.set i (reduce_lane op (acc.getD i 0) (update.getD i 0))) part).length
        = part.length ∧
    ∀ j, ((List.range n).foldl
      (fun acc i => acc.set i (reduce_lane op (acc.getD i 0) (update.getD i 0))) part).getD j 0
        = if j < n then reduce_lane op (part.getD j 0) (update.getD j 0) else part.getD j 0 := by
  induction n with
  | zero => simp
  | succ n ih =>
    obtain ⟨hl, hg⟩ := ih (by omega)
    rw [List.range_succ, List.foldl_append]
    simp only [List.foldl_cons, List.foldl_nil]
    refine ⟨by rw [List.length_set, hl], fun j => ?_⟩
    rw [getD_set _ _ _ _ (by rw [hl]; omega), hg n, if_neg (lt_irrefl n)]
    by_cases hj : j = n
    · subst hj; simp
    · rw [if_neg hj, hg j]
      by_cases hlt : j < n
      · rw [if_pos hlt, if_pos (by omega)]
      · rw [if_neg hlt, if_neg (by omega)]

theorem partially_reduce_length (part update : List Nat) (count : Nat) (op : MIMPI_Op)
    (h : count ≤ part.length) : (partially_reduce part update count op).length = part.length :=
  (partially_reduce_upto part update op count h).1

theorem partially_reduce_getD (part update : List Nat) (count : Nat) (op : MIMPI_Op)
    (h : count ≤ part.length) (i : Nat) (hi : i < count) :
    (partially_reduce part update count op).getD i 0
      = reduce_lane op (part.getD i 0) (update.getD i 0) := by
  have := (partially_reduce_upto part update op count h).2 i
  rw [if_pos hi] at this
  exact this

theorem memcpy_fresh_length (src : List Nat) (count : Nat) (hs : count ≤ src.length) :
    (memcpy (List.replicate count 0) src count).length = count := by
  simp [memcpy]; omega

theorem memcpy_getD (dest src : List Nat) (count i : Nat) (hi : i < count)
    (hs : count ≤ src.length) : (memcpy dest src count).getD i 0 = src.getD i 0 := by
  simp only [memcpy, List.getD_eq_getElem?_getD]
  rw [List.getElem?_append_left (by simp; omega)]
  simp [List.getElem?_take, hi]

theorem reduce_lane_lt (op : MIMPI_Op) (x y : Nat) : reduce_lane op x y < 256 := by
  unfold reduce_lane
  exact Nat.mod_lt _ (by decide)

theorem reduce_lane_comm (op : MIMPI_Op) (x y : Nat) : reduce_lane op x y = reduce_lane op y x := by
  cases op
  · simp only [reduce_lane]; split_ifs <;> omega
  · simp only [reduce_lane]; split_ifs <;> omega
  · simp only [reduce_lane, Nat.add_comm]
  · simp only [reduce_lane, Nat.mul_comm]

theorem reduce_lane_assoc (op : MIMPI_Op) (x y z : Nat) (hx : x < 256) (hy : y < 256)
    (hz : z < 256) :
    reduce_lane op (reduce_lane op x y) z = reduce_lane op x (reduce_lane op y z) := by
  cases op
  · simp only [reduce_lane]; split_ifs <;> omega
  · simp only [reduce_lane]; split_ifs <;> omega
  · simp only [reduce_lane]; omega
  · simp only [reduce_lane]
    rw [Nat.mod_mul_mod, Nat.mul_mod_mod, Nat.mul_assoc]

/-- Folding a list of contributions into `b` and combining with `a` is folding them
into the combination of `a` and `b`. -/
theorem reduce_fold_assoc (op : MIMPI_Op) (g : Nat → Nat) (D : List Nat) (a b : Nat)
    (ha : a < 256) (hb : b < 256) (hD : ∀ r ∈ D, g r < 256) :
    reduce_lane op a (D.foldl (fun acc r => reduce_lane op acc (g r)) b)
      = D.foldl (fun acc r => reduce_lane op acc (g r)) (reduce_lane op a b) := by
  induction D generalizing b with
  | nil => rfl
  | cons r D ih =>
    simp only [List.foldl_cons]
    rw [ih (reduce_lane op b (g r)) (reduce_lane_lt _ _ _)
      (fun x hx => hD x (List.mem_cons_of_mem _ hx)),
      reduce_lane_assoc op a b (g r) ha hb (hD r (List.mem_cons_self _ _))]

/-- The order of the contributions does not matter. -/
theorem reduce_fold_perm (op : MIMPI_Op) (g : Nat → Nat) (l l' : List Nat) (h : l.Perm l')
    (init : Nat) (hi : init < 256) (hl : ∀ r ∈ l, g r < 256) :
    l.foldl (fun acc r => reduce_lane op acc (g r)) init
      = l'.foldl (fun acc r => reduce_lane op acc (g r)) init := by
  induction h generalizing init with
  | nil => rfl
  | cons x _ ih =>
    simp only [List.foldl_cons]
    exact ih _ (reduce_lane_lt _ _ _) (fun r hr => hl r (List.mem_cons_of_mem _ hr))
  | swap x y l =>
    simp only [List.foldl_cons]
    have hx := hl x (List.mem_cons_of_mem _ (List.mem_cons_self _ _))
    have hy := hl y (List.mem_cons_self _ _)
    rw [reduce_lane_assoc op init (g y) (g x) hi hy hx,
      reduce_lane_assoc op init (g x) (g y) hi hx hy, reduce_lane_comm op (g y) (g x)]
  | trans h1 _ ih1 ih2 =>
    rw [ih1 init hi hl]
    exact ih2 init hi (fun r hr => hl r (h1.mem_iff.mpr hr))

theorem mem_tree_children (size v c : Nat) (h : c ∈ tree_children size v) :
    c < size ∧ v < c := by
  simp only [tree_children, tree_num_children, tree_left, tree_right, List.mem_map,
    List.mem_range] at h
  obtain ⟨i, hi, rfl⟩ := h
  split_ifs at hi <;> omega

theorem tree_children_nil (size v : Nat) (h : size ≤ v) : tree_children size v = [] := by
  have h1 : ¬ (tree_left v < size) := by simp only [tree_left]; omega
  have h2 : ¬ (tree_right v < size) := by simp only [tree_right]; omega
  simp [tree_children, tree_num_children, h1, h2]

theorem mem_tree_below (size fuel v r : Nat) (h : r ∈ tree_below size fuel v) : r < size := by
  induction fuel generalizing v with
  | zero => simp [tree_below] at h
  | succ fuel ih =>
    simp only [tree_below, List.mem_flatMap, List.mem_cons] at h
    obtain ⟨c, hc, hr⟩ := h
    rcases hr with rfl | hr
    · exact (mem_tree_children size v r hc).1
    · exact ih c hr

/-- The lanes after the loop over the children, for any list of children. -/
theorem reduce_children_lanes (count : Nat) (op : MIMPI_Op) (delivered : Nat → List Nat)
    (cs : List Nat) (hd : ∀ c ∈ cs, count ≤ (delivered c).length) (acc : List Nat)
    (ha : acc.length = count) :
    (cs.foldl
      (fun acc child =>
        partially_reduce acc (memcpy (List.replicate count 0) (delivered child) count) count op)
      acc).length = count ∧
    ∀ i, i < count →
      (cs.foldl
        (fun acc child =>
          partially_reduce acc (memcpy (List.replicate count 0) (delivered child) count) count op)
        acc).getD i 0
      = cs.foldl (fun a c => reduce_lane op a ((delivered c).getD i 0)) (acc.getD i 0) := by
  induction cs generalizing acc with
  | nil => exact ⟨ha, fun i _ => rfl⟩
  | cons c cs ih =>
    simp only [List.foldl_cons]
    have hl := partially_reduce_length acc
      (memcpy (List.replicate count 0) (delivered c) count) count op (by omega)
    have h := ih (fun x hx => hd x (List.mem_cons_of_mem _ hx)) _ (hl.trans ha)
    refine ⟨h.1, fun i hi => ?_⟩
    rw [h.2 i hi, partially_reduce_getD _ _ _ _ (by omega) i hi,
      memcpy_getD _ _ _ _ hi (hd c (List.mem_cons_self _ _))]

/-- The partial result of rank `v`, lane by lane: the contributions of the ranks below
`v` folded into the contribution of `v`. -/
theorem reduce_up_lanes (size count : Nat) (op : MIMPI_Op) (send : Nat → List Nat)
    (hlen : ∀ r, r < size → (send r).length = count)
    (hbyte : ∀ r, r < size → ∀ i, (send r).getD i 0 < 256)
    (fuel v : Nat) (hv : v < size) (hf : size ≤ fuel + v) :
    (reduce_up size count op send fuel v).length = count ∧
    ∀ i, i < count →
      (reduce_up size count op send fuel v).getD i 0
        = (tree_below size fuel v).foldl (fun a r => reduce_lane op a ((send r).getD i 0))
            ((send v).getD i 0) := by
  induction fuel generalizing v with
  | zero => omega
  | succ fuel ih =>
    have hc : ∀ c ∈ tree_children size v, c < size ∧ size ≤ fuel + c := fun c hc => by
      have := mem_tree_children size v c hc
      omega
    have h0 : (memcpy (List.replicate count 0) (send v) count).length = count :=
      memcpy_fresh_length _ _ (by rw [hlen v hv])
    have h := reduce_children_lanes count op (fun c => reduce_up size count op send fuel c)
      (tree_children size v)
      (fun c hcm => by rw [(ih c (hc c hcm).1 (hc c hcm).2).1])
      _ h0
    simp only [reduce_up, reduce_collect]
    refine ⟨h.1, fun i hi => ?_⟩
    rw [h.2 i hi, memcpy_getD _ _ _ _ hi (by rw [hlen v hv])]
    simp only [tree_below]
    -- fold the children's partial results, then open each of them
    have key : ∀ (cs : List Nat) (a : Nat), a < 256 →
        (∀ c ∈ cs, c < size ∧ size ≤ fuel + c) →
        cs.foldl (fun a c => reduce_lane op a
            ((reduce_up size count op send fuel c).getD i 0)) a
          = (cs.flatMap (fun c => c :: tree_below size fuel c)).foldl
              (fun a r => reduce_lane op a ((send r).getD i 0)) a := by
      intro cs
      induction cs with
      | nil => intro a _ _; rfl
      | cons c cs ihc =>
        intro a ha hcs
        have hcc := hcs c (List.mem_cons_self _ _)
        simp only [List.foldl_cons, List.flatMap_cons, List.cons_append, List.foldl_append]
        rw [(ih c hcc.1 hcc.2).2 i hi,
          reduce_fold_assoc op (fun r => (send r).getD i 0) _ a _ ha (hbyte c hcc.1 i)
            (fun r hr => hbyte r (mem_tree_below size fuel c r hr) i)]
        exact ihc _ (by
          -- the accumulator stays a byte
          have : ∀ (D : List Nat) (b : Nat), b < 256 →
              D.foldl (fun a r => reduce_lane op a ((send r).getD i 0)) b < 256 := by
            intro D
            induction D with
            | nil => intro b hb; exact hb
            | cons r D ihD => intro b _; exact ihD _ (reduce_lane_lt _ _ _)
          exact this _ _ (reduce_lane_lt _ _ _))
          (fun x hx => hcs x (List.mem_cons_of_mem _ hx))
    exact key _ _ (hbyte v hv i) hc

theorem reduce_collect_congr (rank size : Nat) (send_data : List Nat) (count : Nat)
    (op : MIMPI_Op) (d1 d2 : Nat → List Nat)
    (h : ∀ c ∈ tree_children size rank, d1 c = d2 c) :
    reduce_collect rank size send_data count op d1
      = reduce_collect rank size send_data count op d2 := by
  have hfold : ∀ (cs : List Nat) (acc : List Nat), (∀ c ∈ cs, d1 c = d2 c) →
      cs.foldl (fun acc child => partially_reduce acc
          (memcpy (List.replicate count 0) (d1 child) count) count op) acc
        = cs.foldl (fun acc child => partially_reduce acc
          (memcpy (List.replicate count 0) (d2 child) count) count op) acc := by
    intro cs
    induction cs with
    | nil => intro _ _; rfl
    | cons c cs ihc =>
      intro acc h
      simp only [List.foldl_cons]
      rw [h c (List.mem_cons_self _ _)]
      exact ihc _ (fun x hx => h x (List.mem_cons_of_mem _ hx))
  exact hfold _ _ h

/-- Fuel beyond the depth of the tree below `v` changes nothing. -/
theorem reduce_up_fuel (size count : Nat) (op : MIMPI_Op) (send : Nat → List Nat)
    (fuel v : Nat) (hf : size ≤ fuel + v) :
    reduce_up size count op send (fuel + 1) v = reduce_up size count op send fuel v := by
  induction fuel generalizing v with
  | zero =>
    simp only [reduce_up, reduce_collect, tree_children_nil size v (by omega), List.foldl_nil]
  | succ fuel ih =>
    show reduce_collect v size (send v) count op
        (fun c => reduce_up size count op send (fuel + 1) c)
      = reduce_collect v size (send v) count op (fun c => reduce_up size count op send fuel c)
    exact reduce_collect_congr v size (send v) count op _ _
      (fun c hc => ih c (by have := mem_tree_children size v c hc; omega))

theorem tree_parent_lt (v : Nat) (hv : v ≠ 0) : tree_parent v < v := by
  unfold tree_parent; omega

theorem memcpy_full (dest src : List Nat) (count : Nat) (hd : dest.length = count)
    (hs : src.length = count) : memcpy dest src count = src := by
  unfold memcpy
  rw [List.take_of_length_le (by omega), List.drop_of_length_le (by omega), List.append_nil]

/-- For up to 16 ranks the ranks below rank 0 are exactly the ranks `1 .. N - 1`. -/
theorem tree_below_root_perm (size : Nat) (h1 : 1 ≤ size) (h2 : size ≤ 16) :
    (tree_below size size 0).Perm (List.range' 1 (size - 1)) := by
  interval_cases size <;> decide

/-- The call of rank `v` when its receives from its children deliver their partial
results and its receive from its parent delivers the partial result of rank 0. -/
theorem reduce_call_values (size count : Nat) (op : MIMPI_Op) (root : Nat)
    (send recv : Nat → List Nat) (hroot : root < size)
    (hlen : ∀ r, r < size → (send r).length = count)
    (hbyte : ∀ r, r < size → ∀ i, (send r).getD i 0 < 256)
    (v : Nat) (hv : v < size) (d : Nat → List Nat)
    (hchild : ∀ c ∈ tree_children size v, d c = reduce_up size count op send size c)
    (hpar : v ≠ 0 → d (tree_parent v) = reduce_up size count op send size 0) :
    (MIMPI_Reduce v size (send v) (recv v) count op root d).ret = MIMPI_SUCCESS ∧
    (MIMPI_Reduce v size (send v) (recv v) count op root d).sent_parent
      = reduce_up size count op send size v ∧
    (MIMPI_Reduce v size (send v) (recv v) count op root d).sent_children
      = reduce_up size count op send size 0 ∧
    (MIMPI_Reduce v size (send v) (recv v) count op root d).recv_data
      = if v = root then memcpy (recv v) (reduce_up size count op send size 0) count
        else recv v := by
  have hr : ¬ ((root : Int) < 0 ∨ (root : Int) ≥ (size : Int)) := by omega
  have h1 : reduce_collect v size (send v) count op d
      = reduce_up size count op send size v := by
    rw [← reduce_up_fuel size count op send size v (by omega)]
    show _ = reduce_collect v size (send v) count op
      (fun c => reduce_up size count op send size c)
    exact reduce_collect_congr v size (send v) count op _ _ hchild
  have h2 : reduce_complete v (reduce_up size count op send size v) (d (tree_parent v)) count
      = reduce_up size count op send size 0 := by
    by_cases h0 : v = 0
    · subst h0; simp [reduce_complete]
    · simp only [reduce_complete, h0, ne_eq, not_false_eq_true, if_true]
      rw [hpar h0]
      exact memcpy_full _ _ _
        (reduce_up_lanes size count op send hlen hbyte size v hv (by omega)).1
        (reduce_up_lanes size count op send hlen hbyte size 0 (by omega) (by omega)).1
  simp only [MIMPI_Reduce, hr, if_false, h1, h2, Nat.cast_inj, true_and]

/-- The closed form solves the equations: with these deliveries every receive delivers
what the peer's call of `MIMPI_Reduce` sends. -/
theorem reduce_deliveries_ok (size count : Nat) (op : MIMPI_Op) (root : Nat)
    (send recv : Nat → List Nat) (hroot : root < size)
    (hlen : ∀ r, r < size → (send r).length = count)
    (hbyte : ∀ r, r < size → ∀ i, (send r).getD i 0 < 256) :
    reduce_delivery_ok size count op root send recv (reduce_deliveries size count op send) := by
  have hcall := fun w (hw : w < size) =>
    reduce_call_values size count op root send recv hroot hlen hbyte w hw
      (reduce_deliveries size count op send w)
      (fun c hc => by simp [reduce_deliveries, (mem_tree_children size w c hc).2])
      (fun h0 => by simp [reduce_deliveries, Nat.lt_asymm (tree_parent_lt w h0)])
  intro v hv
  refine ⟨fun c hc => ?_, fun h0 => ?_⟩
  · have hc' := mem_tree_children size v c hc
    rw [(hcall c hc'.1).2.1]
    simp [reduce_deliveries, hc'.2]
  · have hp := tree_parent_lt v h0
    rw [(hcall (tree_parent v) (by omega)).2.2.1]
    simp [reduce_deliveries, Nat.lt_asymm hp]

/-- In any run, the receive from a child delivers the partial result of that child. -/
theorem reduce_delivery_child (size count : Nat) (op : MIMPI_Op) (root : Nat)
    (send recv : Nat → List Nat) (hroot : root < size) (del : Nat → Nat → List Nat)
    (hok : reduce_delivery_ok size count op root send recv del) :
    ∀ n v c, v < size → c ∈ tree_children size v → size - c ≤ n →
      del v c = reduce_up size count op send size c := by
  have hr : ¬ ((root : Int) < 0 ∨ (root : Int) ≥ (size : Int)) := by omega
  intro n
  induction n with
  | zero =>
    intro v c _ hc hn
    have := mem_tree_children size v c hc
    omega
  | succ n ih =>
    intro v c hv hc _
    have hc' := mem_tree_children size v c hc
    have hs : (MIMPI_Reduce c size (send c) (recv c) count op root (del c)).sent_parent
        = reduce_collect c size (send c) count op (del c) := by
      simp only [MIMPI_Reduce, hr, if_false]
    rw [(hok v hv).1 c hc, hs, ← reduce_up_fuel size count op send size c (by omega)]
    show _ = reduce_collect c size (send c) count op
      (fun c2 => reduce_up size count op send size c2)
    exact reduce_collect_congr c size (send c) count op _ _
      (fun c2 hc2 => ih c c2 hc'.1 hc2 (by have := mem_tree_children size c c2 hc2; omega))

/-- In any run, the receive from the parent delivers the partial result of rank 0. -/
theorem reduce_delivery_parent (size count : Nat) (op : MIMPI_Op) (root : Nat)
    (send recv : Nat → List Nat) (hroot : root < size)
    (hlen : ∀ r, r < size → (send r).length = count)
    (hbyte : ∀ r, r < size → ∀ i, (send r).getD i 0 < 256)
    (del : Nat → Nat → List Nat)
    (hok : reduce_delivery_ok size count op root send recv del) :
    ∀ v, v < size → v ≠ 0 → del v (tree_parent v) = reduce_up size count op send size 0 := by
  intro v
  induction v using Nat.strong_induction_on with
  | _ v ih =>
    intro hv h0
    have hp := tree_parent_lt v h0
    rw [(hok v hv).2 h0]
    exact (reduce_call_values size count op root send recv hroot hlen hbyte (tree_parent v)
      (by omega) (del (tree_parent v))
      (fun c hc => reduce_delivery_child size count op root send recv hroot del hok size
        (tree_parent v) c (by omega) hc (by omega))
      (fun hp0 => ih (tree_parent v) hp (by omega) hp0)).2.2.1

/-- Folding byte values with the lane operation of the code gives the reference value
of the operation on the whole list. -/
theorem reduce_fold_eq_op_spec (op : MIMPI_Op) (xs : List Nat) (a : Nat) (ha : a < 256)
    (hx : ∀ x ∈ xs, x < 256) :
    xs.foldl (fun acc x => reduce_lane op acc x) a = op_spec op (a :: xs) := by
  cases op with
  | MIMPI_MAX =>
    have key : ∀ (l : List Nat) (b : Nat), b < 256 → (∀ x ∈ l, x < 256) →
        l.foldl (fun acc x => reduce_lane MIMPI_MAX acc x) b = l.foldl max b := by
      intro l
      induction l with
      | nil => intro b _ _; rfl
      | cons y l ih =>
        intro b hb hl
        have hy := hl y (List.mem_cons_self _ _)
        have e : reduce_lane MIMPI_MAX b y = max b y := by
          simp only [reduce_lane]
          split_ifs <;> omega
        simp only [List.foldl_cons, e]
        exact ih (max b y) (by omega) (fun x hx' => hl x (List.mem_cons_of_mem _ hx'))
    rw [key xs a ha hx]
    simp [op_spec]
  | MIMPI_MIN =>
    have key : ∀ (l : List Nat) (b : Nat), b < 256 → (∀ x ∈ l, x < 256) →
        l.foldl (fun acc x => reduce_lane MIMPI_MIN acc x) b = l.foldl min b := by
      intro l
      induction l with
      | nil => intro b _ _; rfl
      | cons y l ih =>
        intro b hb hl
        have hy := hl y (List.mem_cons_self _ _)
        have e : reduce_lane MIMPI_MIN b y = min b y := by
          simp only [reduce_lane]
          split_ifs <;> omega
        simp only [List.foldl_cons, e]
        exact ih (min b y) (by omega) (fun x hx' => hl x (List.mem_cons_of_mem _ hx'))
    rw [key xs a ha hx]
    simp [op_spec]
  | MIMPI_SUM =>
    have key : ∀ (l : List Nat) (b : Nat), b < 256 →
        l.foldl (fun acc x => reduce_lane MIMPI_SUM acc x) b = (b + l.sum) % 256 := by
      intro l
      induction l with
      | nil => intro b hb; simp only [List.foldl_nil, List.sum_nil]; omega
      | cons y l ih =>
        intro b _
        simp only [List.foldl_cons, List.sum_cons, reduce_lane]
        have := ih ((b + y) % 256) (Nat.mod_lt _ (by decide))
        simp only [reduce_lane] at this
        rw [this]
        omega
    rw [key xs a ha]
    simp [op_spec]
  | MIMPI_PROD =>
    have key : ∀ (l : List Nat) (b : Nat), b < 256 →
        l.foldl (fun acc x => reduce_lane MIMPI_PROD acc x) b = (b * l.prod) % 256 := by
      intro l
      induction l with
      | nil => intro b hb; simp only [List.foldl_nil, List.prod_nil, Nat.mul_one]; omega
      | cons y l ih =>
        intro b _
        simp only [List.foldl_cons, List.prod_cons, reduce_lane]
        have := ih ((b * y) % 256) (Nat.mod_lt _ (by decide))
        simp only [reduce_lane] at this
        rw [this, Nat.mod_mul_mod, Nat.mul_assoc]
    rw [key xs a ha]
    simp [op_spec]

/-- The ranks `0 .. N - 1` are rank 0 followed by the ranks `1 .. N - 1`. -/
theorem range_eq_zero_cons (size : Nat) (h1 : 1 ≤ size) :
    List.range size = 0 :: List.range' 1 (size - 1) := by
  obtain ⟨k, rfl⟩ : ∃ k, size = k + 1 := ⟨size - 1, by omega⟩
  rw [List.range_eq_range', List.range'_succ]
  rfl

/-- C6. Reduce correctness: for `1 <= N <= 16`, every logical root in `[0, N)`, every
operation, every count and all send buffers of `count` bytes. A run in which all ranks
call `MIMPI_Reduce` over the heap tree and every point-to-point call succeeds is given
by what the receives deliver, each receive delivering what the call of the peer sent on
that link (`reduce_delivery_ok`). Such a run exists, and in every such run every rank
returns SUCCESS, the recv buffer of the logical root holds in each lane `i < count` the
value `op(s_0[i], ..., s_{N-1}[i])` (the greatest, the least, the sum or the product
modulo 256), and no other rank writes its recv buffer. -/
theorem MIMPI_Reduce_correct (size count : Nat) (op : MIMPI_Op) (root : Nat)
    (send recv : Nat → List Nat) (h1 : 1 ≤ size) (h2 : size ≤ 16) (hroot : root < size)
    (hlen : ∀ r, r < size → (send r).length = count)
    (hbyte : ∀ r, r < size → ∀ b ∈ send r, b < 256) :
    reduce_delivery_ok size count op root send recv (reduce_deliveries size count op send) ∧
    ∀ del, reduce_delivery_ok size count op root send recv del →
      (∀ v, v < size →
        (MIMPI_Reduce v size (send v) (recv v) count op root (del v)).ret = MIMPI_SUCCESS) ∧
      (∀ i, i < count →
        (MIMPI_Reduce root size (send root) (recv root) count op root (del root)).recv_data.getD
            i 0
          = reduce_lane_spec op send size i) ∧
      (∀ v, v < size → v ≠ root →
        (MIMPI_Reduce v size (send v) (recv v) count op root (del v)).recv_data = recv v) := by
  have hb : ∀ r, r < size → ∀ i, (send r).getD i 0 < 256 := by
    intro r hr i
    rw [List.getD_eq_getElem?_getD]
    cases hg : (send r)[i]? with
    | none => simp
    | some b => exact hbyte r hr b (List.getElem?_mem hg)
  refine ⟨reduce_deliveries_ok size count op root send recv hroot hlen hb, fun del hok => ?_⟩
  have hcall := fun v (hv : v < size) =>
    reduce_call_values size count op root send recv hroot hlen hb v hv (del v)
      (fun c hc => reduce_delivery_child size count op root send recv hroot del hok size
        v c hv hc (by omega))
      (reduce_delivery_parent size count op root send recv hroot hlen hb del hok v hv)
  refine ⟨fun v hv => (hcall v hv).1, fun i hi => ?_, fun v hv hne => ?_⟩
  · have hu := reduce_up_lanes size count op send hlen hb size 0 (by omega) (by omega)
    rw [(hcall root hroot).2.2.2, if_pos rfl, memcpy_getD _ _ _ _ hi (by rw [hu.1]), hu.2 i hi,
      reduce_fold_perm op (fun r => (send r).getD i 0) _ _
        (tree_below_root_perm size h1 h2) _ (hb 0 (by omega) i)
        (fun r hr => hb r (mem_tree_below size size 0 r hr) i)]
    have hm : (List.range' 1 (size - 1)).foldl
          (fun a r => reduce_lane op a ((send r).getD i 0)) ((send 0).getD i 0)
        = ((List.range' 1 (size - 1)).map (fun r => (send r).getD i 0)).foldl
          (fun acc x => reduce_lane op acc x) ((send 0).getD i 0) := by
      rw [List.foldl_map]
    rw [hm, reduce_fold_eq_op_spec op _ _ (hb 0 (by omega) i)
      (fun x hx => by
        obtain ⟨r, hr, rfl⟩ := List.mem_map.mp hx
        have := List.mem_range'_1.mp hr
        exact hb r (by omega) i)]
    simp only [reduce_lane_spec, range_eq_zero_cons size h1, List.map_cons]
  · rw [(hcall v hv).2.2.2, if_neg hne]

/-- The premises of `MIMPI_Reduce_correct` hold in the scenario of the spec: `N = 4`,
every rank `r` sends four bytes `r + 1`, the operation is SUM and the root is rank 0;
with the deliveries of the run, lane 0 of the root's recv buffer is the value of the
spec, which is 10. -/
theorem MIMPI_Reduce_correct_witness :
    (MIMPI_Reduce 0 4 (List.replicate 4 (0 + 1)) [0, 0, 0, 0] 4 MIMPI_SUM
        ((0 : Nat) : Int)
        (reduce_deliveries 4 4 MIMPI_SUM (fun r => List.replicate 4 (r + 1)) 0)).recv_data.getD
        0 0
      = reduce_lane_spec MIMPI_SUM (fun r => List.replicate 4 (r + 1)) 4 0 ∧
    reduce_lane_spec MIMPI_SUM (fun r => List.replicate 4 (r + 1)) 4 0 = 10 :=
  ⟨((MIMPI_Reduce_correct 4 4 MIMPI_SUM 0 (fun r => List.replicate 4 (r + 1))
      (fun _ => [0, 0, 0, 0]) (by decide) (by decide) (by decide)
      (fun r _ => List.length_replicate _ _)
      (fun r hr b hb => by
        rw [List.eq_of_mem_replicate hb]
        omega)).2
      (reduce_deliveries 4 4 MIMPI_SUM (fun r => List.replicate 4 (r + 1)))
      (MIMPI_Reduce_correct 4 4 MIMPI_SUM 0 (fun r => List.replicate 4 (r + 1))
        (fun _ => [0, 0, 0, 0]) (by decide) (by decide) (by decide)
        (fun r _ => List.length_replicate _ _)
        (fun r hr b hb => by
          rw [List.eq_of_mem_replicate hb]
          omega)).1).2.1 0 (by decide),
    by decide⟩

/-! ## Bcast -/

theorem is_bcast_path_loop_sound (v : Nat) (fuel curr : Nat)
    (h : is_bcast_path_loop v fuel curr = true) : ∃ k, tree_parent^[k + 1] curr = v := by
  induction fuel generalizing curr with
  | zero => simp [is_bcast_path_loop] at h
  | succ fuel ih =>
    simp only [is_bcast_path_loop] at h
    split_ifs at h with h0 hv
    · exact ⟨0, by simpa [tree_parent] using hv⟩
    · obtain ⟨k, hk⟩ := ih _ h
      exact ⟨k + 1, by rw [Function.iterate_succ_apply]; exact hk⟩

theorem tree_parent_iterate_zero (k : Nat) : tree_parent^[k] 0 = 0 := by
  induction k with
  | zero => rfl
  | succ k ih => rw [Function.iterate_succ_apply]; exact ih

theorem is_bcast_path_loop_complete (v : Nat) (fuel curr k : Nat) (hf : curr ≤ fuel)
    (hne : curr ≠ v) (hk : tree_parent^[k] curr = v) :
    is_bcast_path_loop v fuel curr = true := by
  induction fuel generalizing curr k with
  | zero =>
    have : curr = 0 := by omega
    subst this
    rw [tree_parent_iterate_zero] at hk
    exact absurd hk hne
  | succ fuel ih =>
    by_cases h0 : curr = 0
    · subst h0
      rw [tree_parent_iterate_zero] at hk
      exact absurd hk hne
    · cases k with
      | zero => exact absurd hk hne
      | succ k =>
        rw [Function.iterate_succ_apply] at hk
        simp only [is_bcast_path_loop, h0, ne_eq, not_false_eq_true, if_true]
        by_cases hv : (curr - 1) / 2 = v
        · simp [hv]
        · rw [if_neg hv]
          exact ih ((curr - 1) / 2) k (by omega) hv hk

/-- A rank is on the broadcast path exactly when it is the root or an ancestor of the
root in the tree. -/
theorem is_bcast_path_iff (v root : Nat) :
    is_bcast_path v root = true ↔ ∃ k, tree_parent^[k] root = v := by
  unfold is_bcast_path
  by_cases h : v = root
  · simp only [h, if_true, true_iff]
    exact ⟨0, rfl⟩
  · rw [if_neg h]
    constructor
    · intro hl
      obtain ⟨k, hk⟩ := is_bcast_path_loop_sound v root root hl
      exact ⟨k + 1, hk⟩
    · rintro ⟨k, hk⟩
      exact is_bcast_path_loop_complete v root root k (le_refl _) (Ne.symm h) hk

set_option maxRecDepth 100000 in
theorem bcast_path_root_facts :
    ∀ root, root < 16 →
      (is_bcast_path 0 root = true ∧ is_bcast_path (tree_left root) root = false ∧
        is_bcast_path (tree_right root) root = false) := by
  decide

set_option maxRecDepth 100000 in
theorem bcast_path_child_facts :
    ∀ root, root < 16 → ∀ v, v < 16 →
      (¬ (is_bcast_path (tree_left v) root = true ∧ is_bcast_path (tree_right v) root = true) ∧
        (is_bcast_path v root = false ∨ v = root ∨
          (is_bcast_path (tree_left v) root = true ∧ tree_left v ≤ root) ∨
          (is_bcast_path (tree_right v) root = true ∧ tree_right v ≤ root))) := by
  decide

theorem tree_children_cases (size v : Nat) :
    tree_children size v =
      if tree_right v < size then [tree_left v, tree_right v]
      else if tree_left v < size then [tree_left v] else [] := by
  unfold tree_children tree_num_children
  by_cases h2 : tree_right v < size
  · have h1 : tree_left v < size := by simp only [tree_left, tree_right] at *; omega
    simp only [h1, h2, if_true]
    rfl
  · by_cases h1 : tree_left v < size
    · simp only [h1, h2, if_true, if_false]
      rfl
    · simp only [h1, h2, if_false]
      rfl

theorem memcpy_length (dest src : List Nat) (n : Nat) (hs : n ≤ src.length)
    (hd : n ≤ dest.length) : (memcpy dest src n).length = dest.length := by
  simp only [memcpy, List.length_append, List.length_take, List.length_drop]
  omega

theorem memcpy_take (dest src : List Nat) (n : Nat) (hs : n ≤ src.length) :
    (memcpy dest src n).take n = src.take n := by
  unfold memcpy
  rw [List.take_append_of_le_length (by simp; omega), List.take_take, Nat.min_self]

theorem memset_length (dest : List Nat) (b n : Nat) (hd : n ≤ dest.length) :
    (memset dest b n).length = dest.length := by
  simp only [memset, List.length_append, List.length_replicate, List.length_drop]
  omega

/-- The loop over the children of `MIMPI_Bcast`, for any list of children: the length of
the buffer is kept and its first `count` bytes are those of the last child on the path,
if any. -/
theorem bcast_children_fold (count root : Nat) (delivered : Nat → List Nat) (cs : List Nat)
    (hd : ∀ c ∈ cs, (delivered c).length = count) (acc : List Nat) (ha : count ≤ acc.length) :
    (cs.foldl
      (fun data child =>
        if is_bcast_path child root then
          memcpy data (memcpy (List.replicate count 0) (delivered child) count) count
        else data) acc).length = acc.length ∧
    (cs.foldl
      (fun data child =>
        if is_bcast_path child root then
          memcpy data (memcpy (List.replicate count 0) (delivered child) count) count
        else data) acc).take count
      = cs.foldl (fun t c => if is_bcast_path c root then delivered c else t)
          (acc.take count) := by
  induction cs generalizing acc with
  | nil => exact ⟨rfl, rfl⟩
  | cons c cs ih =>
    have hc := hd c (List.mem_cons_self _ _)
    have hbuf : memcpy (List.replicate count 0) (delivered c) count = delivered c :=
      memcpy_full _ _ _ (List.length_replicate _ _) hc
    simp only [List.foldl_cons, hbuf]
    by_cases hp : is_bcast_path c root = true
    · simp only [hp, if_true]
      have hl := memcpy_length acc (delivered c) count (by omega) ha
      have h := ih (fun x hx => hd x (List.mem_cons_of_mem _ hx))
        (memcpy acc (delivered c) count) (by omega)
      refine ⟨h.1.trans hl, ?_⟩
      rw [h.2, memcpy_take _ _ _ (le_of_eq hc.symm), List.take_of_length_le (le_of_eq hc)]
    · simp only [hp, if_false, Bool.false_eq_true]
      exact ih (fun x hx => hd x (List.mem_cons_of_mem _ hx)) acc ha

/-- Upward wave: the buffer of a rank keeps its length, and on the path from the root
to rank 0 its first `count` bytes are the root's. -/
theorem bcast_up_spec (size count root : Nat) (data : Nat → List Nat)
    (h2 : size ≤ 16) (hroot : root < size) (hlen : ∀ r, r < size → count ≤ (data r).length)
    (fuel v : Nat) (hv : v < size) (hf : size ≤ fuel + v) :
    (bcast_up size count root data fuel v).length = (data v).length ∧
    (is_bcast_path v root = true →
      (bcast_up size count root data fuel v).take count = (data root).take count) := by
  induction fuel generalizing v with
  | zero => omega
  | succ fuel ih =>
    have hc : ∀ c ∈ tree_children size v, c < size ∧ size ≤ fuel + c := fun c hc => by
      have := mem_tree_children size v c hc
      omega
    have hdl : ∀ c ∈ tree_children size v,
        ((bcast_up size count root data fuel c).take count).length = count := fun c hcm => by
      rw [List.length_take, (ih c (hc c hcm).1 (hc c hcm).2).1]
      exact Nat.min_eq_left (hlen c (hc c hcm).1)
    have hacc : count ≤ (if v ≠ root then memset (data v) 0 count else data v).length := by
      split_ifs
      · rw [memset_length _ _ _ (hlen v hv)]; exact hlen v hv
      · exact hlen v hv
    have haccl : (if v ≠ root then memset (data v) 0 count else data v).length
        = (data v).length := by
      split_ifs
      · exact memset_length _ _ _ (hlen v hv)
      · rfl
    have h := bcast_children_fold count root
      (fun c => (bcast_up size count root data fuel c).take count)
      (tree_children size v) hdl _ hacc
    simp only [bcast_up, bcast_collect]
    refine ⟨h.1.trans haccl, fun hp => ?_⟩
    rw [h.2]
    have hr16 : root < 16 := by omega
    have hv16 : v < 16 := by omega
    have hroot_facts := bcast_path_root_facts root hr16
    have hchild := bcast_path_child_facts root hr16 v hv16
    by_cases hvr : v = root
    · subst hvr
      simp only [ne_eq, not_true_eq_false, if_false]
      rw [tree_children_cases]
      split_ifs <;> simp [hroot_facts.2.1, hroot_facts.2.2]
    · have hleft : is_bcast_path (tree_left v) root = true → tree_left v ≤ root →
          (bcast_up size count root data fuel (tree_left v)).take count
            = (data root).take count := fun hpl hle =>
        (ih (tree_left v) (by omega) (by simp only [tree_left] at *; omega)).2 hpl
      have hright : is_bcast_path (tree_right v) root = true → tree_right v ≤ root →
          (bcast_up size count root data fuel (tree_right v)).take count
            = (data root).take count := fun hpr hle =>
        (ih (tree_right v) (by omega) (by simp only [tree_right] at *; omega)).2 hpr
      rcases hchild.2 with hno | heq | ⟨hpl, hle⟩ | ⟨hpr, hle⟩
      · rw [hp] at hno; cases hno
      · exact absurd heq hvr
      · have hnr : is_bcast_path (tree_right v) root = false := by
          cases hb : is_bcast_path (tree_right v) root with
          | false => rfl
          | true => exact absurd ⟨hpl, hb⟩ hchild.1
        have hl : tree_left v < size := by omega
        rw [tree_children_cases]
        split_ifs <;> simp [hpl, hnr, hleft hpl hle]
      · have hr : tree_right v < size := by omega
        rw [tree_children_cases, if_pos hr]
        simp [hpr, hright hpr hle]

theorem bcast_collect_congr (rank size : Nat) (data : List Nat) (count root : Nat)
    (d1 d2 : Nat → List Nat) (h : ∀ c ∈ tree_children size rank, d1 c = d2 c) :
    bcast_collect rank size data count root d1 = bcast_collect rank size data count root d2 := by
  have hfold : ∀ (cs : List Nat) (acc : List Nat), (∀ c ∈ cs, d1 c = d2 c) →
      cs.foldl (fun data child =>
          if is_bcast_path child root then
            memcpy data (memcpy (List.replicate count 0) (d1 child) count) count
          else data) acc
        = cs.foldl (fun data child =>
          if is_bcast_path child root then
            memcpy data (memcpy (List.replicate count 0) (d2 child) count) count
          else data) acc := by
    intro cs
    induction cs with
    | nil => intro _ _; rfl
    | cons c cs ihc =>
      intro acc h
      simp only [List.foldl_cons]
      rw [h c (List.mem_cons_self _ _)]
      exact ihc _ (fun x hx => h x (List.mem_cons_of_mem _ hx))
  exact hfold _ _ h

/-- Fuel beyond the depth of the tree below `v` changes nothing. -/
theorem bcast_up_fuel (size count root : Nat) (data : Nat → List Nat) (fuel v : Nat)
    (hf : size ≤ fuel + v) :
    bcast_up size count root data (fuel + 1) v = bcast_up size count root data fuel v := by
  induction fuel generalizing v with
  | zero =>
    simp only [bcast_up, bcast_collect, tree_children_nil size v (by omega), List.foldl_nil]
  | succ fuel ih =>
    show bcast_collect v size (data v) count root
        (fun c => (bcast_up size count root data (fuel + 1) c).take count)
      = bcast_collect v size (data v) count root
        (fun c => (bcast_up size count root data fuel c).take count)
    exact bcast_collect_congr v size (data v) count root _ _
      (fun c hc => by
        show (bcast_up size count root data (fuel + 1) c).take count = _
        rw [ih c (by have := mem_tree_children size v c hc; omega)])

/-- The call of rank `v` when its receives from its children deliver the first `count`
bytes of their buffers after their own loops, and its receive from its parent delivers
the first `count` bytes of the root's input. -/
theorem bcast_call_values (size count root : Nat) (data : Nat → List Nat)
    (h2 : size ≤ 16) (hroot : root < size) (hlen : ∀ r, r < size → count ≤ (data r).length)
    (v : Nat) (hv : v < size) (d : Nat → List Nat)
    (hchild : ∀ c ∈ tree_children size v,
      d c = (bcast_up size count root data size c).take count)
    (hpar : v ≠ 0 → d (tree_parent v) = (data root).take count) :
    (MIMPI_Bcast v size (data v) count root d).ret = MIMPI_SUCCESS ∧
    (MIMPI_Bcast v size (data v) count root d).sent_parent
      = (bcast_up size count root data size v).take count ∧
    (MIMPI_Bcast v size (data v) count root d).sent_children = (data root).take count ∧
    (MIMPI_Bcast v size (data v) count root d).data.take count = (data root).take count := by
  have hr : ¬ ((root : Int) < 0 ∨ (root : Int) ≥ (size : Int)) := by omega
  have hcollect : bcast_collect v size (data v) count root d
      = bcast_up size count root data size v := by
    rw [← bcast_up_fuel size count root data size v (by omega)]
    show _ = bcast_collect v size (data v) count root
      (fun c => (bcast_up size count root data size c).take count)
    exact bcast_collect_congr v size (data v) count root _ _ hchild
  have hup := bcast_up_spec size count root data h2 hroot hlen size v hv (by omega)
  have hfin : (bcast_complete v (bcast_up size count root data size v) (d (tree_parent v))
      count).take count = (data root).take count := by
    by_cases h0 : v = 0
    · subst h0
      simp only [bcast_complete, ne_eq, not_true_eq_false, if_false]
      exact hup.2 (bcast_path_root_facts root (by omega)).1
    · have hl : ((data root).take count).length = count := by
        rw [List.length_take]
        exact Nat.min_eq_left (hlen root hroot)
      simp only [bcast_complete, h0, ne_eq, not_false_eq_true, if_true]
      rw [hpar h0, memcpy_take _ _ _ (by omega), List.take_take, Nat.min_self]
  simp only [MIMPI_Bcast, hr, if_false, Int.toNat_ofNat, hcollect, hfin, true_and]

/-- The closed form solves the equations: with these deliveries every receive delivers
what the peer's call of `MIMPI_Bcast` sends. -/
theorem bcast_deliveries_ok (size count root : Nat) (data : Nat → List Nat)
    (h2 : size ≤ 16) (hroot : root < size) (hlen : ∀ r, r < size → count ≤ (data r).length) :
    bcast_delivery_ok size count root data (bcast_deliveries size count root data) := by
  have hcall := fun w (hw : w < size) =>
    bcast_call_values size count root data h2 hroot hlen w hw
      (bcast_deliveries size count root data w)
      (fun c hc => by simp [bcast_deliveries, (mem_tree_children size w c hc).2])
      (fun h0 => by simp [bcast_deliveries, Nat.lt_asymm (tree_parent_lt w h0)])
  intro v hv
  refine ⟨fun c hc => ?_, fun h0 => ?_⟩
  · have hc' := mem_tree_children size v c hc
    rw [(hcall c hc'.1).2.1]
    simp [bcast_deliveries, hc'.2]
  · have hp := tree_parent_lt v h0
    rw [(hcall (tree_parent v) (by omega)).2.2.1]
    simp [bcast_deliveries, Nat.lt_asymm hp]

/-- In any run, the receive from a child delivers the first `count` bytes of the buffer
of that child after its loop over its own children. -/
theorem bcast_delivery_child (size count root : Nat) (data : Nat → List Nat)
    (hroot : root < size) (del : Nat → Nat → List Nat)
    (hok : bcast_delivery_ok size count root data del) :
    ∀ n v c, v < size → c ∈ tree_children size v → size - c ≤ n →
      del v c = (bcast_up size count root data size c).take count := by
  have hr : ¬ ((root : Int) < 0 ∨ (root : Int) ≥ (size : Int)) := by omega
  intro n
  induction n with
  | zero =>
    intro v c _ hc hn
    have := mem_tree_children size v c hc
    omega
  | succ n ih =>
    intro v c hv hc _
    have hc' := mem_tree_children size v c hc
    have hs : (MIMPI_Bcast c size (data c) count root (del c)).sent_parent
        = (bcast_collect c size (data c) count root (del c)).take count := by
      simp only [MIMPI_Bcast, hr, if_false, Int.toNat_ofNat]
    have hcol : bcast_collect c size (data c) count root (del c)
        = bcast_up size count root data size c := by
      rw [← bcast_up_fuel size count root data size c (by omega)]
      show _ = bcast_collect c size (data c) count root
        (fun c2 => (bcast_up size count root data size c2).take count)
      exact bcast_collect_congr c size (data c) count root _ _
        (fun c2 hc2 => ih c c2 hc'.1 hc2 (by have := mem_tree_children size c c2 hc2; omega))
    rw [(hok v hv).1 c hc, hs, hcol]

/-- In any run, the receive from the parent delivers the first `count` bytes of the
root's input. -/
theorem bcast_delivery_parent (size count root : Nat) (data : Nat → List Nat)
    (h2 : size ≤ 16) (hroot : root < size) (hlen : ∀ r, r < size → count ≤ (data r).length)
    (del : Nat → Nat → List Nat) (hok : bcast_delivery_ok size count root data del) :
    ∀ v, v < size → v ≠ 0 → del v (tree_parent v) = (data root).take count := by
  intro v
  induction v using Nat.strong_induction_on with
  | _ v ih =>
    intro hv h0
    have hp := tree_parent_lt v h0
    rw [(hok v hv).2 h0]
    exact (bcast_call_values size count root data h2 hroot hlen (tree_parent v)
      (by omega) (del (tree_parent v))
      (fun c hc => bcast_delivery_child size count root data hroot del hok size
        (tree_parent v) c (by omega) hc (by omega))
      (fun hp0 => ih (tree_parent v) hp (by omega) hp0)).2.2.1

/-- C7. Bcast correctness: for `1 <= N <= 16`, every logical root in `[0, N)`, every
count and every initial contents of the ranks' buffers (at least `count` bytes each). A
run in which all ranks call `MIMPI_Bcast` over the heap tree and every point-to-point
call succeeds is given by what the receives deliver, each receive delivering what the
call of the peer sent on that link (`bcast_delivery_ok`). Such a run exists, and in
every such run every rank returns SUCCESS with `data[0..count)` equal to the root's
input `data[0..count)`; the test `is_bcast_path` under which a rank adopts a child's
payload holds exactly when the child is the root or an ancestor of the root, and it
holds of at most one child of any rank. -/
theorem MIMPI_Bcast_correct (size count root : Nat) (data : Nat → List Nat)
    (h1 : 1 ≤ size) (h2 : size ≤ 16) (hroot : root < size)
    (hlen : ∀ r, r < size → count ≤ (data r).length) :
    bcast_delivery_ok size count root data (bcast_deliveries size count root data) ∧
    (∀ del, bcast_delivery_ok size count root data del → ∀ v, v < size →
      (MIMPI_Bcast v size (data v) count root (del v)).ret = MIMPI_SUCCESS ∧
      (MIMPI_Bcast v size (data v) count root (del v)).data.take count
        = (data root).take count) ∧
    (∀ c, is_bcast_path c root = true ↔ ∃ k, tree_parent^[k] root = c) ∧
    (∀ v, v < size →
      ¬ (is_bcast_path (tree_left v) root = true ∧ is_bcast_path (tree_right v) root = true)) := by
  have _h1 := h1
  refine ⟨bcast_deliveries_ok size count root data h2 hroot hlen, fun del hok v hv => ?_,
    fun c => is_bcast_path_iff c root,
    fun v hv => (bcast_path_child_facts root (by omega) v (by omega)).1⟩
  have hcall := bcast_call_values size count root data h2 hroot hlen v hv (del v)
    (fun c hc => bcast_delivery_child size count root data hroot del hok size v c hv hc
      (by omega))
    (bcast_delivery_parent size count root data h2 hroot hlen del hok v hv)
  exact ⟨hcall.1, hcall.2.2.2⟩

/-- The premises of `MIMPI_Bcast_correct` hold in the scenario of the spec: `N = 4`,
root 2 with data `[1, 2, 3, 4]`, the other ranks with arbitrary contents; with the
deliveries of the run rank 3 ends with `[1, 2, 3, 4]`. -/
theorem MIMPI_Bcast_correct_witness :
    (MIMPI_Bcast 3 4 [9, 9, 9, 9] 4 ((2 : Nat) : Int)
      (bcast_deliveries 4 4 2 (fun r => if r = 2 then [1, 2, 3, 4] else [9, 9, 9, 9])
        3)).data.take 4
      = [1, 2, 3, 4] :=
  ((MIMPI_Bcast_correct 4 4 2 (fun r => if r = 2 then [1, 2, 3, 4] else [9, 9, 9, 9])
    (by decide) (by decide) (by decide)
    (fun r _ => by dsimp only; split_ifs <;> decide)).2.1
    (bcast_deliveries 4 4 2 (fun r => if r = 2 then [1, 2, 3, 4] else [9, 9, 9, 9]))
    (MIMPI_Bcast_correct 4 4 2 (fun r => if r = 2 then [1, 2, 3, 4] else [9, 9, 9, 9])
      (by decide) (by decide) (by decide)
      (fun r _ => by dsimp only; split_ifs <;> decide)).1 3 (by decide)).2

/-! ## Barrier -/

/-- An execution with three ranks in which every rank returns. -/
theorem barrier_three_ranks_return :
    (barrier_run 3 barrier_init [1, 1, 1, 2, 2, 2, 0, 0, 0, 0, 0, 0, 0, 1, 1, 2, 2]).pc 0
      = .returned ∧
    (barrier_run 3 barrier_init [1, 1, 1, 2, 2, 2, 0, 0, 0, 0, 0, 0, 0, 1, 1, 2, 2]).pc 1
      = .returned ∧
    (barrier_run 3 barrier_init [1, 1, 1, 2, 2, 2, 0, 0, 0, 0, 0, 0, 0, 1, 1, 2, 2]).pc 2
      = .returned := by
  refine ⟨by decide, by decide, by decide⟩

theorem chan_set_apply (chan : Nat → Nat → buffer_t) (src dst : Nat) (b : buffer_t) (x y : Nat) :
    chan_set chan src dst b x y = if x = src ∧ y = dst then b else chan x y := rfl

theorem extract_some_nonempty (buf : buffer_t) (tag count : Int) (m : List Nat)
    (h : (extract_matching_data buf tag count).1 = some m) : buf ≠ [] := by
  intro hb
  subst hb
  simp [extract_matching_data, extract_loop] at h

/-- Taking a message out of one channel leaves no channel fuller than before. -/
theorem chan_set_extract_nonempty (chan : Nat → Nat → buffer_t) (src dst : Nat) (tag count : Int)
    (m : List Nat) (h : (extract_matching_data (chan src dst) tag count).1 = some m)
    (x y : Nat)
    (hx : chan_set chan src dst (extract_matching_data (chan src dst) tag count).2 x y ≠ []) :
    chan x y ≠ [] := by
  rw [chan_set_apply] at hx
  split_ifs at hx with hxy
  · rw [hxy.1, hxy.2]
    exact extract_some_nonempty _ _ _ _ h
  · exact hx

theorem BarrierPc.released_of_sent_wake (pc : BarrierPc) (i : Nat)
    (h : pc.sent_wake i = true) : pc.released = true := by
  cases pc <;> simp_all [BarrierPc.sent_wake, BarrierPc.released]

theorem BarrierPc.past_children_of_sent_wait (pc : BarrierPc)
    (h : pc.sent_wait = true) : pc.past_children = true := by
  cases pc <;> simp_all [BarrierPc.sent_wait, BarrierPc.past_children]

theorem BarrierPc.past_children_of_released (pc : BarrierPc)
    (h : pc.released = true) : pc.past_children = true := by
  cases pc <;> simp_all [BarrierPc.released, BarrierPc.past_children]

theorem BarrierPc.received_of_past_children (pc : BarrierPc) (i : Nat)
    (h : pc.past_children = true) : pc.received_wait i = true := by
  cases pc <;> simp_all [BarrierPc.received_wait, BarrierPc.past_children]

theorem barrier_inv_init (size : Nat) : barrier_inv size barrier_init := by
  refine ⟨?_, ?_, ?_, ?_⟩
  · intro v i _ h; exact absurd rfl h
  · intro v i _ h; simp [barrier_init, BarrierPc.received_wait, BarrierPc.past_children] at h
  · intro v i _ h; exact absurd rfl h
  · intro c _ h; simp [barrier_init, BarrierPc.released] at h

/-- How one step of a rank keeps the invariant: the position of the rank moves forward,
and whatever becomes true of the new position or of the channels is accounted for. -/
theorem barrier_inv_update (size : Nat) (s : BarrierState) (hinv : barrier_inv size s)
    (v : Nat) (newpc : BarrierPc) (chan' : Nat → Nat → buffer_t)
    (m1 : (s.pc v).sent_wait = true → newpc.sent_wait = true)
    (m2 : (s.pc v).released = true → newpc.released = true)
    (m3 : ∀ i, (s.pc v).sent_wake i = true → newpc.sent_wake i = true)
    (hA : ∀ w i, i < 2 → chan' (tree_left w + i) w ≠ [] →
      s.chan (tree_left w + i) w ≠ [] ∨ (tree_left w + i = v ∧ newpc.sent_wait = true))
    (hB : ∀ i, i < tree_num_children size v → newpc.received_wait i = true →
      (s.pc v).received_wait i = true ∨ (s.pc (tree_left v + i)).sent_wait = true)
    (hC : ∀ w i, i < 2 → chan' w (tree_left w + i) ≠ [] →
      s.chan w (tree_left w + i) ≠ [] ∨ (w = v ∧ newpc.sent_wake i = true))
    (hD : v ≠ 0 → newpc.released = true →
      (s.pc v).released = true ∨ (s.pc (tree_parent v)).sent_wake ((v - 1) % 2) = true) :
    barrier_inv size { pc := Function.update s.pc v newpc, chan := chan' } := by
  obtain ⟨iA, iB, iC, iD⟩ := hinv
  have k1 : ∀ x, (s.pc x).sent_wait = true → (Function.update s.pc v newpc x).sent_wait = true := by
    intro x hx
    by_cases hxv : x = v
    · subst hxv; rw [Function.update_same]; exact m1 hx
    · rw [Function.update_noteq hxv]; exact hx
  have k2 : ∀ x, (s.pc x).released = true → (Function.update s.pc v newpc x).released = true := by
    intro x hx
    by_cases hxv : x = v
    · subst hxv; rw [Function.update_same]; exact m2 hx
    · rw [Function.update_noteq hxv]; exact hx
  have k3 : ∀ x i, (s.pc x).sent_wake i = true →
      (Function.update s.pc v newpc x).sent_wake i = true := by
    intro x i hx
    by_cases hxv : x = v
    · subst hxv; rw [Function.update_same]; exact m3 i hx
    · rw [Function.update_noteq hxv]; exact hx
  refine ⟨?_, ?_, ?_, ?_⟩
  · intro w i hi hne
    rcases hA w i hi hne with h | ⟨h1, h2⟩
    · exact k1 _ (iA w i hi h)
    · show (Function.update s.pc v newpc (tree_left w + i)).sent_wait = true
      rw [h1, Function.update_same]; exact h2
  · intro w i hi hr
    show (Function.update s.pc v newpc (tree_left w + i)).sent_wait = true
    by_cases hwv : w = v
    · subst hwv
      have hr' : newpc.received_wait i = true := by
        have : (Function.update s.pc w newpc w).received_wait i = true := hr
        rwa [Function.update_same] at this
      rcases hB i hi hr' with h | h
      · exact k1 _ (iB w i hi h)
      · exact k1 _ h
    · have hr' : (s.pc w).received_wait i = true := by
        have : (Function.update s.pc v newpc w).received_wait i = true := hr
        rwa [Function.update_noteq hwv] at this
      exact k1 _ (iB w i hi hr')
  · intro w i hi hne
    show (Function.update s.pc v newpc w).sent_wake i = true
    rcases hC w i hi hne with h | ⟨h1, h2⟩
    · exact k3 _ _ (iC w i hi h)
    · rw [h1, Function.update_same]; exact h2
  · intro c hc hr
    show (Function.update s.pc v newpc (tree_parent c)).sent_wake ((c - 1) % 2) = true
    by_cases hcv : c = v
    · subst hcv
      have hr' : newpc.released = true := by
        have : (Function.update s.pc c newpc c).released = true := hr
        rwa [Function.update_same] at this
      rcases hD hc hr' with h | h
      · exact k3 _ _ (iD c hc h)
      · exact k3 _ _ h
    · have hr' : (s.pc c).released = true := by
        have : (Function.update s.pc v newpc c).released = true := hr
        rwa [Function.update_noteq hcv] at this
      exact k3 _ _ (iD c hc hr')

theorem tree_num_children_le (size v : Nat) : tree_num_children size v ≤ 2 := by
  unfold tree_num_children
  split_ifs <;> omega

/-- Every step of a rank keeps the invariant of the barrier. -/
theorem barrier_step_inv (size : Nat) (s s' : BarrierState) (v : Nat)
    (hinv : barrier_inv size s) (h : barrier_step size s v = some s') :
    barrier_inv size s' := by
  have hnc := tree_num_children_le size v
  unfold barrier_step at h
  by_cases hv : v < size
  swap
  · rw [if_neg hv] at h; cases h
  rw [if_pos hv] at h
  cases hpc : s.pc v with
  | not_entered =>
    simp only [hpc, Option.some.injEq] at h
    subst h
    apply barrier_inv_update size s hinv v _ s.chan
    · simp [hpc, BarrierPc.sent_wait]
    · simp [hpc, BarrierPc.released]
    · simp [hpc, BarrierPc.sent_wake]
    · exact fun w i _ hne => Or.inl hne
    · simp [BarrierPc.received_wait]
    · exact fun w i _ hne => Or.inl hne
    · simp [BarrierPc.released]
  | recv_child i0 =>
    simp only [hpc] at h
    by_cases hi0 : i0 < tree_num_children size v
    · rw [if_pos hi0] at h
      cases hx : (extract_matching_data (s.chan (tree_left v + i0) v) BARRIER_TAG 1).1 with
      | none => simp [hx] at h
      | some m =>
        simp only [hx, Option.some.injEq] at h
        subst h
        have hne := extract_some_nonempty _ _ _ _ hx
        apply barrier_inv_update size s hinv v _ _
        · simp [hpc, BarrierPc.sent_wait]
        · simp [hpc, BarrierPc.released]
        · simp [hpc, BarrierPc.sent_wake]
        · exact fun w i _ hw => Or.inl (chan_set_extract_nonempty _ _ _ _ _ m hx _ _ hw)
        · intro i hi hr
          split_ifs at hr
          · simp only [BarrierPc.received_wait, decide_eq_true_eq] at hr
            by_cases hlt : i < i0
            · left; simp [hpc, BarrierPc.received_wait, hlt]
            · right
              have : i = i0 := by omega
              subst this
              exact hinv.1 v i (by omega) hne
          · simp [BarrierPc.received_wait, BarrierPc.past_children] at hr
        · exact fun w i _ hw => Or.inl (chan_set_extract_nonempty _ _ _ _ _ m hx _ _ hw)
        · intro _ hr
          split_ifs at hr <;> simp [BarrierPc.released] at hr
    · rw [if_neg hi0] at h
      simp only [Option.some.injEq] at h
      subst h
      apply barrier_inv_update size s hinv v _ s.chan
      · simp [hpc, BarrierPc.sent_wait]
      · simp [hpc, BarrierPc.released]
      · simp [hpc, BarrierPc.sent_wake]
      · exact fun w i _ hne => Or.inl hne
      · intro i hi _
        left
        simp only [hpc, BarrierPc.received_wait, decide_eq_true_eq]
        omega
      · exact fun w i _ hne => Or.inl hne
      · intro hv0 hr
        simp [hv0, BarrierPc.released] at hr
  | send_parent =>
    simp only [hpc, Option.some.injEq] at h
    subst h
    apply barrier_inv_update size s hinv v _ _
    · simp [hpc, BarrierPc.sent_wait]
    · simp [hpc, BarrierPc.released]
    · simp [hpc, BarrierPc.sent_wake]
    · intro w i _ hw
      rw [chan_set_apply] at hw
      split_ifs at hw with hxy
      · exact Or.inr ⟨hxy.1, rfl⟩
      · exact Or.inl hw
    · intro i _ _
      left
      simp [hpc, BarrierPc.received_wait, BarrierPc.past_children]
    · intro w i _ hw
      rw [chan_set_apply] at hw
      split_ifs at hw with hxy
      · exfalso
        have h1 := hxy.1
        have h2 := hxy.2
        simp only [tree_left, tree_parent] at h2
        omega
      · exact Or.inl hw
    · simp [BarrierPc.released]
  | recv_parent =>
    simp only [hpc] at h
    cases hx : (extract_matching_data (s.chan (tree_parent v) v) BARRIER_TAG 1).1 with
    | none => simp [hx] at h
    | some m =>
      simp only [hx, Option.some.injEq] at h
      subst h
      have hne := extract_some_nonempty _ _ _ _ hx
      apply barrier_inv_update size s hinv v _ _
      · intro _; split_ifs <;> rfl
      · simp [hpc, BarrierPc.released]
      · simp [hpc, BarrierPc.sent_wake]
      · exact fun w i _ hw => Or.inl (chan_set_extract_nonempty _ _ _ _ _ m hx _ _ hw)
      · intro i _ _
        left
        simp [hpc, BarrierPc.received_wait, BarrierPc.past_children]
      · exact fun w i _ hw => Or.inl (chan_set_extract_nonempty _ _ _ _ _ m hx _ _ hw)
      · intro hv0 _
        right
        have hvi : tree_left (tree_parent v) + (v - 1) % 2 = v := by
          simp only [tree_left, tree_parent]; omega
        exact hinv.2.2.1 (tree_parent v) ((v - 1) % 2) (by omega) (by rw [hvi]; exact hne)
  | send_child i0 =>
    simp only [hpc] at h
    by_cases hi0 : i0 < tree_num_children size v
    · rw [if_pos hi0] at h
      simp only [Option.some.injEq] at h
      subst h
      apply barrier_inv_update size s hinv v _ _
      · simp [BarrierPc.sent_wait]
      · simp [BarrierPc.released]
      · intro i hi
        simp only [hpc, BarrierPc.sent_wake, decide_eq_true_eq] at hi ⊢
        omega
      · intro w i _ hw
        rw [chan_set_apply] at hw
        split_ifs at hw with hxy
        · exfalso
          have h1 := hxy.1
          have h2 := hxy.2
          simp only [tree_left] at h1 h2
          omega
        · exact Or.inl hw
      · intro i _ _
        left
        simp [hpc, BarrierPc.received_wait, BarrierPc.past_children]
      · intro w i _ hw
        rw [chan_set_apply] at hw
        split_ifs at hw with hxy
        · right
          have h1 := hxy.1
          have h2 := hxy.2
          simp only [tree_left] at h2
          refine ⟨h1, ?_⟩
          simp only [BarrierPc.sent_wake, decide_eq_true_eq]
          subst h1
          omega
        · exact Or.inl hw
      · intro _ _
        left
        simp [hpc, BarrierPc.released]
    · rw [if_neg hi0] at h
      simp only [Option.some.injEq] at h
      subst h
      apply barrier_inv_update size s hinv v _ s.chan
      · simp [BarrierPc.sent_wait]
      · simp [BarrierPc.released]
      · simp [BarrierPc.sent_wake]
      · exact fun w i _ hne => Or.inl hne
      · intro i _ _
        left
        simp [hpc, BarrierPc.received_wait, BarrierPc.past_children]
      · exact fun w i _ hne => Or.inl hne
      · intro _ _
        left
        simp [hpc, BarrierPc.released]
  | returned => simp [hpc] at h
  | aborted_up => simp [hpc] at h
  | aborted_down => simp [hpc] at h

theorem barrier_run_inv (size : Nat) (sched : List Nat) (s : BarrierState)
    (hinv : barrier_inv size s) : barrier_inv size (barrier_run size s sched) := by
  induction sched generalizing s with
  | nil => exact hinv
  | cons v sched ih =>
    simp only [barrier_run, List.foldl_cons]
    cases hs : barrier_step size s v with
    | none => exact ih s hinv
    | some s' => exact ih s' (barrier_step_inv size s s' v hinv hs)

/-- Release travels down from rank 0: a released rank has a released root. -/
theorem barrier_released_root (size : Nat) (s : BarrierState) (hinv : barrier_inv size s)
    (v : Nat) (h : (s.pc v).released = true) : (s.pc 0).released = true := by
  induction v using Nat.strong_induction_on with
  | _ v ih =>
    by_cases h0 : v = 0
    · subst h0; exact h
    · exact ih (tree_parent v) (tree_parent_lt v h0)
        (BarrierPc.released_of_sent_wake _ _ (hinv.2.2.2 v h0 h))

/-- Once rank 0 has left its first loop, every rank of the group has left its own. -/
theorem barrier_all_past_children (size : Nat) (s : BarrierState) (hinv : barrier_inv size s)
    (h0 : (s.pc 0).past_children = true) (u : Nat) (hu : u < size) :
    (s.pc u).past_children = true := by
  induction u using Nat.strong_induction_on with
  | _ u ih =>
    by_cases hu0 : u = 0
    · subst hu0; exact h0
    · have hp := tree_parent_lt u hu0
      have hpp := ih (tree_parent u) hp (by omega)
      have hui : tree_left (tree_parent u) + (u - 1) % 2 = u := by
        simp only [tree_left, tree_parent]; omega
      have hnc : (u - 1) % 2 < tree_num_children size (tree_parent u) := by
        simp only [tree_num_children, tree_left, tree_right, tree_parent] at hui ⊢
        split_ifs <;> omega
      have hs := hinv.2.1 (tree_parent u) ((u - 1) % 2) hnc
        (BarrierPc.received_of_past_children _ _ hpp)
      rw [hui] at hs
      exact BarrierPc.past_children_of_sent_wait _ hs

/-- C8. Barrier rendezvous: in every execution of `N` ranks that call `MIMPI_Barrier`
(any interleaving of their steps, no point-to-point call failing) and for every rank
`v` of the group: if `v` has sent WAIT to its parent, or is released (rank 0 past its
first loop, another rank past the receive of WAKE), then it has received WAIT from each
of its children and each of them has sent its WAIT; if `v` is not rank 0 and is
released, its parent has sent WAKE to it and is itself released; and if `v` has
returned, every rank of the group has entered the barrier. -/
theorem MIMPI_Barrier_rendezvous (size : Nat) (sched : List Nat) (v : Nat) :
    (((barrier_run size barrier_init sched).pc v).sent_wait = true ∨
        ((barrier_run size barrier_init sched).pc v).released = true →
      ∀ i, i < tree_num_children size v →
        ((barrier_run size barrier_init sched).pc v).received_wait i = true ∧
        ((barrier_run size barrier_init sched).pc (tree_left v + i)).sent_wait = true) ∧
    (v ≠ 0 → ((barrier_run size barrier_init sched).pc v).released = true →
      ((barrier_run size barrier_init sched).pc (tree_parent v)).sent_wake ((v - 1) % 2) = true ∧
      ((barrier_run size barrier_init sched).pc (tree_parent v)).released = true) ∧
    ((barrier_run size barrier_init sched).pc v = .returned →
      ∀ u, u < size → (barrier_run size barrier_init sched).pc u ≠ .not_entered) := by
  have hinv := barrier_run_inv size sched barrier_init (barrier_inv_init size)
  refine ⟨?_, ?_, ?_⟩
  · intro h i hi
    have hpast : ((barrier_run size barrier_init sched).pc v).past_children = true := by
      rcases h with h | h
      · exact BarrierPc.past_children_of_sent_wait _ h
      · exact BarrierPc.past_children_of_released _ h
    have hr := BarrierPc.received_of_past_children _ i hpast
    exact ⟨hr, hinv.2.1 v i hi hr⟩
  · intro h0 h
    have hw := hinv.2.2.2 v h0 h
    exact ⟨hw, BarrierPc.released_of_sent_wake _ _ hw⟩
  · intro hret u hu
    have hrel : ((barrier_run size barrier_init sched).pc v).released = true := by
      rw [hret]; rfl
    have h0 := barrier_released_root size _ hinv v hrel
    have hpu := barrier_all_past_children size _ hinv
      (BarrierPc.past_children_of_released _ h0) u hu
    intro hne
    rw [hne] at hpu
    cases hpu

/-- The last part of `MIMPI_Barrier_rendezvous` applies to an execution of three ranks
in which rank 0 has returned: rank 2 has entered. -/
theorem MIMPI_Barrier_rendezvous_witness :
    (barrier_run 3 barrier_init [1, 1, 1, 2, 2, 2, 0, 0, 0, 0, 0, 0, 0, 1, 1, 2, 2]).pc 2
      ≠ .not_entered :=
  (MIMPI_Barrier_rendezvous 3 [1, 1, 1, 2, 2, 2, 0, 0, 0, 0, 0, 0, 0, 1, 1, 2, 2] 0).2.2
    (by decide) 2 (by decide)

/-! ## Requests with tag ANY -/

theorem node_matches_any (count : Int) (m : node_t) :
    node_matches MIMPI_ANY_TAG count m = decide (m.count = count) := by
  by_cases h : m.count = count <;> simp [node_matches, MIMPI_ANY_TAG, h]

/-- C11 (as stated, refuted). A request with tag ANY and count 1 takes the pending
barrier message, whose tag `BARRIER_TAG` is negative: the test of
`extract_matching_data` accepts it although the reference test of the claim does not. -/
theorem extract_any_takes_reserved_tag :
    (∀ m ∈ scenario_barrier_pending, m.tag = BARRIER_TAG ∧ m.tag < 0 ∧
      any_accepts_user_tag 1 m = false ∧ node_matches MIMPI_ANY_TAG 1 m = true) ∧
    extract_matching_data scenario_barrier_pending MIMPI_ANY_TAG 1
      = (some [BARRIER_WAIT], []) := by
  decide

/-- C11 (amended). A request with tag ANY accepts a pending message exactly when the
counts are equal, whatever the tag of the message, the reserved negative tags
included: `extract_matching_data` with tag ANY returns the payload of the first
pending message of the requested count and removes it, and returns nothing only when
no pending message has that count. -/
theorem extract_any_first_of_count (buf : buffer_t) (count : Int) :
    (∀ m : node_t, node_matches MIMPI_ANY_TAG count m = decide (m.count = count)) ∧
    (((∀ x ∈ buf, x.count ≠ count) ∧
        extract_matching_data buf MIMPI_ANY_TAG count = (none, buf)) ∨
      ∃ pre m post, buf = pre ++ m :: post ∧ (∀ x ∈ pre, x.count ≠ count) ∧
        m.count = count ∧
        extract_matching_data buf MIMPI_ANY_TAG count = (some m.data, pre ++ post)) := by
  refine ⟨node_matches_any count, ?_⟩
  rcases extract_cases buf MIMPI_ANY_TAG count with ⟨h, e⟩ | ⟨pre, m, post, he, hp, hm, e⟩
  · left
    refine ⟨fun x hx hc => ?_, e⟩
    have := h x hx
    rw [node_matches_any] at this
    simp [hc] at this
  · right
    refine ⟨pre, m, post, he, fun x hx hc => ?_, ?_, e⟩
    · have := hp x hx
      rw [node_matches_any] at this
      simp [hc] at this
    · rw [node_matches_any] at hm
      simpa using hm

/-! ## Launcher -/

theorem wait_loop_eq (ret : Nat) (collected : List Nat) :
    wait_loop ret collected = (nonzero_exit_statuses collected).getLast?.getD ret := by
  induction collected generalizing ret with
  | nil => rfl
  | cons x xs ih =>
    by_cases hx : (WIFEXITED x && WEXITSTATUS x != 0) = true
    · have e : nonzero_exit_statuses (x :: xs) = WEXITSTATUS x :: nonzero_exit_statuses xs := by
        simp [nonzero_exit_statuses, List.filter_cons, hx]
      rw [wait_loop, if_pos hx, ih, e]
      cases h : nonzero_exit_statuses xs with
      | nil => simp
      | cons y ys =>
        rw [List.getLast?_cons_cons, List.getLast?_eq_getLast _ (List.cons_ne_nil y ys)]
        rfl
    · have e : nonzero_exit_statuses (x :: xs) = nonzero_exit_statuses xs := by
        simp [nonzero_exit_statuses, List.filter_cons, hx]
      rw [wait_loop, if_neg hx, ih, e]

theorem foldl_max_ge (l : List Nat) (a : Nat) : a ≤ l.foldl max a := by
  induction l generalizing a with
  | nil => exact le_refl a
  | cons x xs ih => exact le_trans (le_max_left a x) (ih (max a x))

theorem foldl_max_mem_le (l : List Nat) (a x : Nat) (hx : x ∈ l) : x ≤ l.foldl max a := by
  induction l generalizing a with
  | nil => cases hx
  | cons y ys ih =>
    rcases List.mem_cons.mp hx with rfl | h
    · exact le_trans (le_max_right a x) (foldl_max_ge ys (max a x))
    · exact ih (max a y) h

theorem nonzero_exit_statuses_pos (collected : List Nat) :
    ∀ x ∈ nonzero_exit_statuses collected, 0 < x := by
  intro x hx
  simp only [nonzero_exit_statuses, List.mem_map, List.mem_filter] at hx
  obtain ⟨c, ⟨_, hc⟩, rfl⟩ := hx
  simp at hc
  omega

/-- C14 (as stated, refuted). With two copies, the first collected having exited with
status 2 and the second with status 1, `main` returns 1 while the greatest non-zero
exit status is 2; collected in the other order the same two copies give 2. -/
theorem main_returns_last_not_greatest :
    WIFEXITED 512 = true ∧ WEXITSTATUS 512 = 2 ∧ WIFEXITED 256 = true ∧ WEXITSTATUS 256 = 1 ∧
    main 2 [512, 256] = some 1 ∧ greatest_exit_status [512, 256] = 2 ∧
    main 2 [256, 512] = some 2 := by
  decide

/-- C14 (amended). For every list of the `n` copies' status words in the order `wait`
delivers them (`1 ≤ n ≤ 16`), `main` returns the non-zero exit status collected last
among the copies that exited normally, and 0 when no copy exited with a non-zero
status; the value is never above the greatest such status, and is 0 only when there
is none. -/
theorem main_returns_last_exit_status (n : Int) (collected : List Nat)
    (hn : 1 ≤ n ∧ n ≤ 16) (hlen : collected.length = n.toNat) :
    main n collected = some (last_exit_status collected) ∧
    (nonzero_exit_statuses collected = [] → last_exit_status collected = 0) ∧
    (nonzero_exit_statuses collected ≠ [] →
      last_exit_status collected ∈ nonzero_exit_statuses collected ∧
      0 < last_exit_status collected) ∧
    last_exit_status collected ≤ greatest_exit_status collected := by
  have hmain : main n collected = some (last_exit_status collected) := by
    unfold main
    rw [if_pos ⟨hn.1, hn.2, hlen⟩, wait_loop_eq]
    rfl
  have hmem : nonzero_exit_statuses collected ≠ [] →
      last_exit_status collected ∈ nonzero_exit_statuses collected := by
    intro hne
    unfold last_exit_status
    rw [List.getLast?_eq_getLast _ hne]
    exact List.getLast_mem hne
  refine ⟨hmain, ?_, fun hne => ⟨hmem hne, nonzero_exit_statuses_pos collected _ (hmem hne)⟩, ?_⟩
  · intro h
    simp [last_exit_status, h]
  · by_cases hne : nonzero_exit_statuses collected = []
    · simp [last_exit_status, hne]
    · exact foldl_max_mem_le _ 0 _ (hmem hne)

theorem main_returns_last_exit_status_witness :
    main 3 [512, 9, 256] = some (last_exit_status [512, 9, 256]) ∧
    (nonzero_exit_statuses [512, 9, 256] = [] → last_exit_status [512, 9, 256] = 0) ∧
    (nonzero_exit_statuses [512, 9, 256] ≠ [] →
      last_exit_status [512, 9, 256] ∈ nonzero_exit_statuses [512, 9, 256] ∧
      0 < last_exit_status [512, 9, 256]) ∧
    last_exit_status [512, 9, 256] ≤ greatest_exit_status [512, 9, 256] :=
  main_returns_last_exit_status 3 [512, 9, 256] (by decide) (by decide)

/-! ## A receiver parked on the condition variable -/

/-- C12 (failing input). Rank 1 of 2 with detection enabled is parked in
`MIMPI_Recv(dest, 1, 0, 5)` with nothing buffered; the worker then observes hang-up on
stream 0. It sets `exited[0]`, but the detection branch of `handle_signal_recv` only
recomputes the verdict (false here) and `pthread_cond_signal` is not called, so nothing
ends the receiver's `pthread_cond_wait`. Without detection the same step signals. -/
theorem hangup_under_detection_no_signal :
    recv_waits (recv_enter (MIMPI_Init true 1 2) 1 0 5 [] []) 0 = true ∧
    (scenario_parked true).exited 0 = false ∧
    (worker_step (scenario_parked true) (.hangup 0)).exited 0 = true ∧
    (worker_step (scenario_parked true) (.hangup 0)).deadlock = false ∧
    signalled (scenario_parked true) (worker_step (scenario_parked true) (.hangup 0)) = false ∧
    signalled (scenario_parked false) (worker_step (scenario_parked false) (.hangup 0)) = true := by
  decide

/-- C13 (failing input). Rank 1 of 2 with detection enabled is parked in
`MIMPI_Recv(dest, 1, 0, 5)`; the worker then reads from stream 0 the frame of a
one-byte message with tag 5 and runs `handle_signal_recv(0)`. The detection branch is
taken: the slot stays empty, the message stays in `buffers[0]`, no signal is sent, and
the call is still parked however often its wait is ended. Without detection the same
schedule delivers the payload with `MIMPI_SUCCESS`. -/
theorem message_under_detection_not_delivered :
    (worker_run (scenario_parked true)
      [.recv_msg 0 (frame 5 1 [0xAA]), .signal_recv 0]).match_data = none ∧
    (worker_run (scenario_parked true)
      [.recv_msg 0 (frame 5 1 [0xAA]), .signal_recv 0]).buffers 0 = [node_create 5 1 [0xAA]] ∧
    signalled (scenario_parked true) (worker_run (scenario_parked true)
      [.recv_msg 0 (frame 5 1 [0xAA]), .signal_recv 0]) = false ∧
    (MIMPI_Recv (MIMPI_Init true 1 2) [0] 1 0 5 [] []
      [[.recv_msg 0 (frame 5 1 [0xAA]), .signal_recv 0], [], []]).is_parked = true ∧
    (MIMPI_Recv (MIMPI_Init false 1 2) [0] 1 0 5 [] []
      [[.recv_msg 0 (frame 5 1 [0xAA]), .signal_recv 0]]).result
        = some (MIMPI_SUCCESS, [0xAA]) := by
  decide

/-- The detection branch of `handle_signal_recv` neither fills the slot nor touches the
buffers, and it signals only on a positive verdict. -/
theorem handle_signal_recv_detection (s : State) (i : Int) (hd : s.detection = true) :
    (handle_signal_recv s i).match_data = s.match_data ∧
    (handle_signal_recv s i).buffers = s.buffers ∧
    (handle_signal_recv s i).exited = s.exited ∧
    ((handle_signal_recv s i).deadlock = false → (handle_signal_recv s i).signals = s.signals) := by
  unfold handle_signal_recv
  by_cases h : s.match_source = i
  · simp only [hd, h, decide_True, Bool.and_self, if_true, cond_signal]
    split_ifs with h2
    · exact ⟨rfl, rfl, rfl, fun h3 => by simp [h2] at h3⟩
    · exact ⟨rfl, rfl, rfl, fun _ => rfl⟩
  · simp [hd, h]

/-- Without detection, hang-up on the stream of a published request with nothing
matching buffered sets `exited`, leaves the slot empty and signals the receiver. -/
theorem hangup_signals_without_detection (s : State) (src : Int)
    (hd : s.detection = false) (h0 : 0 ≤ src) (h1 : src < s.my_world_size)
    (hx : s.exited src = false) (hm : s.match_source = src) (hdata : s.match_data = none)
    (hno : ∀ x ∈ s.buffers src, node_matches s.match_tag s.match_count x = false) :
    (worker_step s (.hangup src)).exited src = true ∧
    (worker_step s (.hangup src)).signals = s.signals + 1 ∧
    (worker_step s (.hangup src)).match_data = none ∧
    (worker_step s (.hangup src)).deadlock = s.deadlock := by
  have e := extract_none s.match_tag s.match_count (s.buffers src) hno
  subst hm
  simp only [worker_step, WorkerAction.index, h0, h1, and_self, if_true, worker_section, hx,
    Bool.false_eq_true, if_false, handle_signal_recv, hd, Bool.false_and, decide_True,
    hdata, Option.isNone_none, Bool.and_self, e, cond_signal, Function.update_same,
    Option.isSome_none, Bool.false_or]

/-- Without detection, a call of `MIMPI_Recv` that finds nothing matching and whose
first wait sees the hang-up of the source returns `MIMPI_ERROR_REMOTE_FINISHED`. -/
theorem recv_finished_without_detection (s : State) (data : List Nat) (count source tag : Int)
    (w1 w2 : List WorkerAction) (rest : List (List WorkerAction))
    (h1 : source ≠ s.my_world_rank) (h2 : 0 ≤ source) (h3 : source < s.my_world_size)
    (hd : s.detection = false) (hdl : s.deadlock = false) (hx : s.exited source = false)
    (hno : ∀ x ∈ s.buffers source, node_matches tag count x = false) :
    (MIMPI_Recv s data count source tag w1 w2 ([.hangup source] :: rest)).result
      = some (MIMPI_ERROR_REMOTE_FINISHED, data) := by
  have e := extract_none tag count (s.buffers source) hno
  have h2' : ¬ (source < 0 ∨ source ≥ s.my_world_size) := by omega
  have he : recv_enter s count source tag w1 w2 =
      { s with match_data := none, buffers := Function.update s.buffers source (s.buffers source) } := by
    simp [recv_enter, recv_extract, recv_probes, hd, e]
  have hup : Function.update s.buffers source (s.buffers source) = s.buffers :=
    Function.update_eq_self source s.buffers
  rw [hup] at he
  set s0 : State := { s with match_data := none } with hs0
  have hw : recv_waits s0 source = true := by simp [recv_waits, hs0, hx, hdl]
  set s1 : State := { s0 with match_source := source, match_tag := tag, match_count := count }
    with hs1
  have hs := hangup_signals_without_detection s1 source (by simp [hs1, hs0, hd]) h2
    (by simp [hs1, hs0, h3]) (by simp [hs1, hs0, hx]) (by simp [hs1]) (by simp [hs1, hs0])
    (by simpa [hs1, hs0] using hno)
  set s2 : State := worker_step s1 (.hangup source) with hs2
  have hw2 : recv_waits { s2 with match_source := -1, match_tag := -1, match_count := -1 }
      source = false := by
    simp [recv_waits, hs.1]
  unfold MIMPI_Recv
  rw [if_neg h1, if_neg h2', he]
  have hl : recv_loop count source tag s0 ([.hangup source] :: rest)
      = some { s2 with match_source := -1, match_tag := -1, match_count := -1 } := by
    rw [recv_loop, if_pos hw]
    exact recv_loop_skip _ _ _ _ _ hw2
  rw [hl]
  have hdl2 : s2.deadlock = false := by rw [hs.2.2.2]; simp [hs1, hs0, hdl]
  simp [recv_finish, hs.2.2.1, hdl2, hs.1, Outcome.result]

/-- Without detection, a frame the published request accepts, read from the stream of
the request while nothing matching is buffered, ends up in the slot: after
`handle_signal_recv` the slot holds its payload, the buffer is as before the frame came,
and the receiver is signalled. -/
theorem message_signals_without_detection (s : State) (src tag count : Int)
    (payload : List Nat)
    (hd : s.detection = false) (h0 : 0 ≤ src) (h1 : src < s.my_world_size)
    (hm : s.match_source = src) (hdata : s.match_data = none)
    (hno : ∀ x ∈ s.buffers src, node_matches s.match_tag s.match_count x = false)
    (hacc : node_matches s.match_tag s.match_count (node_create tag count payload) = true)
    (ht1 : 0 ≤ tag) (ht2 : tag < 2 ^ 31) (hc1 : 0 ≤ count) (hc2 : count < 2 ^ 31)
    (hp : payload.length = count.toNat) :
    (worker_run s [.recv_msg src (frame tag count payload), .signal_recv src]).match_data
      = some payload ∧
    (worker_run s [.recv_msg src (frame tag count payload), .signal_recv src]).buffers src
      = s.buffers src ∧
    (worker_run s [.recv_msg src (frame tag count payload), .signal_recv src]).signals
      = s.signals + 1 ∧
    (worker_run s [.recv_msg src (frame tag count payload), .signal_recv src]).exited
      = s.exited ∧
    (worker_run s [.recv_msg src (frame tag count payload), .signal_recv src]).deadlock
      = s.deadlock := by
  have hf := handle_incoming_message_frame s src tag count payload [] ht1 ht2 hc1 hc2 hp
  rw [List.append_nil] at hf
  have e := extract_split s.match_tag s.match_count (s.buffers src)
    (node_create tag count payload) [] hno hacc
  subst hm
  simp only [worker_run, List.foldl_cons, List.foldl_nil, worker_step, WorkerAction.index, h0,
    h1, and_self, if_true, worker_section, hf, handle_signal_recv, hd, Bool.false_and,
    Bool.false_eq_true, if_false, decide_True, hdata, Option.isNone_none, Bool.and_self,
    Function.update_same, e, cond_signal, Option.isSome_some, Bool.true_or, List.append_nil,
    node_create]
  simp only [node_create, List.append_nil] at e
  simp [e]

/-- Without detection, a call of `MIMPI_Recv` that finds nothing matching and during
whose first wait the worker takes a frame the request accepts returns `MIMPI_SUCCESS`
with the payload of that frame. -/
theorem recv_wakes_without_detection (s : State) (data : List Nat)
    (count source tag mtag : Int) (payload : List Nat) (w1 w2 : List WorkerAction)
    (rest : List (List WorkerAction))
    (h1 : source ≠ s.my_world_rank) (h2 : 0 ≤ source) (h3 : source < s.my_world_size)
    (hd : s.detection = false) (hdl : s.deadlock = false) (hx : s.exited source = false)
    (hno : ∀ x ∈ s.buffers source, node_matches tag count x = false)
    (hacc : mtag = tag ∨ tag = MIMPI_ANY_TAG)
    (ht1 : 0 ≤ mtag) (ht2 : mtag < 2 ^ 31) (hc1 : 0 ≤ count) (hc2 : count < 2 ^ 31)
    (hp : payload.length = count.toNat) :
    (MIMPI_Recv s data count source tag w1 w2
      ([.recv_msg source (frame mtag count payload), .signal_recv source] :: rest)).result
      = some (MIMPI_SUCCESS, memcpy data payload count.toNat) := by
  have e := extract_none tag count (s.buffers source) hno
  have h2' : ¬ (source < 0 ∨ source ≥ s.my_world_size) := by omega
  have he : recv_enter s count source tag w1 w2 =
      { s with match_data := none, buffers := Function.update s.buffers source (s.buffers source) } := by
    simp [recv_enter, recv_extract, recv_probes, hd, e]
  have hup : Function.update s.buffers source (s.buffers source) = s.buffers :=
    Function.update_eq_self source s.buffers
  rw [hup] at he
  set s0 : State := { s with match_data := none } with hs0
  have hw : recv_waits s0 source = true := by simp [recv_waits, hs0, hx, hdl]
  set s1 : State := { s0 with match_source := source, match_tag := tag, match_count := count }
    with hs1
  have hnm : node_matches tag count (node_create mtag count payload) = true := by
    rcases hacc with h | h <;> simp [node_matches, node_create, h]
  have hs := message_signals_without_detection s1 source mtag count payload
    (by simp [hs1, hs0, hd]) h2 (by simp [hs1, hs0, h3]) (by simp [hs1]) (by simp [hs1, hs0])
    (by simpa [hs1, hs0] using hno) (by simpa [hs1] using hnm) ht1 ht2 hc1 hc2 hp
  set s2 : State :=
    worker_run s1 [.recv_msg source (frame mtag count payload), .signal_recv source] with hs2
  have hw2 : recv_waits { s2 with match_source := -1, match_tag := -1, match_count := -1 }
      source = false := by
    simp [recv_waits, hs.1]
  unfold MIMPI_Recv
  rw [if_neg h1, if_neg h2', he]
  have hl : recv_loop count source tag s0
      ([.recv_msg source (frame mtag count payload), .signal_recv source] :: rest)
      = some { s2 with match_source := -1, match_tag := -1, match_count := -1 } := by
    rw [recv_loop, if_pos hw]
    exact recv_loop_skip _ _ _ _ _ hw2
  rw [hl]
  simp [recv_finish, hs.1, Outcome.result]

/-! ## Return codes of `MIMPI_Recv` -/

/-- C5. With the caller's rank in `[0, N)`, no request published at call time and well
formed buffers: `MIMPI_Recv` returns SELF_OP when the source is the caller's rank and
NO_SUCH_RANK when it is outside `[0, N)`; for a valid source, a payload found in the
buffer at call time gives SUCCESS whatever the exited and deadlock flags and whatever
the worker does; the final assertion never fails; a call that returns does so with
SUCCESS exactly when a matched payload is held at loop exit, which then has `count`
bytes and fills `dest[0..count)`, otherwise with DEADLOCK_DETECTED if the deadlock flag
is set, and otherwise with REMOTE_FINISHED, `exited[source]` being set. The call does
return: at once when nothing has to be waited for, and on the wake that ends its first
wait when the worker has by then filled the slot (SUCCESS with the payload of the
slot), set the flag (DEADLOCK_DETECTED) or marked the source exited (REMOTE_FINISHED);
when none of these happened during its only wait it is still parked. Without detection
the hang-up of the source during the first wait gives REMOTE_FINISHED, and a frame the
request accepts, taken by the worker during the first wait, gives SUCCESS with the
payload of that frame. -/
theorem MIMPI_Recv_retcode (s : State) (data : List Nat) (count source tag : Int)
    (w1 w2 : List WorkerAction) (waits : List (List WorkerAction))
    (hr0 : 0 ≤ s.my_world_rank) (hr1 : s.my_world_rank < s.my_world_size)
    (hidle : s.match_source = -1) (hwf : wf_buffers s) :
    (source = s.my_world_rank →
      MIMPI_Recv s data count source tag w1 w2 waits
        = .returned (MIMPI_ERROR_ATTEMPTED_SELF_OP, data, s)) ∧
    ((source < 0 ∨ s.my_world_size ≤ source) →
      MIMPI_Recv s data count source tag w1 w2 waits
        = .returned (MIMPI_ERROR_NO_SUCH_RANK, data, s)) ∧
    (0 ≤ source → source < s.my_world_size → source ≠ s.my_world_rank →
      (∀ m, (extract_matching_data (s.buffers source) tag count).1 = some m →
        (MIMPI_Recv s data count source tag w1 w2 waits).result
          = some (MIMPI_SUCCESS, memcpy data m count.toNat)) ∧
      MIMPI_Recv s data count source tag w1 w2 waits ≠ .assert_failed ∧
      (∀ ret data' s', MIMPI_Recv s data count source tag w1 w2 waits
          = .returned (ret, data', s') →
        ∃ se, recv_loop count source tag (recv_enter s count source tag w1 w2) waits = some se ∧
          ((ret = MIMPI_SUCCESS ∧ ∃ m, se.match_data = some m ∧ m.length = count.toNat ∧
              data' = memcpy data m count.toNat ∧ data'.take count.toNat = m) ∨
           (ret = MIMPI_ERROR_DEADLOCK_DETECTED ∧ se.match_data = none ∧
              se.deadlock = true ∧ data' = data) ∨
           (ret = MIMPI_ERROR_REMOTE_FINISHED ∧ se.match_data = none ∧
              se.deadlock = false ∧ se.exited source = true ∧ data' = data))) ∧
      (recv_waits (recv_enter s count source tag w1 w2) source = false →
        (MIMPI_Recv s data count source tag w1 w2 waits).is_parked = false) ∧
      (∀ w rest sw, waits = w :: rest →
        recv_waits (recv_enter s count source tag w1 w2) source = true →
        sw = worker_run
          { recv_enter s count source tag w1 w2 with
            match_source := source, match_tag := tag, match_count := count } w →
        (∀ m, sw.match_data = some m →
          (MIMPI_Recv s data count source tag w1 w2 waits).result
            = some (MIMPI_SUCCESS, memcpy data m count.toNat)) ∧
        (sw.match_data = none → sw.deadlock = true →
          (MIMPI_Recv s data count source tag w1 w2 waits).result
            = some (MIMPI_ERROR_DEADLOCK_DETECTED, data)) ∧
        (sw.match_data = none → sw.deadlock = false → sw.exited source = true →
          (MIMPI_Recv s data count source tag w1 w2 waits).result
            = some (MIMPI_ERROR_REMOTE_FINISHED, data)) ∧
        (sw.match_data = none → sw.deadlock = false → sw.exited source = false → rest = [] →
          (MIMPI_Recv s data count source tag w1 w2 waits).is_parked = true)) ∧
      (s.detection = false → s.deadlock = false → s.exited source = false →
        (∀ x ∈ s.buffers source, node_matches tag count x = false) →
        (∀ rest, waits = [.hangup source] :: rest →
          (MIMPI_Recv s data count source tag w1 w2 waits).result
            = some (MIMPI_ERROR_REMOTE_FINISHED, data)) ∧
        (∀ mtag payload rest,
          waits = [.recv_msg source (frame mtag count payload), .signal_recv source] :: rest →
          (mtag = tag ∨ tag = MIMPI_ANY_TAG) → 0 ≤ mtag → mtag < 2 ^ 31 →
          0 ≤ count → count < 2 ^ 31 → payload.length = count.toNat →
          (MIMPI_Recv s data count source tag w1 w2 waits).result
            = some (MIMPI_SUCCESS, memcpy data payload count.toNat)))) := by
  refine ⟨?_, ?_, ?_⟩
  · intro h
    simp [MIMPI_Recv, h]
  · intro h
    have hne : source ≠ s.my_world_rank := by omega
    have h' : source < 0 ∨ source ≥ s.my_world_size := by omega
    simp [MIMPI_Recv, hne, h']
  · intro h0 h1 hne
    have h' : ¬ (source < 0 ∨ source ≥ s.my_world_size) := by omega
    have hinv := recv_enter_inv s count source tag w1 w2 hidle hwf
    have hR : MIMPI_Recv s data count source tag w1 w2 waits =
        match recv_loop count source tag (recv_enter s count source tag w1 w2) waits with
        | none => .parked
        | some s1 => recv_finish s1 data count source := by
      simp [MIMPI_Recv, hne, h']
    refine ⟨?_, ?_, ?_, ?_, ?_, ?_⟩
    · intro m hm
      rw [MIMPI_Recv_hit s data count source tag w1 w2 waits m hne h0 h1 hm]
      rfl
    · rw [hR]
      cases hl : recv_loop count source tag (recv_enter s count source tag w1 w2) waits with
      | none => simp
      | some se =>
        have hw := (recv_loop_inv count source tag waits _ se hinv hl).2
        simp only [recv_finish]
        cases hmd : se.match_data with
        | some m => simp
        | none =>
          simp only [recv_waits, hmd, Option.isNone_none, Bool.true_and, Bool.and_eq_false_iff,
            Bool.not_eq_false', Bool.not_eq_eq_eq_not, Bool.not_false] at hw
          rcases hw with hw | hw
          · by_cases hd : se.deadlock = true
            · simp [hd]
            · simp [hd, hw]
          · simp [hw]
    · intro ret data' s' hret
      rw [hR] at hret
      cases hl : recv_loop count source tag (recv_enter s count source tag w1 w2) waits with
      | none => rw [hl] at hret; cases hret
      | some se =>
        rw [hl] at hret
        have hi := recv_loop_inv count source tag waits _ se hinv hl
        refine ⟨se, rfl, ?_⟩
        simp only [recv_finish] at hret
        cases hmd : se.match_data with
        | some m =>
          rw [hmd] at hret
          simp only [Outcome.returned.injEq, Prod.mk.injEq] at hret
          obtain ⟨rfl, rfl, _⟩ := hret
          have hlen := hi.1.2.1 m hmd
          refine Or.inl ⟨rfl, m, rfl, hlen, rfl, ?_⟩
          simp [memcpy, ← hlen]
        | none =>
          rw [hmd] at hret
          simp only at hret
          by_cases hd : se.deadlock = true
          · rw [if_pos hd] at hret
            simp only [Outcome.returned.injEq, Prod.mk.injEq] at hret
            obtain ⟨rfl, rfl, _⟩ := hret
            exact Or.inr (Or.inl ⟨rfl, rfl, hd, rfl⟩)
          · rw [if_neg hd] at hret
            by_cases he : se.exited source = true
            · rw [if_pos he] at hret
              simp only [Outcome.returned.injEq, Prod.mk.injEq] at hret
              obtain ⟨rfl, rfl, _⟩ := hret
              exact Or.inr (Or.inr ⟨rfl, rfl, by simpa using hd, he, rfl⟩)
            · rw [if_neg he] at hret
              cases hret
    · intro hw
      rw [hR, recv_loop_skip _ _ _ _ _ hw]
      dsimp only
      unfold recv_finish
      cases hmd : (recv_enter s count source tag w1 w2).match_data with
      | some m => rfl
      | none =>
        dsimp only
        split_ifs <;> rfl
    · intro w rest sw hwaits hw hsw
      have hl : recv_loop count source tag (recv_enter s count source tag w1 w2) waits
          = recv_loop count source tag
              { sw with match_source := -1, match_tag := -1, match_count := -1 } rest := by
        rw [hwaits, recv_loop, if_pos hw, hsw]
      refine ⟨fun m hm => ?_, fun hm hd => ?_, fun hm hd hx => ?_, fun hm hd hx hrest => ?_⟩
      · have hw2 : recv_waits { sw with match_source := -1, match_tag := -1, match_count := -1 }
            source = false := by simp [recv_waits, hm]
        rw [hR, hl, recv_loop_skip _ _ _ _ _ hw2]
        simp [recv_finish, hm, Outcome.result]
      · have hw2 : recv_waits { sw with match_source := -1, match_tag := -1, match_count := -1 }
            source = false := by simp [recv_waits, hd]
        rw [hR, hl, recv_loop_skip _ _ _ _ _ hw2]
        simp [recv_finish, hm, hd, Outcome.result]
      · have hw2 : recv_waits { sw with match_source := -1, match_tag := -1, match_count := -1 }
            source = false := by simp [recv_waits, hx]
        rw [hR, hl, recv_loop_skip _ _ _ _ _ hw2]
        simp [recv_finish, hm, hd, hx, Outcome.result]
      · have hw2 : recv_waits { sw with match_source := -1, match_tag := -1, match_count := -1 }
            source = true := by simp [recv_waits, hm, hd, hx]
        rw [hR, hl, hrest, recv_loop, if_pos hw2]
        rfl
    · intro hd hdl hx hno
      refine ⟨fun rest hwaits => ?_, fun mtag payload rest hwaits hacc ht1 ht2 hc1 hc2 hp => ?_⟩
      · rw [hwaits]
        exact recv_finished_without_detection s data count source tag w1 w2 rest hne h0 h1
          hd hdl hx hno
      · rw [hwaits]
        exact recv_wakes_without_detection s data count source tag mtag payload w1 w2 rest
          hne h0 h1 hd hdl hx hno hacc ht1 ht2 hc1 hc2 hp

/-- The premises of `MIMPI_Recv_retcode` hold for rank 1 of 2 without detection, with a
one-byte message of tag 5 from rank 0 pending: its call `MIMPI_Recv(dest, 1, 0, 6)` finds
nothing matching, parks, and returns SUCCESS with the payload of the message of tag 6
that the worker takes during the wait. -/
theorem MIMPI_Recv_retcode_witness :
    scenario_receiver_with_tag5.buffers 0 = [node_create 5 1 [0xBB]] ∧
    (MIMPI_Recv scenario_receiver_with_tag5 [0] 1 0 6 [] []
      [[.recv_msg 0 (frame 6 1 [0xCC]), .signal_recv 0]]).result
        = some (MIMPI_SUCCESS, memcpy [0] [0xCC] 1) :=
  ⟨by decide,
    ((((MIMPI_Recv_retcode scenario_receiver_with_tag5 [0] 1 0 6 [] []
      [[.recv_msg 0 (frame 6 1 [0xCC]), .signal_recv 0]] (by decide) (by decide) rfl
      (worker_run_inv 1 _ (MIMPI_Init false 1 2)
        ⟨fun i n hn => (by cases hn), fun m hm => (by cases hm),
          fun h => absurd rfl h⟩).1.1).2.2
      (by decide) (by decide) (by decide)).2.2.2.2.2 rfl rfl rfl (by decide)).2
      6 [0xCC] [] rfl (Or.inl rfl) (by decide) (by decide) (by decide) (by decide) rfl)⟩

/-! ## The deadlock flag -/

theorem handle_signal_recv_flag (s : State) (i : Int) (h : s.deadlock = true) :
    (handle_signal_recv s i).deadlock = true := by
  unfold handle_signal_recv
  dsimp only [cond_signal]
  split_ifs <;> simp [h]

/-- What `handle_incoming_message` leaves as it is. -/
theorem handle_incoming_message_keeps (s : State) (source : Int) (stream : List Nat)
    (r : State × List Nat) (h : handle_incoming_message s source stream = some r) :
    r.1.deadlock = s.deadlock ∧ r.1.detection = s.detection ∧
    r.1.match_data = s.match_data ∧ r.1.exited = s.exited := by
  obtain ⟨r1, r2⟩ := r
  unfold handle_incoming_message at h
  dsimp only at h
  split_ifs at h with h1 h2 h3 h4
  · simp only [Option.some.injEq, Prod.mk.injEq] at h
    obtain ⟨rfl, _⟩ := h
    exact ⟨rfl, rfl, rfl, rfl⟩
  · simp only [Option.some.injEq, Prod.mk.injEq] at h
    obtain ⟨rfl, _⟩ := h
    exact ⟨rfl, rfl, rfl, rfl⟩

theorem worker_step_flag (s : State) (a : WorkerAction) (h : s.deadlock = true) :
    (worker_step s a).deadlock = true := by
  unfold worker_step
  split_ifs
  · cases a with
    | recv_msg i stream =>
      simp only [worker_section]
      cases hm : handle_incoming_message s i stream with
      | none => exact h
      | some r => exact (handle_incoming_message_keeps s i stream r hm).1.trans h
    | signal_recv i => exact handle_signal_recv_flag s i h
    | hangup i =>
      simp only [worker_section]
      split_ifs
      · exact h
      · exact handle_signal_recv_flag _ i h
  · exact h

theorem worker_run_flag (acts : List WorkerAction) (s : State) (h : s.deadlock = true) :
    (worker_run s acts).deadlock = true := by
  induction acts generalizing s with
  | nil => exact h
  | cons a rest ih => exact ih (worker_step s a) (worker_step_flag s a h)

/-- With detection enabled the worker never fills the slot: `handle_signal_recv` takes
its detection branch whenever the request is for the stream at hand. -/
theorem worker_step_detection (s : State) (a : WorkerAction) (hd : s.detection = true) :
    (worker_step s a).detection = true ∧ (worker_step s a).match_data = s.match_data := by
  have hs : ∀ (t : State) (i : Int), t.detection = true →
      (handle_signal_recv t i).detection = true ∧
      (handle_signal_recv t i).match_data = t.match_data := by
    intro t i ht
    unfold handle_signal_recv
    by_cases hm : t.match_source = i
    · simp only [ht, hm, decide_True, Bool.and_self, if_true, cond_signal]
      split_ifs <;> exact ⟨rfl, rfl⟩
    · simp [ht, hm]
  unfold worker_step
  split_ifs
  · cases a with
    | recv_msg i stream =>
      simp only [worker_section]
      cases hm : handle_incoming_message s i stream with
      | none => exact ⟨hd, rfl⟩
      | some r =>
        have hk := handle_incoming_message_keeps s i stream r hm
        exact ⟨hk.2.1.trans hd, hk.2.2.1⟩
    | signal_recv i => exact hs s i hd
    | hangup i =>
      simp only [worker_section]
      split_ifs
      · exact ⟨hd, rfl⟩
      · exact hs _ i hd
  · exact ⟨hd, rfl⟩

theorem worker_run_detection (acts : List WorkerAction) (s : State) (hd : s.detection = true) :
    (worker_run s acts).detection = true ∧ (worker_run s acts).match_data = s.match_data := by
  induction acts generalizing s with
  | nil => exact ⟨hd, rfl⟩
  | cons a rest ih =>
    have h1 := worker_step_detection s a hd
    have h2 := ih (worker_step s a) h1.1
    exact ⟨h2.1, h2.2.trans h1.2⟩

theorem MIMPI_Send_detection (s : State) (data : List Nat) (count destination tag : Int) :
    (MIMPI_Send s data count destination tag).2.detection = s.detection := by
  unfold MIMPI_Send
  dsimp only
  (repeat' split) <;> rfl

theorem recv_enter_flag (s : State) (count source tag : Int) (w1 w2 : List WorkerAction)
    (h : s.deadlock = true) : (recv_enter s count source tag w1 w2).deadlock = true := by
  have h1 : (recv_extract s count source tag).deadlock = true := h
  unfold recv_enter
  dsimp only
  split_ifs
  · have h2 := worker_run_flag w1 _ h1
    have h3 : (recv_send_probe (worker_run (recv_extract s count source tag) w1)
        count source tag).deadlock = true := by
      unfold recv_send_probe
      rw [(MIMPI_Send_keeps _ _ _ _ _).2.2.2.2.2]
      exact h2
    have h4 := worker_run_flag w2 _ h3
    simp [recv_check, h4]
  · exact h1

/-- The state `recv_finish` returns differs from the state at loop exit at most in the
slot, which it clears. -/
theorem recv_finish_flag (s : State) (data : List Nat) (count source : Int)
    (h : s.deadlock = true) : (recv_finish s data count source).flagged := by
  intro s' hs'
  unfold recv_finish at hs'
  cases hm : s.match_data with
  | some m =>
    rw [hm] at hs'
    simp only [Outcome.state_after, Option.some.injEq] at hs'
    rw [← hs']
    exact h
  | none =>
    rw [hm] at hs'
    simp only [h, if_true, Outcome.state_after, Option.some.injEq] at hs'
    rw [← hs']
    exact h

/-- No call of `MIMPI_Recv` clears the deadlock flag. -/
theorem MIMPI_Recv_flag (s : State) (data : List Nat) (count source tag : Int)
    (w1 w2 : List WorkerAction) (waits : List (List WorkerAction)) (h : s.deadlock = true) :
    (MIMPI_Recv s data count source tag w1 w2 waits).flagged := by
  have he := recv_enter_flag s count source tag w1 w2 h
  have hw : recv_waits (recv_enter s count source tag w1 w2) source = false := by
    simp [recv_waits, he]
  unfold MIMPI_Recv
  split_ifs
  · intro s' hs'
    simp only [Outcome.state_after, Option.some.injEq] at hs'
    rw [← hs']; exact h
  · intro s' hs'
    simp only [Outcome.state_after, Option.some.injEq] at hs'
    rw [← hs']; exact h
  · rw [recv_loop_skip _ _ _ _ _ hw]
    exact recv_finish_flag _ data count source he

/-- A call of `MIMPI_Recv` that returns `MIMPI_ERROR_DEADLOCK_DETECTED` leaves the flag
set. -/
theorem MIMPI_Recv_detected_flag (s : State) (data : List Nat) (count source tag : Int)
    (w1 w2 : List WorkerAction) (waits : List (List WorkerAction)) (d1 : List Nat) (s1 : State)
    (h : MIMPI_Recv s data count source tag w1 w2 waits
      = .returned (MIMPI_ERROR_DEADLOCK_DETECTED, d1, s1)) : s1.deadlock = true := by
  unfold MIMPI_Recv at h
  split_ifs at h
  · cases h
  · cases h
  · cases hl : recv_loop count source tag (recv_enter s count source tag w1 w2) waits with
    | none => rw [hl] at h; cases h
    | some se =>
      rw [hl] at h
      dsimp only at h
      unfold recv_finish at h
      cases hm : se.match_data with
      | some m => rw [hm] at h; cases h
      | none =>
        rw [hm] at h
        dsimp only at h
        split_ifs at h with hd hx
        · cases h
          exact hd
        · cases h

/-- With the deadlock flag set, a call of `MIMPI_Recv` from a valid source that finds
nothing matching buffered reaches its loop with the slot empty, skips the loop and
returns `MIMPI_ERROR_DEADLOCK_DETECTED`, whatever the worker does meanwhile and whether
or not the source has exited. -/
theorem MIMPI_Recv_after_deadlock (s : State) (data : List Nat) (count source tag : Int)
    (w1 w2 : List WorkerAction) (waits : List (List WorkerAction))
    (hflag : s.deadlock = true)
    (h1 : source ≠ s.my_world_rank) (h2 : 0 ≤ source) (h3 : source < s.my_world_size)
    (hno : (extract_matching_data (s.buffers source) tag count).1 = none) :
    recv_waits (recv_enter s count source tag w1 w2) source = false ∧
    MIMPI_Recv s data count source tag w1 w2 waits
      = .returned (MIMPI_ERROR_DEADLOCK_DETECTED, data, recv_enter s count source tag w1 w2) := by
  have he := recv_enter_flag s count source tag w1 w2 hflag
  have hw : recv_waits (recv_enter s count source tag w1 w2) source = false := by
    simp [recv_waits, he]
  have hx : (recv_extract s count source tag).match_data = none := by
    simp [recv_extract, hno]
  have hmd : (recv_enter s count source tag w1 w2).match_data = none := by
    unfold recv_enter
    dsimp only
    split_ifs with hp
    · have hd : (recv_extract s count source tag).detection = true := by
        simp only [recv_probes, Bool.and_eq_true] at hp
        exact hp.2
      have a1 := worker_run_detection w1 _ hd
      have a2 : (recv_send_probe (worker_run (recv_extract s count source tag) w1)
          count source tag).detection = true := by
        unfold recv_send_probe
        rw [MIMPI_Send_detection]
        exact a1.1
      have a3 : (recv_send_probe (worker_run (recv_extract s count source tag) w1)
          count source tag).match_data = none := by
        unfold recv_send_probe
        rw [(MIMPI_Send_keeps _ _ _ _ _).2.1, a1.2]
        exact hx
      have a4 := worker_run_detection w2 _ a2
      show (worker_run _ w2).match_data = none
      rw [a4.2]
      exact a3
    · exact hx
  have h2' : ¬ (source < 0 ∨ source ≥ s.my_world_size) := by omega
  refine ⟨hw, ?_⟩
  unfold MIMPI_Recv
  rw [if_neg h1, if_neg h2', recv_loop_skip _ _ _ _ _ hw]
  simp [recv_finish, hmd, he]

theorem MIMPI_CHECK_flagged {L : Type} (o : Step L) (k : L → State → Step L)
    (ho : o.flagged) (hk : ∀ l s, s.deadlock = true → (k l s).flagged) :
    (MIMPI_CHECK o k).flagged := by
  cases o with
  | returned r =>
    obtain ⟨ret, l, s⟩ := r
    have hs : s.deadlock = true := ho s rfl
    cases ret <;> first | exact hk l s hs | exact ho
  | parked => exact ho
  | assert_failed => exact ho

theorem call_recv_flagged {L : Type} (s : State) (buf : List Nat) (count source tag : Int)
    (k : CallSchedule) (put : List Nat → L) (h : s.deadlock = true) :
    (call_recv s buf count source tag k put).flagged := by
  have hr := MIMPI_Recv_flag (worker_run s k.before) buf count source tag k.w1 k.w2 k.waits
    (worker_run_flag _ s h)
  unfold call_recv
  cases ho : MIMPI_Recv (worker_run s k.before) buf count source tag k.w1 k.w2 k.waits with
  | returned r =>
    rw [ho] at hr
    intro s' hs'
    exact hr s' hs'
  | parked => intro s' hs'; cases hs'
  | assert_failed => intro s' hs'; cases hs'

theorem call_send_flagged {L : Type} (s : State) (data : List Nat) (count destination tag : Int)
    (k : CallSchedule) (l : L) (h : s.deadlock = true) :
    (call_send s data count destination tag k l).flagged := by
  intro s' hs'
  simp only [call_send, Outcome.state_after, Option.some.injEq] at hs'
  rw [← hs', (MIMPI_Send_keeps _ _ _ _ _).2.2.2.2.2]
  exact worker_run_flag _ s h

theorem returned_flagged {L : Type} (ret : MIMPI_Retcode) (l : L) (s : State)
    (h : s.deadlock = true) : (Outcome.returned (ret, l, s) : Step L).flagged := by
  intro s' hs'
  simp only [Outcome.state_after, Option.some.injEq] at hs'
  rw [← hs']
  exact h

theorem assert_failed_flagged {L : Type} : (Outcome.assert_failed : Step L).flagged := by
  intro s' hs'
  cases hs'

theorem for_children_flagged {L : Type} (body : Int → L → State → Step L)
    (hbody : ∀ i l s, s.deadlock = true → (body i l s).flagged)
    (n : Nat) (i : Int) (l : L) (s : State) (h : s.deadlock = true) :
    (for_children body n i l s).flagged := by
  induction n generalizing i l s with
  | zero => exact returned_flagged _ l s h
  | succ n ih =>
    exact MIMPI_CHECK_flagged _ _ (hbody i l s h) (fun l1 s1 h1 => ih (i + 1) l1 s1 h1)

/-- `MIMPI_Barrier` does not clear the deadlock flag: it acts on the state only through
`MIMPI_Send` and `MIMPI_Recv`. -/
theorem MIMPI_Barrier_flagged (s : State) (buf : List Nat) (sched : Nat → CallSchedule)
    (h : s.deadlock = true) : (MIMPI_Barrier s buf sched).flagged := by
  unfold MIMPI_Barrier
  refine MIMPI_CHECK_flagged _ _ (for_children_flagged _ ?_ _ _ _ _ h) ?_
  · intro i b s1 h1
    refine MIMPI_CHECK_flagged _ _ (call_recv_flagged _ _ _ _ _ _ _ h1) ?_
    intro b1 s2 h2
    split_ifs
    · exact returned_flagged _ _ _ h2
    · exact assert_failed_flagged
  · intro b s1 h1
    refine MIMPI_CHECK_flagged _ _ ?_ ?_
    · split_ifs
      · refine MIMPI_CHECK_flagged _ _ (call_send_flagged _ _ _ _ _ _ _ h1) ?_
        intro b1 s2 h2
        refine MIMPI_CHECK_flagged _ _ (call_recv_flagged _ _ _ _ _ _ _ h2) ?_
        intro b2 s3 h3
        split_ifs
        · exact returned_flagged _ _ _ h3
        · exact assert_failed_flagged
      · exact returned_flagged _ _ _ h1
    · intro b1 s2 h2
      exact for_children_flagged _ (fun i b2 s3 h3 => call_send_flagged _ _ _ _ _ _ _ h3)
        _ _ _ _ h2

/-- `MIMPI_Bcast` does not clear the deadlock flag. -/
theorem MIMPI_Bcast_process_flagged (s : State) (data : List Nat) (count root : Int)
    (sched : Nat → CallSchedule) (h : s.deadlock = true) :
    (MIMPI_Bcast_process s data count root sched).flagged := by
  unfold MIMPI_Bcast_process
  by_cases hr : root < 0 ∨ root ≥ s.my_world_size
  · rw [if_pos hr]
    exact returned_flagged _ _ _ h
  · rw [if_neg hr]
    refine MIMPI_CHECK_flagged _ _ (for_children_flagged _ ?_ _ _ _ _ h) ?_
    · intro i l s1 h1
      refine MIMPI_CHECK_flagged _ _ (call_recv_flagged _ _ _ _ _ _ _ h1) ?_
      intro l1 s2 h2
      exact returned_flagged _ _ _ h2
    · intro l s1 h1
      refine MIMPI_CHECK_flagged _ _ ?_ ?_
      · split_ifs
        · refine MIMPI_CHECK_flagged _ _ (call_send_flagged _ _ _ _ _ _ _ h1) ?_
          intro l1 s2 h2
          exact call_recv_flagged _ _ _ _ _ _ _ h2
        · exact returned_flagged _ _ _ h1
      · intro l1 s2 h2
        exact for_children_flagged _ (fun i l2 s3 h3 => call_send_flagged _ _ _ _ _ _ _ h3)
          _ _ _ _ h2

/-- `MIMPI_Reduce` does not clear the deadlock flag. -/
theorem MIMPI_Reduce_process_flagged (s : State) (send_data recv_data : List Nat)
    (count : Int) (op : MIMPI_Op) (root : Int) (sched : Nat → CallSchedule)
    (h : s.deadlock = true) :
    (MIMPI_Reduce_process s send_data recv_data count op root sched).flagged := by
  unfold MIMPI_Reduce_process
  by_cases hr : root < 0 ∨ root ≥ s.my_world_size
  · rw [if_pos hr]
    exact returned_flagged _ _ _ h
  · rw [if_neg hr]
    refine MIMPI_CHECK_flagged _ _ (for_children_flagged _ ?_ _ _ _ _ h) ?_
    · intro i l s1 h1
      refine MIMPI_CHECK_flagged _ _ (call_recv_flagged _ _ _ _ _ _ _ h1) ?_
      intro l1 s2 h2
      exact returned_flagged _ _ _ h2
    · intro l s1 h1
      refine MIMPI_CHECK_flagged _ _ ?_ ?_
      · split_ifs
        · refine MIMPI_CHECK_flagged _ _ (call_send_flagged _ _ _ _ _ _ _ h1) ?_
          intro l1 s2 h2
          exact call_recv_flagged _ _ _ _ _ _ _ h2
        · exact returned_flagged _ _ _ h1
      · intro l1 s2 h2
        exact for_children_flagged _ (fun i l2 s3 h3 => call_send_flagged _ _ _ _ _ _ _ h3)
          _ _ _ _ h2

/-- No event in the life of a process clears the deadlock flag. -/
theorem call_state_flag (s : State) (c : Call) (s' : State) (h : s.deadlock = true)
    (hc : call_state s c = some s') : s'.deadlock = true := by
  cases c with
  | send data count destination tag =>
    simp only [call_state, Option.some.injEq] at hc
    rw [← hc, (MIMPI_Send_keeps _ _ _ _ _).2.2.2.2.2]
    exact h
  | recv data count source tag w1 w2 waits =>
    exact MIMPI_Recv_flag s data count source tag w1 w2 waits h s' hc
  | barrier buf sched => exact MIMPI_Barrier_flagged s buf sched h s' hc
  | bcast data count root sched => exact MIMPI_Bcast_process_flagged s data count root sched h s' hc
  | reduce send_data recv_data count op root sched =>
    exact MIMPI_Reduce_process_flagged s send_data recv_data count op root sched h s' hc
  | worker a =>
    simp only [call_state, Option.some.injEq] at hc
    rw [← hc]
    exact worker_step_flag s a h

theorem run_calls_flag (calls : List Call) (s s' : State) (h : s.deadlock = true)
    (hr : run_calls s calls = some s') : s'.deadlock = true := by
  induction calls generalizing s with
  | nil =>
    simp only [run_calls, Option.some.injEq] at hr
    rw [← hr]
    exact h
  | cons c cs ih =>
    unfold run_calls at hr
    cases hc : call_state s c with
    | none => rw [hc] at hr; cases hr
    | some s1 =>
      rw [hc] at hr
      exact ih s1 (call_state_flag s c s1 h hc) hr

/-- C15. The deadlock flag is monotone: `MIMPI_Init` clears it, and once a call of
`MIMPI_Recv` has returned `MIMPI_ERROR_DEADLOCK_DETECTED` the flag is set and stays set
through every later `MIMPI_Send`, `MIMPI_Recv`, collective and step of the worker.
Consequently a later `MIMPI_Recv` from a valid source that finds nothing matching
buffered at call time does not enter its wait loop and returns
`MIMPI_ERROR_DEADLOCK_DETECTED`, under every schedule of the worker (so also when the
awaited message arrives during the call) and whether or not the source has exited. -/
theorem deadlock_flag_monotone (s0 : State) (d0 : List Nat) (c0 p0 t0 : Int)
    (u1 u2 : List WorkerAction) (us : List (List WorkerAction)) (d1 : List Nat) (s1 : State)
    (hfirst : MIMPI_Recv s0 d0 c0 p0 t0 u1 u2 us
      = .returned (MIMPI_ERROR_DEADLOCK_DETECTED, d1, s1))
    (calls : List Call) (s2 : State) (hrun : run_calls s1 calls = some s2)
    (data : List Nat) (count source tag : Int)
    (h1 : source ≠ s2.my_world_rank) (h2 : 0 ≤ source) (h3 : source < s2.my_world_size)
    (hno : (extract_matching_data (s2.buffers source) tag count).1 = none)
    (w1 w2 : List WorkerAction) (waits : List (List WorkerAction)) :
    (∀ detect rank size, (MIMPI_Init detect rank size).deadlock = false) ∧
    s1.deadlock = true ∧ s2.deadlock = true ∧
    recv_waits (recv_enter s2 count source tag w1 w2) source = false ∧
    ∃ s3, MIMPI_Recv s2 data count source tag w1 w2 waits
        = .returned (MIMPI_ERROR_DEADLOCK_DETECTED, data, s3) ∧ s3.deadlock = true := by
  have f1 : s1.deadlock = true :=
    MIMPI_Recv_detected_flag s0 d0 c0 p0 t0 u1 u2 us d1 s1 hfirst
  have f2 : s2.deadlock = true := run_calls_flag calls s1 s2 f1 hrun
  have hr := MIMPI_Recv_after_deadlock s2 data count source tag w1 w2 waits f2 h1 h2 h3 hno
  exact ⟨fun _ _ _ => rfl, f1, f2, hr.1,
    recv_enter s2 count source tag w1 w2, hr.2, recv_enter_flag s2 count source tag w1 w2 f2⟩

/-- The premises of `deadlock_flag_monotone` hold for rank 0 of 2: its first call
detects the deadlock with rank 1, then rank 1 hangs up, rank 0 sends and enters the
barrier, and a later call from the exited rank 1 returns
`MIMPI_ERROR_DEADLOCK_DETECTED`. -/
theorem deadlock_flag_monotone_witness :
    (∀ detect rank size, (MIMPI_Init detect rank size).deadlock = false) ∧
    scenario_deadlocked.deadlock = true ∧ scenario_deadlocked_later.deadlock = true ∧
    recv_waits (recv_enter scenario_deadlocked_later 2 1 7 [] []) 1 = false ∧
    ∃ s3, MIMPI_Recv scenario_deadlocked_later [9, 9] 2 1 7 [] [] []
        = .returned (MIMPI_ERROR_DEADLOCK_DETECTED, [9, 9], s3) ∧ s3.deadlock = true :=
  deadlock_flag_monotone (scenario_detecting 0 1) [0, 0] 2 1 7 [] []
    [[.recv_msg 1 (mutual_probe 1 0 7 2), .signal_recv 1]] [0, 0] scenario_deadlocked rfl
    scenario_later_calls scenario_deadlocked_later rfl [9, 9] 2 1 7
    (by decide) (by decide) (by decide) (by decide) [] [] []

end MIMPI
